import Mathlib

/-!
# Verification of the A-Maze-ing maze generator

Shallow embedding of `src/generator.py` and `src/a_maze_ing.py`:

* cells are `Int × Int` coordinates (Python ints);
* the grid is a `List (List Int)` of wall masks, indexed `grid[y][x]`;
* Python's global RNG is modelled by explicit streams of natural numbers
  (`random.choice xs` becomes `xs[r % xs.length]`, `random.randint 0 n`
  becomes `r % (n+1)`); quantifying over all streams covers every seed;
* the `while` loops of `generate` and `solve` are modelled with explicit
  fuel; the fuel supplied by the wrappers is proved sufficient below;
* Python list indexing (including silent wrapping of indices in
  `[-len, -1]` and `IndexError` beyond) is modelled by `pyGet`; the
  solver threads the possible `IndexError` through `Except`.
-/

namespace AMazeIng

/-- A cell coordinate `(x, y)` as used throughout `generator.py`. -/
abbrev Cell := Int × Int

/-- A wall-mask grid: `grid[y][x]` is the mask of cell `(x, y)`. -/
abbrev Grid := List (List Int)

/-- Python list read `l[i]`: indices in `[-len, -1]` wrap to the end of
the list, anything else out of range raises `IndexError` (`none`). -/
def pyGet (l : List α) (i : Int) : Option α :=
  let j : Int := if i < 0 then i + l.length else i
  if 0 ≤ j ∧ j < l.length then l.get? j.toNat else none

/-- Read the mask of cell `(x, y)`; only used where both indices are
known to be in range, so plain `getD` indexing is faithful. -/
def gridGet (g : Grid) (x y : Int) : Int :=
  (g.getD y.toNat []).getD x.toNat 0

/-- In-place update `grid[y][x] = v` (all writes performed by the source
are at in-range nonnegative indices, which the invariants below prove). -/
def gridSet (g : Grid) (x y : Int) (v : Int) : Grid :=
  g.set y.toNat ((g.getD y.toNat []).set x.toNat v)

/-- `self.directions`: insertion-ordered entries
`(key, dx, dy, wall_bit)`; iteration order is N, E, S, W. -/
def directions : List (Char × Int × Int × Int) :=
  [('N', 0, -1, 1), ('E', 1, 0, 2), ('S', 0, 1, 4), ('W', -1, 0, 8)]

/-- `self.opposite`: the wall bit on the far side of each edge. -/
def opposite (b : Int) : Int :=
  if b = 1 then 4 else if b = 2 then 8 else if b = 4 then 1
  else if b = 8 then 2 else 0

/-- `0 <= x < width and 0 <= y < height`. -/
def inBounds (w h : Nat) (c : Cell) : Bool :=
  0 ≤ c.1 && c.1 < (w : Int) && 0 ≤ c.2 && c.2 < (h : Int)

/-- State of a `MazeGenerator` instance. -/
structure MazeState where
  width : Nat
  height : Nat
  grid : Grid
  pattern : List Cell
  isPerfect : Bool

/-- `MazeGenerator.__init__`: every cell starts fully walled (mask 15),
with an empty pattern list. -/
def mazeInit (width height : Nat) (isPerfect : Bool) : MazeState :=
  { width := width
    height := height
    grid := List.replicate height (List.replicate width 15)
    pattern := []
    isPerfect := isPerfect }

/-- The ASCII template of `MazeGenerator.add_pattern`. -/
def patternRows : List String :=
  ["X.X.XXX",
   "X.X...X",
   "XXX.XXX",
   "..X.X..",
   "..X.XXX"]

/-- `MazeGenerator.add_pattern`: centre the 7×5 template with floor
division (`Int.fdiv` is Python's `//`), keep the `'X'` cells that land
inside the grid, and append them to the pattern list. -/
def addPattern (st : MazeState) : MazeState :=
  let startX : Int := Int.fdiv ((st.width : Int) - 7) 2
  let startY : Int := Int.fdiv ((st.height : Int) - 5) 2
  let cells :=
    (List.range 5).flatMap fun y =>
      (List.range 7).filterMap fun x =>
        if (patternRows.getD y "").data.getD x ' ' = 'X' then
          let tx : Int := startX + x
          let ty : Int := startY + y
          if inBounds st.width st.height (tx, ty) then some (tx, ty)
          else none
        else none
  { st with pattern := st.pattern ++ cells }

/-- Mutable state of the `generate` loop: the grid plus the `visited`
and `stack` lists (head of `stack` is Python's `stack[-1]`). -/
structure GenState where
  grid : Grid
  visited : List Cell
  stack : List Cell

/-- The `neighbors` list built in each iteration of `generate`: unvisited
in-bounds neighbours in direction order, as `(new_x, new_y, wall_bit)`. -/
def genNeighbors (w h : Nat) (visited : List Cell) (c : Cell) :
    List (Int × Int × Int) :=
  directions.filterMap fun d =>
    let n : Cell := (c.1 + d.2.1, c.2 + d.2.2.1)
    if inBounds w h n ∧ n ∉ visited then some (n.1, n.2, d.2.2.2)
    else none

/-- One iteration of the `generate` while-loop (the stack is known to be
nonempty with top `c`).  `r` is the RNG draw used by `random.choice`. -/
def genIter (w h : Nat) (r : Nat) (c : Cell) (rest : List Cell)
    (g : Grid) (visited : List Cell) : GenState :=
  if genNeighbors w h visited c = [] then ⟨g, visited, rest⟩
  else
    match (genNeighbors w h visited c).getD
        (r % (genNeighbors w h visited c).length) (0, 0, 0) with
    | (nx, ny, wallBreak) =>
      ⟨gridSet (gridSet g c.1 c.2 (gridGet g c.1 c.2 - wallBreak)) nx ny
          (gridGet (gridSet g c.1 c.2 (gridGet g c.1 c.2 - wallBreak)) nx ny
            - opposite wallBreak),
        visited ++ [(nx, ny)], (nx, ny) :: c :: rest⟩

/-- The `generate` while-loop with explicit fuel; `i` indexes the RNG
stream `rnd`. -/
def genLoop (w h : Nat) (rnd : Nat → Nat) :
    Nat → Nat → GenState → GenState
  | 0, _, s => s
  | fuel + 1, i, s =>
    match s.stack with
    | [] => s
    | c :: rest =>
      genLoop w h rnd fuel (i + 1) (genIter w h (rnd i) c rest s.grid s.visited)

/-- Body of one `non_perfect` attempt at cell `(rx, ry)` with the drawn
axis `dir`: break the east (`dir = 0`) or south wall if both endpoint
cells are outside the pattern and the wall is still present. -/
def braidAt (w h : Nat) (pattern : List Cell) (rx ry : Int) (dir : Nat)
    (g : Grid) : Grid :=
  if dir = 0 then
    if (rx, ry) ∉ pattern ∧ (rx + 1, ry) ∉ pattern then
      if Int.land (gridGet g rx ry) 2 ≠ 0 then
        gridSet (gridSet g rx ry (gridGet g rx ry - 2)) (rx + 1) ry
          (gridGet (gridSet g rx ry (gridGet g rx ry - 2)) (rx + 1) ry - 8)
      else g
    else g
  else
    if (rx, ry) ∉ pattern ∧ (rx, ry + 1) ∉ pattern then
      if Int.land (gridGet g rx ry) 4 ≠ 0 then
        gridSet (gridSet g rx ry (gridGet g rx ry - 4)) rx (ry + 1)
          (gridGet (gridSet g rx ry (gridGet g rx ry - 4)) rx (ry + 1) - 1)
      else g
    else g

/-- One iteration of the `non_perfect` loop.  The draw `r` supplies the
three `randint` results (`random_x`, `random_y`, `direction`); the
caller guarantees `width ≥ 2` and `height ≥ 2` so the ranges are valid. -/
def braidIter (w h : Nat) (pattern : List Cell) (r : Nat × Nat × Nat)
    (g : Grid) : Grid :=
  braidAt w h pattern ((r.1 % (w - 1) : Nat)) ((r.2.1 % (h - 1) : Nat))
    (r.2.2 % 2) g

/-- The `for _ in range(break_wall)` loop of `non_perfect`. -/
def braidLoop (w h : Nat) (pattern : List Cell)
    (rnd : Nat → Nat × Nat × Nat) : Nat → Nat → Grid → Grid
  | 0, _, g => g
  | k + 1, i, g =>
    braidLoop w h pattern rnd k (i + 1) (braidIter w h pattern (rnd i) g)

/-- `MazeGenerator.non_perfect`.  When `width < 2` or `height < 2` and
`break_wall ≥ 1`, Python's `random.randint(0, -1)` raises `ValueError`
in the first iteration before any grid write, so the grid is returned
unmodified in that case. -/
def nonPerfect (st : MazeState) (rnd : Nat → Nat × Nat × Nat) : MazeState :=
  let breakWall := st.width * st.height / 20
  if 2 ≤ st.width ∧ 2 ≤ st.height then
    { st with grid := braidLoop st.width st.height st.pattern rnd breakWall 0 st.grid }
  else st

/-- `MazeGenerator.generate`: run the recursive-backtracker loop from
`(0, 0)` with `visited = [(0,0)] + pattern`, then braid if not perfect.
The fuel `2*w*h + |pattern| + 2` is proved sufficient below. -/
def generate (st : MazeState) (rnd : Nat → Nat)
    (rndBraid : Nat → Nat × Nat × Nat) : MazeState :=
  let fuel := 2 * st.width * st.height + st.pattern.length + 2
  let s := genLoop st.width st.height rnd fuel 0
    ⟨st.grid, (0, 0) :: st.pattern, [(0, 0)]⟩
  let st1 := { st with grid := s.grid }
  if st.isPerfect then st1 else nonPerfect st1 rndBraid

/-- Python `IndexError` raised by an out-of-range list subscript. -/
inductive PyError
  | indexError
deriving DecidableEq, Repr

/-- `self.grid[y][x]` exactly as Python evaluates it in `solve`
(negative indices wrap, others out of range raise `IndexError`). -/
def maskAccess (g : Grid) (x y : Int) : Except PyError Int :=
  match pyGet g y with
  | none => .error .indexError
  | some row =>
    match pyGet row x with
    | none => .error .indexError
    | some v => .ok v

/-- The `for direction in self.directions` scan of one `solve`
iteration: enqueue each in-bounds unvisited neighbour reachable through
a clear wall bit of the current cell, in N, E, S, W order. -/
def solveScan (w h : Nat) (g : Grid) (c : Cell) (p : String) :
    List (Char × Int × Int × Int) → List (Cell × String) → List Cell →
    Except PyError (List (Cell × String) × List Cell)
  | [], q, vis => .ok (q, vis)
  | d :: ds, q, vis =>
    let n : Cell := (c.1 + d.2.1, c.2 + d.2.2.1)
    if inBounds w h n then
      if n ∈ vis then solveScan w h g c p ds q vis
      else
        match maskAccess g c.1 c.2 with
        | .error e => .error e
        | .ok m =>
          if Int.land m d.2.2.2 = 0 then
            solveScan w h g c p ds (q ++ [(n, p.push d.1)]) (n :: vis)
          else solveScan w h g c p ds q vis
    else solveScan w h g c p ds q vis

/-- The BFS while-loop of `solve` with explicit fuel. -/
def solveLoop (w h : Nat) (g : Grid) (endc : Cell) :
    Nat → List (Cell × String) → List Cell → Except PyError String
  | 0, _, _ => .ok ""
  | fuel + 1, q, vis =>
    match q with
    | [] => .ok ""
    | (c, p) :: rest =>
      if c = endc then .ok p
      else
        match solveScan w h g c p directions rest vis with
        | .error e => .error e
        | .ok (q2, vis2) => solveLoop w h g endc fuel q2 vis2

/-- `MazeGenerator.solve`: BFS from `start` seeded with
`visited = {start}`.  The fuel `w*h + 2` is proved sufficient below. -/
def solve (st : MazeState) (start endc : Cell) : Except PyError String :=
  solveLoop st.width st.height st.grid endc (st.width * st.height + 2)
    [(start, "")] [start]

/-- Upper-case hexadecimal digit (the `format(·, 'X')` alphabet). -/
def hexChar (n : Nat) : Char :=
  if n < 10 then Char.ofNat (48 + n) else Char.ofNat (55 + n)

/-- Upper-case hexadecimal digit list of a natural number. -/
def hexRep (n : Nat) : List Char :=
  if n < 16 then [hexChar n]
  else hexRep (n / 16) ++ [hexChar (n % 16)]
  decreasing_by exact Nat.div_lt_self (by omega) (by omega)

/-- Python `format(m, 'X')`: upper-case hex, minus sign if negative. -/
def pyFormatX (m : Int) : String :=
  if m < 0 then ⟨'-' :: hexRep (-m).toNat⟩ else ⟨hexRep m.toNat⟩

/-- `MazeGenerator.save_to_file`, modelled as the full text written to
the file: one line of hex digits per row, a blank line, the entry and
exit coordinates as `x,y`, and the solution, each newline-terminated. -/
def saveToFile (st : MazeState) (entry exitc : Cell) (solution : String) :
    String :=
  String.join (st.grid.map fun row => String.join (row.map pyFormatX) ++ "\n")
    ++ "\n"
    ++ toString entry.1 ++ "," ++ toString entry.2 ++ "\n"
    ++ toString exitc.1 ++ "," ++ toString exitc.2 ++ "\n"
    ++ solution ++ "\n"

/-- Insert or overwrite a key in an insertion-ordered association list
(Python dict assignment). -/
def dictSet (d : List (String × String)) (k v : String) :
    List (String × String) :=
  if (d.lookup k).isSome then
    d.map fun p => if p.1 = k then (k, v) else p
  else d ++ [(k, v)]

/-- The `required` key list of `load_config`. -/
def requiredKeys : List String :=
  ["WIDTH", "HEIGHT", "ENTRY", "EXIT", "OUTPUT_FILE", "PERFECT"]

/-- The key=value parsing loop of `load_config` (`#`-comment and empty
lines skipped, `split("=", 1)` with both parts stripped); the file
contents are given as the list of lines the Python `for line in config`
iteration yields. -/
def parseConfig (lines : List String) : List (String × String) :=
  lines.foldl (fun d line =>
    if line = "" ∨ line.startsWith "#" then d
    else
      match line.splitOn "=" with
      | [] => d
      | [_] => d
      | key :: rest => dictSet d key.trim (String.intercalate "=" rest).trim) []

/-- `load_config`.  `.error msg` models printing `msg` and terminating
through `exit(1)` (nonzero exit status) before any maze is generated. -/
def loadConfig (lines : List String) : Except String (List (String × String)) :=
  match requiredKeys.find? (fun k => ((parseConfig lines).lookup k).isNone) with
  | some k => .error ("Missing: " ++ k ++ " in config.txt")
  | none => .ok (parseConfig lines)

/-! ## Basic grid lemmas -/

/-- Well-formed `w × h` grid: `h` rows of `w` masks each. -/
def GridShape (w h : Nat) (g : Grid) : Prop :=
  g.length = h ∧ ∀ row ∈ g, row.length = w

/-- The four wall bits. -/
def ValidBit (b : Int) : Prop := b = 1 ∨ b = 2 ∨ b = 4 ∨ b = 8

/-- Symmetry: a wall between two adjacent cells is clear on one side iff
it is clear on the other (stated once per geometric edge: east pairs and
south pairs). -/
def SymGrid (w h : Nat) (g : Grid) : Prop :=
  (∀ x y : Int, inBounds w h (x, y) = true → inBounds w h (x + 1, y) = true →
    (Int.land (gridGet g x y) 2 = 0 ↔ Int.land (gridGet g (x + 1) y) 8 = 0)) ∧
  (∀ x y : Int, inBounds w h (x, y) = true → inBounds w h (x, y + 1) = true →
    (Int.land (gridGet g x y) 4 = 0 ↔ Int.land (gridGet g x (y + 1)) 1 = 0))

/-- Every in-bounds mask lies in `[0, 15]`. -/
def MaskRange (w h : Nat) (g : Grid) : Prop :=
  ∀ x y : Int, inBounds w h (x, y) = true →
    0 ≤ gridGet g x y ∧ gridGet g x y ≤ 15

/-- Unvisited in-bounds cells are still fully walled. -/
def Fresh (w h : Nat) (visited : List Cell) (g : Grid) : Prop :=
  ∀ c : Cell, inBounds w h c = true → c ∉ visited → gridGet g c.1 c.2 = 15

/-- Invariant bundle of the `generate` while-loop, over the loop's grid,
visited list and stack. -/
structure GenInv (w h : Nat) (pattern : List Cell) (g : Grid)
    (vis stk : List Cell) : Prop where
  shape : GridShape w h g
  range : MaskRange w h g
  sym : SymGrid w h g
  fresh : Fresh w h vis g
  stack_vis : ∀ c ∈ stk, c ∈ vis
  stack_ok : ∀ c ∈ stk, c = ((0 : Int), (0 : Int)) ∨ inBounds w h c = true
  pat_vis : ∀ c ∈ pattern, c ∈ vis
  stack_pat : ∀ c ∈ stk, c ∈ pattern → c = ((0 : Int), (0 : Int))
  pat_mask : ∀ c ∈ pattern, inBounds w h c = true → c ≠ ((0 : Int), (0 : Int)) →
    gridGet g c.1 c.2 = 15

/-- Invariants carried through the braid (`non_perfect`) phase. -/
structure BraidInv (w h : Nat) (pattern : List Cell) (g : Grid) : Prop where
  shape : GridShape w h g
  range : MaskRange w h g
  sym : SymGrid w h g
  pat_mask : ∀ c ∈ pattern, inBounds w h c = true →
    c ≠ ((0 : Int), (0 : Int)) → gridGet g c.1 c.2 = 15

/-- Repeated `non_perfect` passes (one per RNG stream in the list). -/
def nonPerfectSeq (st : MazeState) : List (Nat → Nat × Nat × Nat) → MazeState
  | [] => st
  | r :: rs => nonPerfectSeq (nonPerfect st r) rs

/-- The set of in-bounds cells whose wall mask differs between two
grids. -/
def changedCells (w h : Nat) (g g' : Grid) : Finset (Nat × Nat) :=
  (Finset.range w ×ˢ Finset.range h).filter fun p =>
    gridGet g p.1 p.2 ≠ gridGet g' p.1 p.2

/-- Two cells are joined by an open passage: they are grid-adjacent,
in bounds, and the facing wall bits are clear on both sides. -/
def edgeOpen (w h : Nat) (g : Grid) (a b : Cell) : Prop :=
  inBounds w h a = true ∧ inBounds w h b = true ∧
  ((b.1 = a.1 + 1 ∧ b.2 = a.2 ∧
      Int.land (gridGet g a.1 a.2) 2 = 0 ∧ Int.land (gridGet g b.1 b.2) 8 = 0) ∨
   (a.1 = b.1 + 1 ∧ a.2 = b.2 ∧
      Int.land (gridGet g b.1 b.2) 2 = 0 ∧ Int.land (gridGet g a.1 a.2) 8 = 0) ∨
   (b.1 = a.1 ∧ b.2 = a.2 + 1 ∧
      Int.land (gridGet g a.1 a.2) 4 = 0 ∧ Int.land (gridGet g b.1 b.2) 1 = 0) ∨
   (a.1 = b.1 ∧ a.2 = b.2 + 1 ∧
      Int.land (gridGet g b.1 b.2) 4 = 0 ∧ Int.land (gridGet g a.1 a.2) 1 = 0))

/-- The undirected graph of open passages between cells. -/
def mazeGraph (w h : Nat) (g : Grid) : SimpleGraph Cell where
  Adj a b := edgeOpen w h g a b
  symm := by
    intro a b hab
    obtain ⟨ha, hb, hd⟩ := hab
    refine ⟨hb, ha, ?_⟩
    tauto
  loopless := by
    intro a ha
    obtain ⟨_, _, hd⟩ := ha
    rcases hd with ⟨h1, _, _⟩ | ⟨h1, _, _⟩ | ⟨_, h1, _⟩ | ⟨_, h1, _⟩ <;> omega

/-- The number of carved edges, counted as the number of absent east
walls plus the number of absent south walls (each geometric edge is
counted exactly once, on its west/north side). -/
def carvedEdgeCount (w h : Nat) (g : Grid) : Nat :=
  ((Finset.range h ×ˢ Finset.range (w - 1)).filter fun p =>
    Int.land (gridGet g (p.2 : Int) (p.1 : Int)) 2 = 0).card +
  ((Finset.range (h - 1) ×ˢ Finset.range w).filter fun p =>
    Int.land (gridGet g (p.2 : Int) (p.1 : Int)) 4 = 0).card

/-- The grid after carving the edge from `(c1, c2)` to `(n1, n2)`. -/
def carveGrid (g : Grid) (c1 c2 n1 n2 bit : Int) : Grid :=
  gridSet (gridSet g c1 c2 (gridGet g c1 c2 - bit)) n1 n2
    (gridGet (gridSet g c1 c2 (gridGet g c1 c2 - bit)) n1 n2 - opposite bit)

/-- Strengthened invariant of the `generate` loop in perfect mode with an
empty pattern: the carved passages form a tree on the visited cells. -/
structure TreeInv (w h : Nat) (g : Grid) (vis stk : List Cell) : Prop where
  base : GenInv w h ([] : List Cell) g vis stk
  nodup : vis.Nodup
  vis_inb : ∀ c ∈ vis, inBounds w h c = true
  origin : (((0 : Int), (0 : Int)) : Cell) ∈ vis
  reach : ∀ c ∈ vis, (mazeGraph w h g).Reachable ((0 : Int), (0 : Int)) c
  count : carvedEdgeCount w h g + 1 = vis.length
  closed : ∀ c ∈ vis, c ∉ stk → genNeighbors w h vis c = []
  acyclic : (mazeGraph w h g).IsAcyclic

/-- Offsets and wall bit of a direction character, per `self.directions`. -/
def dirTriple (ch : Char) : Int × Int × Int :=
  if ch = 'N' then (0, -1, 1)
  else if ch = 'E' then (1, 0, 2)
  else if ch = 'S' then (0, 1, 4)
  else if ch = 'W' then (-1, 0, 8)
  else (0, 0, 0)

/-- Position of a direction character in the fixed N, E, S, W order. -/
def dirRank (ch : Char) : Nat :=
  if ch = 'N' then 0
  else if ch = 'E' then 1
  else if ch = 'S' then 2
  else if ch = 'W' then 3
  else 4

def isDir (ch : Char) : Bool :=
  ch = 'N' || ch = 'E' || ch = 'S' || ch = 'W'

/-- The cell reached from `c` by one step in direction `ch`. -/
def stepCell (c : Cell) (ch : Char) : Cell :=
  (c.1 + (dirTriple ch).1, c.2 + (dirTriple ch).2.1)

/-- The cell reached by following a direction string (ignoring walls). -/
def walkEnd : Cell → List Char → Cell
  | c, [] => c
  | c, ch :: r => walkEnd (stepCell c ch) r

/-- Validity of a direction string as a walk from `a` to `b`: each step
is a direction character, stays in bounds, and moves through a clear
wall bit of the current cell (the property claimed of `solve` output). -/
def walkOk (w h : Nat) (g : Grid) : Cell → List Char → Cell → Bool
  | a, [], b => decide (a = b)
  | a, ch :: r, b =>
    isDir ch && inBounds w h (stepCell a ch) &&
      decide (Int.land (gridGet g a.1 a.2) (dirTriple ch).2.2 = 0) &&
      walkOk w h g (stepCell a ch) r b

/-- Lexicographic order on direction strings, N < E < S < W. -/
def lexLe : List Char → List Char → Bool
  | [], _ => true
  | _ :: _, [] => false
  | a :: as, b :: bs =>
    decide (dirRank a < dirRank b) || (decide (a = b) && lexLe as bs)

/-- The strict breadth-first order on paths: shorter first, ties by
lexicographic order. -/
def pOrd (p q : List Char) : Prop :=
  p.length < q.length ∨ (p.length = q.length ∧ lexLe p q = true ∧ p ≠ q)

/-- `p` is the best walk from `start` to `c`: valid, of minimum length,
and lexicographically least among the minimum-length walks. -/
def Best (w h : Nat) (g : Grid) (start c : Cell) (p : List Char) : Prop :=
  walkOk w h g start p c = true ∧
  ∀ r : List Char, walkOk w h g start r c = true →
    p.length < r.length ∨ (p.length = r.length ∧ lexLe p r = true)

/-- The test deciding whether the neighbour of `c` in direction `d` is
enqueued during the scan of `c`: in bounds, unvisited, wall bit clear. -/
def scanKeep (w h : Nat) (g : Grid) (vis : List Cell) (c : Cell)
    (d : Char × Int × Int × Int) : Bool :=
  inBounds w h (c.1 + d.2.1, c.2 + d.2.2.1) &&
    decide (((c.1 + d.2.1, c.2 + d.2.2.1) : Cell) ∉ vis) &&
    decide (Int.land (gridGet g c.1 c.2) d.2.2.2 = 0)

/-- Invariant of the BFS loop in `solve`: queue entries carry best paths,
the queue is sorted in breadth-first order, every walk out of the
visited region crosses the queue, and finished cells are fully expanded. -/
structure BfsInv (w h : Nat) (g : Grid) (start endc : Cell)
    (q : List (Cell × String)) (vis : List Cell) : Prop where
  start_vis : start ∈ vis
  vis_inb : ∀ c ∈ vis, inBounds w h c = true
  vis_nodup : vis.Nodup
  q_vis : ∀ e ∈ q, e.1 ∈ vis
  q_nodup : (q.map Prod.fst).Nodup
  q_best : ∀ e ∈ q, Best w h g start e.1 e.2.data
  q_sorted : q.Pairwise (fun e1 e2 => pOrd e1.2.data e2.2.data)
  q_layer : ∀ e0, q.head? = some e0 → ∀ e ∈ q,
    e.2.data.length ≤ e0.2.data.length + 1
  q_pref : ∀ e0, q.head? = some e0 → ∀ e ∈ q,
    e.2.data.length = e0.2.data.length + 1 →
    lexLe (e.2.data.take e0.2.data.length) e0.2.data = true ∧
      e.2.data.take e0.2.data.length ≠ e0.2.data
  min_len : ∀ e0, q.head? = some e0 → ∀ z (r : List Char),
    walkOk w h g start r z = true → z ∉ vis →
    e0.2.data.length + 1 ≤ r.length
  frontier : ∀ y ∈ vis, ∀ z (r : List Char), walkOk w h g y r z = true →
    z ∉ vis → ∃ j ≤ r.length, walkEnd y (r.take j) ∈ q.map Prod.fst
  closed : ∀ y ∈ vis, y ∉ q.map Prod.fst → ∀ ch, isDir ch = true →
    inBounds w h (stepCell y ch) = true →
    Int.land (gridGet g y.1 y.2) (dirTriple ch).2.2 = 0 →
    stepCell y ch ∈ vis
  end_q : endc ∈ vis → endc ∈ q.map Prod.fst

theorem gridShape_init (w h : Nat) :
    GridShape w h (List.replicate h (List.replicate w (15 : Int))) := by
  constructor
  · simp
  · intro row hrow
    rw [List.eq_of_mem_replicate hrow]
    simp

theorem inBounds_iff {w h : Nat} {c : Cell} :
    inBounds w h c = true ↔ 0 ≤ c.1 ∧ c.1 < (w : Int) ∧ 0 ≤ c.2 ∧ c.2 < (h : Int) := by
  simp [inBounds, and_assoc]

theorem gridShape_set {w h : Nat} {g : Grid} (hg : GridShape w h g)
    (x y : Int) (v : Int) : GridShape w h (gridSet g x y v) := by
  obtain ⟨hlen, hrow⟩ := hg
  by_cases hy : y.toNat < g.length
  · refine ⟨by simp [gridSet, hlen], ?_⟩
    intro row hmem
    rcases List.mem_or_eq_of_mem_set hmem with h1 | h1
    · exact hrow row h1
    · subst h1
      rw [List.getD_eq_getElem _ _ hy]
      simpa using hrow _ (List.getElem_mem hy)
  · have : gridSet g x y v = g :=
      List.set_eq_of_length_le (Nat.le_of_not_lt hy)
    rw [this]
    exact ⟨hlen, hrow⟩

theorem getD_set_ne {l : List α} {m n : Nat} (a d : α) (h : m ≠ n) :
    (l.set m a).getD n d = l.getD n d := by
  rw [List.getD_eq_getElem?_getD, List.getD_eq_getElem?_getD,
    List.getElem?_set_ne h]

theorem getD_set_self {l : List α} {n : Nat} (a d : α) (h : n < l.length) :
    (l.set n a).getD n d = a := by
  rw [List.getD_eq_getElem?_getD, List.getElem?_set_self h]
  rfl

theorem rowAt_mem {w h : Nat} {g : Grid} (hg : GridShape w h g)
    {y : Int} (hy0 : 0 ≤ y) (hyh : y < (h : Int)) :
    g.getD y.toNat [] ∈ g := by
  have hyn : y.toNat < g.length := by rw [hg.1]; omega
  rw [List.getD_eq_getElem _ _ hyn]
  exact List.getElem_mem hyn

theorem rowAt_length {w h : Nat} {g : Grid} (hg : GridShape w h g)
    {y : Int} (hy0 : 0 ≤ y) (hyh : y < (h : Int)) :
    (g.getD y.toNat []).length = w :=
  hg.2 _ (rowAt_mem hg hy0 hyh)

theorem gridGet_set_self {w h : Nat} {g : Grid} (hg : GridShape w h g)
    {x y : Int} (hb : inBounds w h (x, y) = true) (v : Int) :
    gridGet (gridSet g x y v) x y = v := by
  obtain ⟨hx0, hxw, hy0, hyh⟩ := inBounds_iff.1 hb
  have hyn : y.toNat < g.length := by rw [hg.1]; omega
  have hxn : x.toNat < (g.getD y.toNat []).length := by
    rw [rowAt_length hg hy0 hyh]; omega
  unfold gridGet gridSet
  rw [getD_set_self _ _ hyn, getD_set_self _ _ hxn]

theorem gridGet_set_ne {w h : Nat} {g : Grid} (hg : GridShape w h g)
    {x y x' y' : Int} (hb : inBounds w h (x, y) = true)
    (hb' : inBounds w h (x', y') = true)
    (hne : (x', y') ≠ (x, y)) (v : Int) :
    gridGet (gridSet g x y v) x' y' = gridGet g x' y' := by
  obtain ⟨hx0, hxw, hy0, hyh⟩ := inBounds_iff.1 hb
  obtain ⟨hx0', hxw', hy0', hyh'⟩ := inBounds_iff.1 hb'
  by_cases hy : y'.toNat = y.toNat
  · have hyy : y' = y := by omega
    have hx : x' ≠ x := fun hxx => hne (by rw [hxx, hyy])
    have hyn : y.toNat < g.length := by rw [hg.1]; omega
    unfold gridGet gridSet
    rw [hyy, getD_set_self _ _ hyn, getD_set_ne _ _ (by omega)]
  · unfold gridGet gridSet
    rw [getD_set_ne _ _ (Ne.symm hy)]

/-! ## Wall-bit arithmetic

All masks stay in `[0, 15]` during a single `generate`/`non_perfect`
pipeline, so the Python `-=` on a mask whose targeted bit is set behaves
exactly like clearing that bit.  These finite facts are settled by
enumeration. -/

theorem validBit_opposite {b : Int} (hb : ValidBit b) : ValidBit (opposite b) := by
  rcases hb with h | h | h | h <;> subst h <;> unfold ValidBit opposite <;> decide

theorem land_fifteen {b : Int} (hb : ValidBit b) : Int.land 15 b ≠ 0 := by
  rcases hb with h | h | h | h <;> subst h <;> decide

theorem mask_cases {m : Int} (h0 : 0 ≤ m) (h15 : m ≤ 15) :
    m = 0 ∨ m = 1 ∨ m = 2 ∨ m = 3 ∨ m = 4 ∨ m = 5 ∨ m = 6 ∨ m = 7 ∨
    m = 8 ∨ m = 9 ∨ m = 10 ∨ m = 11 ∨ m = 12 ∨ m = 13 ∨ m = 14 ∨ m = 15 := by
  omega

theorem mask_bit_le {m b : Int} (h0 : 0 ≤ m) (h15 : m ≤ 15) (hb : ValidBit b)
    (hset : Int.land m b ≠ 0) : b ≤ m := by
  rcases hb with h | h | h | h <;> subst h <;>
    rcases mask_cases h0 h15 with h | h | h | h | h | h | h | h | h | h | h | h | h | h | h | h <;>
    subst h <;> revert hset <;> decide

theorem mask_sub_clears {m b : Int} (h0 : 0 ≤ m) (h15 : m ≤ 15) (hb : ValidBit b)
    (hset : Int.land m b ≠ 0) : Int.land (m - b) b = 0 := by
  rcases hb with h | h | h | h <;> subst h <;>
    rcases mask_cases h0 h15 with h | h | h | h | h | h | h | h | h | h | h | h | h | h | h | h <;>
    subst h <;> revert hset <;> decide

theorem mask_sub_other {m b b' : Int} (h0 : 0 ≤ m) (h15 : m ≤ 15) (hb : ValidBit b)
    (hb' : ValidBit b') (hne : b' ≠ b) (hset : Int.land m b ≠ 0) :
    Int.land (m - b) b' = Int.land m b' := by
  rcases hb with h | h | h | h <;> rcases hb' with h' | h' | h' | h' <;>
    subst h <;> subst h' <;> first
  | exact absurd rfl hne
  | (rcases mask_cases h0 h15 with h | h | h | h | h | h | h | h | h | h | h | h | h | h | h | h <;>
      subst h <;> revert hset <;> decide)

/-! ## Invariants of the carving loop -/

theorem inBounds_xy {w h : Nat} {x y : Int} :
    inBounds w h (x, y) = true ↔
      0 ≤ x ∧ x < (w : Int) ∧ 0 ≤ y ∧ y < (h : Int) := by
  simp [inBounds, and_assoc]

theorem gridGet_replicate (w h : Nat) {x y : Int}
    (hb : inBounds w h (x, y) = true) :
    gridGet (List.replicate h (List.replicate w (15 : Int))) x y = 15 := by
  obtain ⟨hx0, hxw, hy0, hyh⟩ := inBounds_xy.1 hb
  have hyn : y.toNat < h := by omega
  have hxn : x.toNat < w := by omega
  have hrow : (List.replicate h (List.replicate w (15 : Int))).getD y.toNat []
      = List.replicate w (15 : Int) := by
    rw [List.getD_eq_getElem _ _ (by simpa using hyn)]
    exact List.getElem_replicate _ _
  unfold gridGet
  rw [hrow, List.getD_eq_getElem _ _ (by simpa using hxn)]
  exact List.getElem_replicate _ _

theorem genInv_init (w h : Nat) (pattern : List Cell) :
    GenInv w h pattern (List.replicate h (List.replicate w (15 : Int)))
      (((0 : Int), (0 : Int)) :: pattern) [((0 : Int), (0 : Int))] := by
  refine ⟨gridShape_init w h, ?_, ⟨?_, ?_⟩, ?_, ?_, ?_, ?_, ?_, ?_⟩
  · intro x y hb
    rw [gridGet_replicate w h hb]
    constructor <;> decide
  · intro x y hb hb'
    rw [gridGet_replicate w h hb, gridGet_replicate w h hb']
    decide
  · intro x y hb hb'
    rw [gridGet_replicate w h hb, gridGet_replicate w h hb']
    decide
  · intro c hb _
    exact gridGet_replicate w h (by rwa [show ((c.1, c.2) : Cell) = c from rfl])
  · intro c hc
    simp only [List.mem_singleton] at hc
    subst hc
    exact List.mem_cons_self _ _
  · intro c hc
    simp only [List.mem_singleton] at hc
    exact Or.inl hc
  · intro c hc
    exact List.mem_cons_of_mem _ hc
  · intro c hc _
    simpa using hc
  · intro c _ hcb _
    exact gridGet_replicate w h (by rwa [show ((c.1, c.2) : Cell) = c from rfl])

theorem getD_mem_of_ne_nil {l : List α} (hl : l ≠ []) (i : Nat) (d : α) :
    l.getD (i % l.length) d ∈ l := by
  have hpos : 0 < l.length := List.length_pos.2 hl
  have hlt : i % l.length < l.length := Nat.mod_lt _ hpos
  rw [List.getD_eq_getElem _ _ hlt]
  exact List.getElem_mem hlt

theorem genNeighbors_mem {w h : Nat} {vis : List Cell} {c : Cell}
    {p : Int × Int × Int} (hp : p ∈ genNeighbors w h vis c) :
    ∃ dx dy bit : Int,
      ((dx = 0 ∧ dy = -1 ∧ bit = 1) ∨ (dx = 1 ∧ dy = 0 ∧ bit = 2) ∨
        (dx = 0 ∧ dy = 1 ∧ bit = 4) ∨ (dx = -1 ∧ dy = 0 ∧ bit = 8)) ∧
      p = (c.1 + dx, c.2 + dy, bit) ∧
      inBounds w h (c.1 + dx, c.2 + dy) = true ∧
      (c.1 + dx, c.2 + dy) ∉ vis := by
  unfold genNeighbors at hp
  rw [List.mem_filterMap] at hp
  obtain ⟨d, hd, hfd⟩ := hp
  simp only [directions, List.mem_cons, List.not_mem_nil, or_false] at hd
  rcases hd with rfl | rfl | rfl | rfl <;>
    simp only at hfd <;>
    split_ifs at hfd with hcond <;>
    simp only [Option.some.injEq] at hfd
  · exact ⟨0, -1, 1, Or.inl ⟨rfl, rfl, rfl⟩, hfd.symm, hcond.1, hcond.2⟩
  · exact ⟨1, 0, 2, Or.inr (Or.inl ⟨rfl, rfl, rfl⟩), hfd.symm, hcond.1, hcond.2⟩
  · exact ⟨0, 1, 4, Or.inr (Or.inr (Or.inl ⟨rfl, rfl, rfl⟩)), hfd.symm, hcond.1,
      hcond.2⟩
  · exact ⟨-1, 0, 8, Or.inr (Or.inr (Or.inr ⟨rfl, rfl, rfl⟩)), hfd.symm, hcond.1,
      hcond.2⟩

/-- Specification of a carving iteration: when the neighbour list is
nonempty, `genIter` carves a symmetric edge from the stack top to a
fresh in-bounds neighbour. -/
theorem genIter_spec {w h r : Nat} {c1 c2 : Int} {rest : List Cell} {g : Grid}
    {vis : List Cell} (hns : genNeighbors w h vis (c1, c2) ≠ []) :
    ∃ (dx dy bit : Int),
      ((dx = 0 ∧ dy = -1 ∧ bit = 1) ∨ (dx = 1 ∧ dy = 0 ∧ bit = 2) ∨
        (dx = 0 ∧ dy = 1 ∧ bit = 4) ∨ (dx = -1 ∧ dy = 0 ∧ bit = 8)) ∧
      inBounds w h (c1 + dx, c2 + dy) = true ∧
      (c1 + dx, c2 + dy) ∉ vis ∧
      genIter w h r (c1, c2) rest g vis =
        ⟨gridSet (gridSet g c1 c2 (gridGet g c1 c2 - bit))
            (c1 + dx) (c2 + dy)
            (gridGet (gridSet g c1 c2 (gridGet g c1 c2 - bit))
              (c1 + dx) (c2 + dy) - opposite bit),
          vis ++ [((c1 + dx, c2 + dy) : Cell)],
          ((c1 + dx, c2 + dy) : Cell) :: (c1, c2) :: rest⟩ := by
  have hpick := getD_mem_of_ne_nil hns r ((0, 0, 0) : Int × Int × Int)
  obtain ⟨dx, dy, bit, hd4, hpe, hbnd, hnvis⟩ := genNeighbors_mem hpick
  refine ⟨dx, dy, bit, hd4, hbnd, hnvis, ?_⟩
  unfold genIter
  rw [if_neg hns, hpe]

theorem validBit_one : ValidBit 1 := Or.inl rfl

theorem validBit_two : ValidBit 2 := Or.inr (Or.inl rfl)

theorem validBit_four : ValidBit 4 := Or.inr (Or.inr (Or.inl rfl))

theorem validBit_eight : ValidBit 8 := Or.inr (Or.inr (Or.inr rfl))

/-- Carving one symmetric edge (in any of the four directions) preserves
grid symmetry; stated against the bit-flip characterisation of the new
grid. -/
theorem sym_flip_pres {w h : Nat} {g g2 : Grid} {c1 c2 n1 n2 bit : Int}
    (hd4 : (n1 = c1 ∧ n2 = c2 - 1 ∧ bit = 1) ∨ (n1 = c1 + 1 ∧ n2 = c2 ∧ bit = 2) ∨
      (n1 = c1 ∧ n2 = c2 + 1 ∧ bit = 4) ∨ (n1 = c1 - 1 ∧ n2 = c2 ∧ bit = 8))
    (hflip : ∀ px py : Int, inBounds w h (px, py) = true →
      ∀ b' : Int, ValidBit b' →
      (Int.land (gridGet g2 px py) b' = 0 ↔
        (Int.land (gridGet g px py) b' = 0 ∨
          (((px, py) : Cell) = (c1, c2) ∧ b' = bit) ∨
          (((px, py) : Cell) = (n1, n2) ∧ b' = opposite bit))))
    (hsym : SymGrid w h g) : SymGrid w h g2 := by
  constructor
  · intro x y hb1 hb2
    rw [hflip x y hb1 2 validBit_two, hflip (x + 1) y hb2 8 validBit_eight]
    have hold := hsym.1 x y hb1 hb2
    rcases hd4 with ⟨hx, hy, hbq⟩ | ⟨hx, hy, hbq⟩ | ⟨hx, hy, hbq⟩ | ⟨hx, hy, hbq⟩ <;>
      subst hbq
    · constructor
      · rintro (hh | ⟨_, hh2⟩ | ⟨_, hh2⟩)
        · exact Or.inl (hold.1 hh)
        · exact absurd hh2 (by decide)
        · exact absurd hh2 (by decide)
      · rintro (hh | ⟨_, hh2⟩ | ⟨_, hh2⟩)
        · exact Or.inl (hold.2 hh)
        · exact absurd hh2 (by decide)
        · exact absurd hh2 (by decide)
    · have hxy : ((x, y) : Cell) = (c1, c2) ↔ ((x + 1, y) : Cell) = (n1, n2) := by
        rw [Prod.mk.injEq, Prod.mk.injEq]
        omega
      constructor
      · rintro (hh | ⟨hh1, _⟩ | ⟨_, hh2⟩)
        · exact Or.inl (hold.1 hh)
        · exact Or.inr (Or.inr ⟨hxy.1 hh1, by decide⟩)
        · exact absurd hh2 (by decide)
      · rintro (hh | ⟨_, hh2⟩ | ⟨hh1, _⟩)
        · exact Or.inl (hold.2 hh)
        · exact absurd hh2 (by decide)
        · exact Or.inr (Or.inl ⟨hxy.2 hh1, rfl⟩)
    · constructor
      · rintro (hh | ⟨_, hh2⟩ | ⟨_, hh2⟩)
        · exact Or.inl (hold.1 hh)
        · exact absurd hh2 (by decide)
        · exact absurd hh2 (by decide)
      · rintro (hh | ⟨_, hh2⟩ | ⟨_, hh2⟩)
        · exact Or.inl (hold.2 hh)
        · exact absurd hh2 (by decide)
        · exact absurd hh2 (by decide)
    · have hxy : ((x, y) : Cell) = (n1, n2) ↔ ((x + 1, y) : Cell) = (c1, c2) := by
        rw [Prod.mk.injEq, Prod.mk.injEq]
        omega
      constructor
      · rintro (hh | ⟨_, hh2⟩ | ⟨hh1, _⟩)
        · exact Or.inl (hold.1 hh)
        · exact absurd hh2 (by decide)
        · exact Or.inr (Or.inl ⟨hxy.1 hh1, rfl⟩)
      · rintro (hh | ⟨hh1, _⟩ | ⟨_, hh2⟩)
        · exact Or.inl (hold.2 hh)
        · exact Or.inr (Or.inr ⟨hxy.2 hh1, by decide⟩)
        · exact absurd hh2 (by decide)
  · intro x y hb1 hb2
    rw [hflip x y hb1 4 validBit_four, hflip x (y + 1) hb2 1 validBit_one]
    have hold := hsym.2 x y hb1 hb2
    rcases hd4 with ⟨hx, hy, hbq⟩ | ⟨hx, hy, hbq⟩ | ⟨hx, hy, hbq⟩ | ⟨hx, hy, hbq⟩ <;>
      subst hbq
    · have hxy : ((x, y) : Cell) = (n1, n2) ↔ ((x, y + 1) : Cell) = (c1, c2) := by
        rw [Prod.mk.injEq, Prod.mk.injEq]
        omega
      constructor
      · rintro (hh | ⟨_, hh2⟩ | ⟨hh1, _⟩)
        · exact Or.inl (hold.1 hh)
        · exact absurd hh2 (by decide)
        · exact Or.inr (Or.inl ⟨hxy.1 hh1, rfl⟩)
      · rintro (hh | ⟨hh1, _⟩ | ⟨_, hh2⟩)
        · exact Or.inl (hold.2 hh)
        · exact Or.inr (Or.inr ⟨hxy.2 hh1, by decide⟩)
        · exact absurd hh2 (by decide)
    · constructor
      · rintro (hh | ⟨_, hh2⟩ | ⟨_, hh2⟩)
        · exact Or.inl (hold.1 hh)
        · exact absurd hh2 (by decide)
        · exact absurd hh2 (by decide)
      · rintro (hh | ⟨_, hh2⟩ | ⟨_, hh2⟩)
        · exact Or.inl (hold.2 hh)
        · exact absurd hh2 (by decide)
        · exact absurd hh2 (by decide)
    · have hxy : ((x, y) : Cell) = (c1, c2) ↔ ((x, y + 1) : Cell) = (n1, n2) := by
        rw [Prod.mk.injEq, Prod.mk.injEq]
        omega
      constructor
      · rintro (hh | ⟨hh1, _⟩ | ⟨_, hh2⟩)
        · exact Or.inl (hold.1 hh)
        · exact Or.inr (Or.inr ⟨hxy.1 hh1, by decide⟩)
        · exact absurd hh2 (by decide)
      · rintro (hh | ⟨_, hh2⟩ | ⟨hh1, _⟩)
        · exact Or.inl (hold.2 hh)
        · exact absurd hh2 (by decide)
        · exact Or.inr (Or.inl ⟨hxy.2 hh1, rfl⟩)
    · constructor
      · rintro (hh | ⟨_, hh2⟩ | ⟨_, hh2⟩)
        · exact Or.inl (hold.1 hh)
        · exact absurd hh2 (by decide)
        · exact absurd hh2 (by decide)
      · rintro (hh | ⟨_, hh2⟩ | ⟨_, hh2⟩)
        · exact Or.inl (hold.2 hh)
        · exact absurd hh2 (by decide)
        · exact absurd hh2 (by decide)

/-- One loop iteration preserves the carving invariant. -/
theorem genInv_iter {w h : Nat} {pattern : List Cell} {g : Grid}
    {vis : List Cell} {c1 c2 : Int} {rest : List Cell} (r : Nat)
    (inv : GenInv w h pattern g vis ((c1, c2) :: rest)) :
    GenInv w h pattern (genIter w h r (c1, c2) rest g vis).grid
      (genIter w h r (c1, c2) rest g vis).visited
      (genIter w h r (c1, c2) rest g vis).stack := by
  by_cases hns : genNeighbors w h vis (c1, c2) = []
  · unfold genIter
    rw [if_pos hns]
    exact ⟨inv.shape, inv.range, inv.sym, inv.fresh,
      fun x hx => inv.stack_vis x (List.mem_cons_of_mem _ hx),
      fun x hx => inv.stack_ok x (List.mem_cons_of_mem _ hx),
      inv.pat_vis,
      fun x hx => inv.stack_pat x (List.mem_cons_of_mem _ hx),
      inv.pat_mask⟩
  · obtain ⟨dx, dy, bit, hd4, hbnd, hnvis, heq⟩ :=
      @genIter_spec w h r c1 c2 rest g vis hns
    rw [heq]
    dsimp only
    have hcvis : ((c1, c2) : Cell) ∈ vis :=
      inv.stack_vis (c1, c2) (List.mem_cons_self _ rest)
    have hbit : ValidBit bit := by
      rcases hd4 with ⟨_, _, hb⟩ | ⟨_, _, hb⟩ | ⟨_, _, hb⟩ | ⟨_, _, hb⟩ <;>
        subst hb <;> unfold ValidBit <;> tauto
    have hopp : ValidBit (opposite bit) := validBit_opposite hbit
    obtain ⟨hnx0, hnxw, hny0, hnyh⟩ := inBounds_xy.1 hbnd
    have hcb : inBounds w h ((c1, c2) : Cell) = true := by
      rcases inv.stack_ok (c1, c2) (List.mem_cons_self _ rest) with hc0 | hc0
      · rw [Prod.mk.injEq] at hc0
        rw [inBounds_xy]
        rcases hd4 with ⟨hx, hy, _⟩ | ⟨hx, hy, _⟩ | ⟨hx, hy, _⟩ | ⟨hx, hy, _⟩ <;>
          subst hx <;> subst hy <;> omega
      · exact hc0
    obtain ⟨hcx0, hcxw, hcy0, hcyh⟩ := inBounds_xy.1 hcb
    have hnc : ((c1 + dx, c2 + dy) : Cell) ≠ (c1, c2) := by
      intro hcc
      rw [Prod.mk.injEq] at hcc
      rcases hd4 with ⟨hx, hy, _⟩ | ⟨hx, hy, _⟩ | ⟨hx, hy, _⟩ | ⟨hx, hy, _⟩ <;>
        subst hx <;> subst hy <;> omega
    have hmc : 0 ≤ gridGet g c1 c2 ∧ gridGet g c1 c2 ≤ 15 :=
      inv.range c1 c2 hcb
    obtain ⟨hcx0, hcxw, hcy0, hcyh⟩ := inBounds_xy.1 hcb
    have hmn : gridGet g (c1 + dx) (c2 + dy) = 15 :=
      inv.fresh (c1 + dx, c2 + dy) hbnd hnvis
    have hset : Int.land (gridGet g c1 c2) bit ≠ 0 := by
      rcases hd4 with ⟨hx, hy, hb⟩ | ⟨hx, hy, hb⟩ | ⟨hx, hy, hb⟩ | ⟨hx, hy, hb⟩ <;>
        subst hx <;> subst hy <;> subst hb <;>
        rw [add_zero] at hmn <;> intro hz
      · have hs := inv.sym.2 c1 (c2 + -1) (by rwa [add_zero] at hbnd)
          (by rw [inBounds_xy]; omega)
        rw [show c2 + -1 + 1 = c2 from by ring, hmn] at hs
        exact (by decide : Int.land 15 4 ≠ 0) (hs.2 hz)
      · have hs := inv.sym.1 c1 c2 hcb (by rwa [add_zero] at hbnd)
        rw [hmn] at hs
        exact (by decide : Int.land 15 8 ≠ 0) (hs.1 hz)
      · have hs := inv.sym.2 c1 c2 hcb (by rwa [add_zero] at hbnd)
        rw [hmn] at hs
        exact (by decide : Int.land 15 1 ≠ 0) (hs.1 hz)
      · have hs := inv.sym.1 (c1 + -1) c2 (by rwa [add_zero] at hbnd)
          (by rw [inBounds_xy]; omega)
        rw [show c1 + -1 + 1 = c1 from by ring, hmn] at hs
        exact (by decide : Int.land 15 2 ≠ 0) (hs.2 hz)
    set gA := gridSet g c1 c2 (gridGet g c1 c2 - bit) with hgA
    set gB := gridSet gA (c1 + dx) (c2 + dy)
      (gridGet gA (c1 + dx) (c2 + dy) - opposite bit) with hgB
    have hshapeA : GridShape w h gA := gridShape_set inv.shape _ _ _
    have hshapeB : GridShape w h gB := gridShape_set hshapeA _ _ _
    have hgAn : gridGet gA (c1 + dx) (c2 + dy) = 15 := by
      rw [hgA, gridGet_set_ne inv.shape hcb hbnd hnc]
      exact hmn
    have hmaskB_n : gridGet gB (c1 + dx) (c2 + dy) = 15 - opposite bit := by
      rw [hgB, gridGet_set_self hshapeA hbnd, hgAn]
    have hmaskB_c : gridGet gB c1 c2 = gridGet g c1 c2 - bit := by
      rw [hgB, gridGet_set_ne hshapeA hbnd hcb (fun hh => hnc hh.symm),
        hgA, gridGet_set_self inv.shape hcb]
    have hmaskB_other : ∀ px py : Int, ((px, py) : Cell) ≠ (c1, c2) →
        ((px, py) : Cell) ≠ (c1 + dx, c2 + dy) →
        inBounds w h (px, py) = true →
        gridGet gB px py = gridGet g px py := by
      intro px py hp1 hp2 hpb
      rw [hgB, gridGet_set_ne hshapeA hbnd hpb hp2, hgA,
        gridGet_set_ne inv.shape hcb hpb hp1]
    have hflip : ∀ px py : Int, inBounds w h (px, py) = true →
        ∀ b' : Int, ValidBit b' →
        (Int.land (gridGet gB px py) b' = 0 ↔
          (Int.land (gridGet g px py) b' = 0 ∨
            (((px, py) : Cell) = (c1, c2) ∧ b' = bit) ∨
            (((px, py) : Cell) = (c1 + dx, c2 + dy) ∧ b' = opposite bit))) := by
      intro px py hpb b' hb'
      by_cases hpc : ((px, py) : Cell) = (c1, c2)
      · obtain ⟨hpx, hpy⟩ := Prod.mk.injEq .. ▸ hpc
        subst hpx
        subst hpy
        rw [hmaskB_c]
        by_cases hbb : b' = bit
        · subst hbb
          exact iff_of_true (mask_sub_clears hmc.1 hmc.2 hbit hset)
            (Or.inr (Or.inl ⟨rfl, rfl⟩))
        · rw [mask_sub_other hmc.1 hmc.2 hbit hb' hbb hset]
          constructor
          · exact Or.inl
          · rintro (hh | ⟨_, hb2⟩ | ⟨hcn, _⟩)
            · exact hh
            · exact absurd hb2 hbb
            · exact absurd hcn.symm hnc
      · by_cases hpn : ((px, py) : Cell) = (c1 + dx, c2 + dy)
        · obtain ⟨hpx, hpy⟩ := Prod.mk.injEq .. ▸ hpn
          subst hpx
          subst hpy
          rw [hmaskB_n]
          by_cases hbo : b' = opposite bit
          · subst hbo
            exact iff_of_true
              (mask_sub_clears (by decide) (by decide) hopp (land_fifteen hopp))
              (Or.inr (Or.inr ⟨rfl, rfl⟩))
          · rw [mask_sub_other (by decide) (by decide) hopp hb' hbo
              (land_fifteen hopp), hmn]
            refine iff_of_false (land_fifteen hb') ?_
            rintro (hh | ⟨hcn, _⟩ | ⟨_, hb2⟩)
            · exact land_fifteen hb' hh
            · exact hpc hcn
            · exact hbo hb2
        · rw [hmaskB_other px py hpc hpn hpb]
          constructor
          · exact Or.inl
          · rintro (hh | ⟨hh1, _⟩ | ⟨hh1, _⟩)
            · exact hh
            · exact absurd hh1 hpc
            · exact absurd hh1 hpn
    have hd4' : (c1 + dx = c1 ∧ c2 + dy = c2 - 1 ∧ bit = 1) ∨
        (c1 + dx = c1 + 1 ∧ c2 + dy = c2 ∧ bit = 2) ∨
        (c1 + dx = c1 ∧ c2 + dy = c2 + 1 ∧ bit = 4) ∨
        (c1 + dx = c1 - 1 ∧ c2 + dy = c2 ∧ bit = 8) := by
      rcases hd4 with ⟨hx, hy, hbq⟩ | ⟨hx, hy, hbq⟩ | ⟨hx, hy, hbq⟩ | ⟨hx, hy, hbq⟩ <;>
        subst hx <;> subst hy <;> subst hbq
      · exact Or.inl ⟨by ring, by ring, rfl⟩
      · exact Or.inr (Or.inl ⟨by ring, by ring, rfl⟩)
      · exact Or.inr (Or.inr (Or.inl ⟨by ring, by ring, rfl⟩))
      · exact Or.inr (Or.inr (Or.inr ⟨by ring, by ring, rfl⟩))
    refine ⟨hshapeB, ?_, sym_flip_pres hd4' hflip inv.sym, ?_, ?_, ?_, ?_, ?_, ?_⟩
    · intro x y hb
      by_cases h1 : ((x, y) : Cell) = (c1, c2)
      · obtain ⟨hx1, hy1⟩ := Prod.mk.injEq .. ▸ h1
        subst hx1
        subst hy1
        rw [hmaskB_c]
        have hle := mask_bit_le hmc.1 hmc.2 hbit hset
        have hpos : 1 ≤ bit := by
          rcases hbit with hh | hh | hh | hh <;> subst hh <;> decide
        omega
      · by_cases h2 : ((x, y) : Cell) = (c1 + dx, c2 + dy)
        · obtain ⟨hx1, hy1⟩ := Prod.mk.injEq .. ▸ h2
          subst hx1
          subst hy1
          rw [hmaskB_n]
          rcases hopp with hh | hh | hh | hh <;> rw [hh] <;> constructor <;> decide
        · rw [hmaskB_other x y h1 h2 hb]
          exact inv.range x y hb
    · intro p hpb hpv
      rw [List.mem_append, not_or] at hpv
      obtain ⟨hpv1, hpv2⟩ := hpv
      obtain ⟨p1, p2⟩ := p
      have hp2 : ((p1, p2) : Cell) ≠ (c1 + dx, c2 + dy) := by
        intro hh
        exact hpv2 (by rw [hh]; exact List.mem_singleton.2 rfl)
      have hp1 : ((p1, p2) : Cell) ≠ (c1, c2) := fun hh => hpv1 (hh ▸ hcvis)
      rw [hmaskB_other p1 p2 hp1 hp2 hpb]
      exact inv.fresh (p1, p2) hpb hpv1
    · intro x hx
      rcases List.mem_cons.1 hx with rfl | hx1
      · exact List.mem_append_right _ (List.mem_singleton.2 rfl)
      · exact List.mem_append_left _ (inv.stack_vis x hx1)
    · intro x hx
      rcases List.mem_cons.1 hx with rfl | hx1
      · exact Or.inr hbnd
      · exact inv.stack_ok x hx1
    · intro x hx
      exact List.mem_append_left _ (inv.pat_vis x hx)
    · intro x hx hxp
      rcases List.mem_cons.1 hx with rfl | hx1
      · exact absurd (inv.pat_vis _ hxp) hnvis
      · exact inv.stack_pat x hx1 hxp
    · intro p hp hpb hp0
      obtain ⟨p1, p2⟩ := p
      have hp1 : ((p1, p2) : Cell) ≠ (c1, c2) := by
        intro hh
        exact hp0 (hh.trans
          (inv.stack_pat (c1, c2) (List.mem_cons_self _ rest) (hh ▸ hp)))
      have hp2 : ((p1, p2) : Cell) ≠ (c1 + dx, c2 + dy) := by
        intro hh
        exact hnvis (hh ▸ inv.pat_vis (p1, p2) hp)
      rw [hmaskB_other p1 p2 hp1 hp2 hpb]
      exact inv.pat_mask (p1, p2) hp hpb hp0

/-- Value of each cell after carving one symmetric edge from `(c1, c2)`
to `(n1, n2)` (the exact grid expression produced by the source's two
`-=` writes). -/
theorem carve_get {w h : Nat} {g : Grid} (hg : GridShape w h g)
    {c1 c2 n1 n2 bit : Int}
    (hcb : inBounds w h (c1, c2) = true) (hnb : inBounds w h (n1, n2) = true)
    (hnc : ((n1, n2) : Cell) ≠ (c1, c2)) :
    (gridGet (gridSet (gridSet g c1 c2 (gridGet g c1 c2 - bit))
        n1 n2 (gridGet (gridSet g c1 c2 (gridGet g c1 c2 - bit)) n1 n2
          - opposite bit)) c1 c2 = gridGet g c1 c2 - bit) ∧
    (gridGet (gridSet (gridSet g c1 c2 (gridGet g c1 c2 - bit))
        n1 n2 (gridGet (gridSet g c1 c2 (gridGet g c1 c2 - bit)) n1 n2
          - opposite bit)) n1 n2 = gridGet g n1 n2 - opposite bit) ∧
    (∀ px py : Int, ((px, py) : Cell) ≠ (c1, c2) →
      ((px, py) : Cell) ≠ (n1, n2) → inBounds w h (px, py) = true →
      gridGet (gridSet (gridSet g c1 c2 (gridGet g c1 c2 - bit))
        n1 n2 (gridGet (gridSet g c1 c2 (gridGet g c1 c2 - bit)) n1 n2
          - opposite bit)) px py = gridGet g px py) := by
  have hshapeA : GridShape w h (gridSet g c1 c2 (gridGet g c1 c2 - bit)) :=
    gridShape_set hg _ _ _
  have hgAn : gridGet (gridSet g c1 c2 (gridGet g c1 c2 - bit)) n1 n2
      = gridGet g n1 n2 := gridGet_set_ne hg hcb hnb hnc _
  refine ⟨?_, ?_, ?_⟩
  · rw [gridGet_set_ne hshapeA hnb hcb (fun hh => hnc hh.symm),
      gridGet_set_self hg hcb]
  · rw [gridGet_set_self hshapeA hnb, hgAn]
  · intro px py hp1 hp2 hpb
    rw [gridGet_set_ne hshapeA hnb hpb hp2, gridGet_set_ne hg hcb hpb hp1]

/-- Bit-flip characterisation of the grid after carving one symmetric
edge: exactly the two facing bits of the carved edge are cleared. -/
theorem carve_flip {w h : Nat} {g : Grid} (hg : GridShape w h g)
    {c1 c2 n1 n2 bit : Int}
    (hcb : inBounds w h (c1, c2) = true) (hnb : inBounds w h (n1, n2) = true)
    (hnc : ((n1, n2) : Cell) ≠ (c1, c2))
    (hmc0 : 0 ≤ gridGet g c1 c2) (hmc15 : gridGet g c1 c2 ≤ 15)
    (hmn0 : 0 ≤ gridGet g n1 n2) (hmn15 : gridGet g n1 n2 ≤ 15)
    (hbit : ValidBit bit)
    (hset : Int.land (gridGet g c1 c2) bit ≠ 0)
    (hsetn : Int.land (gridGet g n1 n2) (opposite bit) ≠ 0) :
    ∀ px py : Int, inBounds w h (px, py) = true → ∀ b' : Int, ValidBit b' →
      (Int.land (gridGet (gridSet (gridSet g c1 c2 (gridGet g c1 c2 - bit))
          n1 n2 (gridGet (gridSet g c1 c2 (gridGet g c1 c2 - bit)) n1 n2
            - opposite bit)) px py) b' = 0 ↔
        (Int.land (gridGet g px py) b' = 0 ∨
          (((px, py) : Cell) = (c1, c2) ∧ b' = bit) ∨
          (((px, py) : Cell) = (n1, n2) ∧ b' = opposite bit))) := by
  obtain ⟨hvc, hvn, hvo⟩ := @carve_get w h g hg c1 c2 n1 n2 bit hcb hnb hnc
  have hopp : ValidBit (opposite bit) := validBit_opposite hbit
  intro px py hpb b' hb'
  by_cases hpc : ((px, py) : Cell) = (c1, c2)
  · obtain ⟨hpx, hpy⟩ := Prod.mk.injEq .. ▸ hpc
    subst hpx
    subst hpy
    rw [hvc]
    by_cases hbb : b' = bit
    · subst hbb
      exact iff_of_true (mask_sub_clears hmc0 hmc15 hbit hset)
        (Or.inr (Or.inl ⟨rfl, rfl⟩))
    · rw [mask_sub_other hmc0 hmc15 hbit hb' hbb hset]
      constructor
      · exact Or.inl
      · rintro (hh | ⟨_, hb2⟩ | ⟨hcn, _⟩)
        · exact hh
        · exact absurd hb2 hbb
        · exact absurd hcn.symm hnc
  · by_cases hpn : ((px, py) : Cell) = (n1, n2)
    · obtain ⟨hpx, hpy⟩ := Prod.mk.injEq .. ▸ hpn
      subst hpx
      subst hpy
      rw [hvn]
      by_cases hbo : b' = opposite bit
      · subst hbo
        exact iff_of_true (mask_sub_clears hmn0 hmn15 hopp hsetn)
          (Or.inr (Or.inr ⟨rfl, rfl⟩))
      · rw [mask_sub_other hmn0 hmn15 hopp hb' hbo hsetn]
        constructor
        · exact Or.inl
        · rintro (hh | ⟨hcn, _⟩ | ⟨_, hb2⟩)
          · exact hh
          · exact absurd hcn hpc
          · exact absurd hb2 hbo
    · rw [hvo px py hpc hpn hpb]
      constructor
      · exact Or.inl
      · rintro (hh | ⟨hh1, _⟩ | ⟨hh1, _⟩)
        · exact hh
        · exact absurd hh1 hpc
        · exact absurd hh1 hpn

/-- The whole `generate` loop preserves the carving invariant. -/
theorem genInv_loop {w h : Nat} {pattern : List Cell} (rnd : Nat → Nat) :
    ∀ (fuel i : Nat) (s : GenState),
      GenInv w h pattern s.grid s.visited s.stack →
      GenInv w h pattern (genLoop w h rnd fuel i s).grid
        (genLoop w h rnd fuel i s).visited (genLoop w h rnd fuel i s).stack := by
  intro fuel
  induction fuel with
  | zero => intro i s hs; exact hs
  | succ n ih =>
    intro i s hs
    obtain ⟨g, vis, stk⟩ := s
    rcases stk with _ | ⟨⟨cx1, cx2⟩, rest⟩
    · exact hs
    · exact ih (i + 1) _ (genInv_iter (rnd i) hs)

/-- Case analysis of one braid attempt: it is a no-op, or it opens an
east wall, or it opens a south wall, always between two in-bounds
non-pattern cells whose wall is present. -/
theorem braidIter_spec (w h : Nat) (pattern : List Cell) (r : Nat × Nat × Nat)
    (g : Grid) (hw : 2 ≤ w) (hh : 2 ≤ h) :
    braidIter w h pattern r g = g ∨
    (∃ x y : Int,
      inBounds w h (x, y) = true ∧ inBounds w h (x + 1, y) = true ∧
      ((x, y) : Cell) ∉ pattern ∧ ((x + 1, y) : Cell) ∉ pattern ∧
      Int.land (gridGet g x y) 2 ≠ 0 ∧
      braidIter w h pattern r g =
        gridSet (gridSet g x y (gridGet g x y - 2)) (x + 1) y
          (gridGet (gridSet g x y (gridGet g x y - 2)) (x + 1) y
            - opposite 2)) ∨
    (∃ x y : Int,
      inBounds w h (x, y) = true ∧ inBounds w h (x, y + 1) = true ∧
      ((x, y) : Cell) ∉ pattern ∧ ((x, y + 1) : Cell) ∉ pattern ∧
      Int.land (gridGet g x y) 4 ≠ 0 ∧
      braidIter w h pattern r g =
        gridSet (gridSet g x y (gridGet g x y - 4)) x (y + 1)
          (gridGet (gridSet g x y (gridGet g x y - 4)) x (y + 1)
            - opposite 4)) := by
  have hxlt : r.1 % (w - 1) < w - 1 := Nat.mod_lt _ (by omega)
  have hylt : r.2.1 % (h - 1) < h - 1 := Nat.mod_lt _ (by omega)
  have hbx : inBounds w h ((r.1 % (w - 1) : Nat), (r.2.1 % (h - 1) : Nat)) = true := by
    rw [inBounds_xy]
    constructor
    · positivity
    refine ⟨?_, by positivity, ?_⟩ <;> push_cast <;> omega
  have hbxE : inBounds w h (((r.1 % (w - 1) : Nat) : Int) + 1,
      ((r.2.1 % (h - 1) : Nat) : Int)) = true := by
    rw [inBounds_xy]
    refine ⟨by positivity, ?_, by positivity, ?_⟩ <;> push_cast <;> omega
  have hbxS : inBounds w h (((r.1 % (w - 1) : Nat) : Int),
      ((r.2.1 % (h - 1) : Nat) : Int) + 1) = true := by
    rw [inBounds_xy]
    refine ⟨by positivity, ?_, by positivity, ?_⟩ <;> push_cast <;> omega
  unfold braidIter braidAt
  split_ifs with h1 h2 h3 h4 h5 h6
  · exact Or.inr (Or.inl ⟨_, _, hbx, hbxE, h2.1, h2.2, h3, rfl⟩)
  · exact Or.inl rfl
  · exact Or.inl rfl
  · exact Or.inr (Or.inr ⟨_, _, hbx, hbxS, h4.1, h4.2, h5, rfl⟩)
  · exact Or.inl rfl
  · exact Or.inl rfl

/-- Mask range is preserved by carving one symmetric edge. -/
theorem carve_range {w h : Nat} {g : Grid} (hg : GridShape w h g)
    {c1 c2 n1 n2 bit : Int}
    (hcb : inBounds w h (c1, c2) = true) (hnb : inBounds w h (n1, n2) = true)
    (hnc : ((n1, n2) : Cell) ≠ (c1, c2))
    (hbit : ValidBit bit)
    (hset : Int.land (gridGet g c1 c2) bit ≠ 0)
    (hsetn : Int.land (gridGet g n1 n2) (opposite bit) ≠ 0)
    (hrange : MaskRange w h g) :
    MaskRange w h (gridSet (gridSet g c1 c2 (gridGet g c1 c2 - bit))
      n1 n2 (gridGet (gridSet g c1 c2 (gridGet g c1 c2 - bit)) n1 n2
        - opposite bit)) := by
  obtain ⟨hvc, hvn, hvo⟩ := @carve_get w h g hg c1 c2 n1 n2 bit hcb hnb hnc
  have hmc := hrange c1 c2 hcb
  have hmn := hrange n1 n2 hnb
  have hopp : ValidBit (opposite bit) := validBit_opposite hbit
  intro px py hb
  by_cases h1 : ((px, py) : Cell) = (c1, c2)
  · obtain ⟨hx1, hy1⟩ := Prod.mk.injEq .. ▸ h1
    subst hx1
    subst hy1
    rw [hvc]
    have hle := mask_bit_le hmc.1 hmc.2 hbit hset
    have hpos : 1 ≤ bit := by
      rcases hbit with hq | hq | hq | hq <;> subst hq <;> decide
    omega
  · by_cases h2 : ((px, py) : Cell) = (n1, n2)
    · obtain ⟨hx1, hy1⟩ := Prod.mk.injEq .. ▸ h2
      subst hx1
      subst hy1
      rw [hvn]
      have hle := mask_bit_le hmn.1 hmn.2 hopp hsetn
      have hpos : 1 ≤ opposite bit := by
        rcases hopp with hq | hq | hq | hq <;> rw [hq] <;> decide
      omega
    · rw [hvo px py h1 h2 hb]
      exact hrange px py hb

/-- One braid attempt preserves the braid invariant. -/
theorem braidIter_inv {w h : Nat} {pattern : List Cell}
    {r : Nat × Nat × Nat} {g : Grid} (hw : 2 ≤ w) (hh : 2 ≤ h)
    (inv : BraidInv w h pattern g) :
    BraidInv w h pattern (braidIter w h pattern r g) := by
  rcases braidIter_spec w h pattern r g hw hh with heq |
    ⟨x, y, hb1, hb2, hp1, hp2, hland, heq⟩ |
    ⟨x, y, hb1, hb2, hp1, hp2, hland, heq⟩
  · rw [heq]
    exact inv
  · rw [heq]
    have hnc : ((x + 1, y) : Cell) ≠ (x, y) := by
      intro hq
      rw [Prod.mk.injEq] at hq
      omega
    have hmc := inv.range x y hb1
    have hmn := inv.range (x + 1) y hb2
    have hsetn : Int.land (gridGet g (x + 1) y) (opposite 2) ≠ 0 := by
      show Int.land (gridGet g (x + 1) y) 8 ≠ 0
      intro hz
      exact hland ((inv.sym.1 x y hb1 hb2).2 hz)
    have hflip := carve_flip inv.shape hb1 hb2 hnc hmc.1 hmc.2 hmn.1 hmn.2
      validBit_two hland hsetn
    obtain ⟨hvc, hvn, hvo⟩ := @carve_get w h g inv.shape x y (x + 1) y 2 hb1 hb2 hnc
    refine ⟨gridShape_set (gridShape_set inv.shape _ _ _) _ _ _,
      carve_range inv.shape hb1 hb2 hnc validBit_two hland hsetn inv.range,
      sym_flip_pres (Or.inr (Or.inl ⟨rfl, rfl, rfl⟩)) hflip inv.sym, ?_⟩
    intro p hp hpb hp0
    obtain ⟨p1, p2⟩ := p
    have hq1 : ((p1, p2) : Cell) ≠ (x, y) := fun hq => hp1 (hq ▸ hp)
    have hq2 : ((p1, p2) : Cell) ≠ (x + 1, y) := fun hq => hp2 (hq ▸ hp)
    rw [hvo p1 p2 hq1 hq2 hpb]
    exact inv.pat_mask (p1, p2) hp hpb hp0
  · rw [heq]
    have hnc : ((x, y + 1) : Cell) ≠ (x, y) := by
      intro hq
      rw [Prod.mk.injEq] at hq
      omega
    have hmc := inv.range x y hb1
    have hmn := inv.range x (y + 1) hb2
    have hsetn : Int.land (gridGet g x (y + 1)) (opposite 4) ≠ 0 := by
      show Int.land (gridGet g x (y + 1)) 1 ≠ 0
      intro hz
      exact hland ((inv.sym.2 x y hb1 hb2).2 hz)
    have hflip := carve_flip inv.shape hb1 hb2 hnc hmc.1 hmc.2 hmn.1 hmn.2
      validBit_four hland hsetn
    obtain ⟨hvc, hvn, hvo⟩ := @carve_get w h g inv.shape x y x (y + 1) 4 hb1 hb2 hnc
    refine ⟨gridShape_set (gridShape_set inv.shape _ _ _) _ _ _,
      carve_range inv.shape hb1 hb2 hnc validBit_four hland hsetn inv.range,
      sym_flip_pres (Or.inr (Or.inr (Or.inl ⟨rfl, rfl, rfl⟩))) hflip inv.sym, ?_⟩
    intro p hp hpb hp0
    obtain ⟨p1, p2⟩ := p
    have hq1 : ((p1, p2) : Cell) ≠ (x, y) := fun hq => hp1 (hq ▸ hp)
    have hq2 : ((p1, p2) : Cell) ≠ (x, y + 1) := fun hq => hp2 (hq ▸ hp)
    rw [hvo p1 p2 hq1 hq2 hpb]
    exact inv.pat_mask (p1, p2) hp hpb hp0

/-- The whole braid loop preserves the braid invariant. -/
theorem braidLoop_inv {w h : Nat} {pattern : List Cell}
    (rnd : Nat → Nat × Nat × Nat) (hw : 2 ≤ w) (hh : 2 ≤ h) :
    ∀ (k i : Nat) {g : Grid}, BraidInv w h pattern g →
      BraidInv w h pattern (braidLoop w h pattern rnd k i g) := by
  intro k
  induction k with
  | zero => intro i g hs; exact hs
  | succ n ih => intro i g hs; exact ih (i + 1) (braidIter_inv hw hh hs)

/-- `non_perfect` preserves the braid invariant. -/
theorem nonPerfect_inv (st : MazeState) (rnd : Nat → Nat × Nat × Nat)
    (inv : BraidInv st.width st.height st.pattern st.grid) :
    BraidInv st.width st.height st.pattern (nonPerfect st rnd).grid ∧
      (nonPerfect st rnd).width = st.width ∧
      (nonPerfect st rnd).height = st.height ∧
      (nonPerfect st rnd).pattern = st.pattern := by
  unfold nonPerfect
  split_ifs with hwh
  · exact ⟨braidLoop_inv rnd hwh.1 hwh.2 _ 0 inv, rfl, rfl, rfl⟩
  · exact ⟨inv, rfl, rfl, rfl⟩

/-- The grid invariants established by `generate` (from a freshly
constructed all-walls grid), in both perfect and non-perfect mode. -/
theorem generate_master (st : MazeState) (rnd : Nat → Nat)
    (rndB : Nat → Nat × Nat × Nat)
    (hgrid : st.grid = List.replicate st.height (List.replicate st.width 15)) :
    BraidInv st.width st.height st.pattern (generate st rnd rndB).grid := by
  have hinit : GenInv st.width st.height st.pattern st.grid
      (((0 : Int), (0 : Int)) :: st.pattern) [((0 : Int), (0 : Int))] := by
    rw [hgrid]
    exact genInv_init st.width st.height st.pattern
  have hloop := @genInv_loop st.width st.height st.pattern rnd
    (2 * st.width * st.height + st.pattern.length + 2) 0
    ⟨st.grid, ((0 : Int), (0 : Int)) :: st.pattern, [((0 : Int), (0 : Int))]⟩
    hinit
  have hb : BraidInv st.width st.height st.pattern
      (genLoop st.width st.height rnd
        (2 * st.width * st.height + st.pattern.length + 2) 0
        ⟨st.grid, ((0 : Int), (0 : Int)) :: st.pattern,
          [((0 : Int), (0 : Int))]⟩).grid :=
    ⟨hloop.shape, hloop.range, hloop.sym, hloop.pat_mask⟩
  have hgen : generate st rnd rndB =
      (if st.isPerfect then
        { st with grid := (genLoop st.width st.height rnd
            (2 * st.width * st.height + st.pattern.length + 2) 0
            ⟨st.grid, ((0 : Int), (0 : Int)) :: st.pattern,
              [((0 : Int), (0 : Int))]⟩).grid }
      else nonPerfect { st with grid := (genLoop st.width st.height rnd
            (2 * st.width * st.height + st.pattern.length + 2) 0
            ⟨st.grid, ((0 : Int), (0 : Int)) :: st.pattern,
              [((0 : Int), (0 : Int))]⟩).grid } rndB) := rfl
  rw [hgen]
  split_ifs with hp
  · exact hb
  · exact (nonPerfect_inv { st with grid := (genLoop st.width st.height rnd
      (2 * st.width * st.height + st.pattern.length + 2) 0
      ⟨st.grid, ((0 : Int), (0 : Int)) :: st.pattern,
        [((0 : Int), (0 : Int))]⟩).grid } rndB hb).1

theorem nonPerfect_width (st : MazeState) (rnd : Nat → Nat × Nat × Nat) :
    (nonPerfect st rnd).width = st.width := by
  unfold nonPerfect
  split_ifs <;> rfl

theorem nonPerfect_height (st : MazeState) (rnd : Nat → Nat × Nat × Nat) :
    (nonPerfect st rnd).height = st.height := by
  unfold nonPerfect
  split_ifs <;> rfl

theorem nonPerfect_pattern (st : MazeState) (rnd : Nat → Nat × Nat × Nat) :
    (nonPerfect st rnd).pattern = st.pattern := by
  unfold nonPerfect
  split_ifs <;> rfl

theorem generate_width (st : MazeState) (rnd : Nat → Nat)
    (rndB : Nat → Nat × Nat × Nat) :
    (generate st rnd rndB).width = st.width := by
  show (if st.isPerfect then _ else nonPerfect _ rndB).width = st.width
  split_ifs
  · rfl
  · exact nonPerfect_width _ rndB

theorem generate_height (st : MazeState) (rnd : Nat → Nat)
    (rndB : Nat → Nat × Nat × Nat) :
    (generate st rnd rndB).height = st.height := by
  show (if st.isPerfect then _ else nonPerfect _ rndB).height = st.height
  split_ifs
  · rfl
  · exact nonPerfect_height _ rndB

theorem generate_pattern (st : MazeState) (rnd : Nat → Nat)
    (rndB : Nat → Nat × Nat × Nat) :
    (generate st rnd rndB).pattern = st.pattern := by
  show (if st.isPerfect then _ else nonPerfect _ rndB).pattern = st.pattern
  split_ifs
  · rfl
  · exact nonPerfect_pattern _ rndB

theorem nonPerfectSeq_inv :
    ∀ (rs : List (Nat → Nat × Nat × Nat)) (st : MazeState),
      BraidInv st.width st.height st.pattern st.grid →
      BraidInv st.width st.height st.pattern (nonPerfectSeq st rs).grid ∧
        (nonPerfectSeq st rs).width = st.width ∧
        (nonPerfectSeq st rs).height = st.height ∧
        (nonPerfectSeq st rs).pattern = st.pattern := by
  intro rs
  induction rs with
  | nil => intro st hs; exact ⟨hs, rfl, rfl, rfl⟩
  | cons r rs ih =>
    intro st hs
    have h1 := nonPerfect_inv st r hs
    have h2 := ih (nonPerfect st r)
      (by rw [nonPerfect_width, nonPerfect_height, nonPerfect_pattern]
          exact h1.1)
    refine ⟨?_, ?_, ?_, ?_⟩
    · rw [show nonPerfectSeq st (r :: rs) = nonPerfectSeq (nonPerfect st r) rs
        from rfl]
      rw [← nonPerfect_width st r, ← nonPerfect_height st r,
        ← nonPerfect_pattern st r]
      exact h2.1
    · rw [show nonPerfectSeq st (r :: rs) = nonPerfectSeq (nonPerfect st r) rs
        from rfl, h2.2.1, nonPerfect_width]
    · rw [show nonPerfectSeq st (r :: rs) = nonPerfectSeq (nonPerfect st r) rs
        from rfl, h2.2.2.1, nonPerfect_height]
    · rw [show nonPerfectSeq st (r :: rs) = nonPerfectSeq (nonPerfect st r) rs
        from rfl, h2.2.2.2, nonPerfect_pattern]

/-- All cells produced by `add_pattern` lie inside the grid. -/
theorem addPattern_inBounds (st : MazeState) (hp : st.pattern = []) :
    ∀ c ∈ (addPattern st).pattern, inBounds st.width st.height c = true := by
  intro c hc
  unfold addPattern at hc
  rw [hp] at hc
  simp only [List.nil_append, List.mem_flatMap, List.mem_filterMap,
    List.mem_range] at hc
  obtain ⟨y, _, x, _, hx⟩ := hc
  split_ifs at hx with h1 h2
  · obtain rfl := Option.some.injEq .. ▸ hx
    exact h2

/-- The spec-level symmetry statement over the four named directions,
derived from the two-orientation invariant. -/
theorem symGrid_dirs {w h : Nat} {g : Grid} (hs : SymGrid w h g) :
    ∀ d ∈ directions, ∀ x y : Int,
      inBounds w h (x, y) = true →
      inBounds w h (x + d.2.1, y + d.2.2.1) = true →
      (Int.land (gridGet g x y) d.2.2.2 = 0 ↔
        Int.land (gridGet g (x + d.2.1) (y + d.2.2.1))
          (opposite d.2.2.2) = 0) := by
  intro d hd x y hb1 hb2
  simp only [directions, List.mem_cons, List.not_mem_nil, or_false] at hd
  rcases hd with rfl | rfl | rfl | rfl <;> dsimp only at hb2 ⊢
  · rw [show x + (0 : Int) = x from by ring] at hb2 ⊢
    have hsym := hs.2 x (y + -1) hb2
      (by rw [show y + -1 + 1 = y from by ring]; exact hb1)
    rw [show y + -1 + 1 = y from by ring] at hsym
    rw [show (opposite 1 : Int) = 4 from rfl]
    exact hsym.symm
  · rw [show y + (0 : Int) = y from by ring] at hb2 ⊢
    rw [show (opposite 2 : Int) = 8 from rfl]
    exact hs.1 x y hb1 hb2
  · rw [show x + (0 : Int) = x from by ring] at hb2 ⊢
    rw [show (opposite 4 : Int) = 1 from rfl]
    exact hs.2 x y hb1 hb2
  · rw [show y + (0 : Int) = y from by ring] at hb2 ⊢
    have hsym := hs.1 (x + -1) y hb2
      (by rw [show x + -1 + 1 = x from by ring]; exact hb1)
    rw [show x + -1 + 1 = x from by ring] at hsym
    rw [show (opposite 8 : Int) = 2 from rfl]
    exact hsym.symm

/-- C1 (amended): after `add_pattern`, `generate` and the optional
`non_perfect` pass inside it, every pattern cell other than the origin
`(0, 0)` keeps wall mask 15 (walls are never carved into any pattern
cell, nor out of a pattern cell other than the origin); in particular if
the origin is not a pattern cell, every pattern cell keeps mask 15. -/
theorem obstacle_isolation (w h : Nat) (mode : Bool) (rnd : Nat → Nat)
    (rndB : Nat → Nat × Nat × Nat) :
    (∀ c ∈ (generate (addPattern (mazeInit w h mode)) rnd rndB).pattern,
      c ≠ ((0 : Int), (0 : Int)) →
      gridGet (generate (addPattern (mazeInit w h mode)) rnd rndB).grid
        c.1 c.2 = 15) ∧
    (((0 : Int), (0 : Int)) ∉ (addPattern (mazeInit w h mode)).pattern →
      ∀ c ∈ (generate (addPattern (mazeInit w h mode)) rnd rndB).pattern,
      gridGet (generate (addPattern (mazeInit w h mode)) rnd rndB).grid
        c.1 c.2 = 15) := by
  have hm := generate_master (addPattern (mazeInit w h mode)) rnd rndB rfl
  have hbnd := addPattern_inBounds (mazeInit w h mode) rfl
  have hmain : ∀ c ∈ (generate (addPattern (mazeInit w h mode)) rnd rndB).pattern,
      c ≠ ((0 : Int), (0 : Int)) →
      gridGet (generate (addPattern (mazeInit w h mode)) rnd rndB).grid
        c.1 c.2 = 15 := by
    intro c hc hc0
    rw [generate_pattern] at hc
    exact hm.pat_mask c hc (hbnd c hc) hc0
  refine ⟨hmain, ?_⟩
  intro h0 c hc
  by_cases hc0 : c = ((0 : Int), (0 : Int))
  · subst hc0
    rw [generate_pattern] at hc
    exact absurd hc h0
  · exact hmain c hc hc0

/-- C1 counterexample: on a 3×1 grid the origin `(0, 0)` is itself a
pattern cell, and the very first carve of `generate` opens its east
wall, leaving mask 13 ≠ 15. -/
theorem obstacle_isolation_counterexample :
    ((0 : Int), (0 : Int)) ∈ (addPattern (mazeInit 3 1 true)).pattern ∧
    gridGet (generate (addPattern (mazeInit 3 1 true)) (fun _ => 0)
      (fun _ => (0, 0, 0))).grid 0 0 = 13 := by
  decide

/-- C10 (amended): every mask is in `[0, 15]` after construction, and
after the pipeline of one `generate` (with its optional braid) followed
by any number of further `non_perfect` passes.  A second `generate` call
can drive masks negative (see the counterexample). -/
theorem mask_range_pipeline (w h : Nat) (mode : Bool) (rnd : Nat → Nat)
    (rndB : Nat → Nat × Nat × Nat) (rs : List (Nat → Nat × Nat × Nat)) :
    MaskRange w h (mazeInit w h mode).grid ∧
    MaskRange w h (nonPerfectSeq
      (generate (addPattern (mazeInit w h mode)) rnd rndB) rs).grid := by
  constructor
  · intro x y hb
    rw [show (mazeInit w h mode).grid
      = List.replicate h (List.replicate w (15 : Int)) from rfl,
      gridGet_replicate w h hb]
    constructor <;> decide
  · have hm := generate_master (addPattern (mazeInit w h mode)) rnd rndB rfl
    have hseq := nonPerfectSeq_inv rs
      (generate (addPattern (mazeInit w h mode)) rnd rndB)
      (by rw [generate_width, generate_height, generate_pattern]; exact hm)
    have hr := hseq.1.range
    rwa [generate_width, generate_height] at hr

/-- C10 counterexample: running `generate` twice on a 2×1 grid drives
the mask of cell `(1, 0)` to `-1`, outside `[0, 15]` (the second run
subtracts wall bit 8 although that bit is already clear). -/
theorem mask_range_counterexample :
    gridGet (generate (generate (mazeInit 2 1 true) (fun _ => 0)
      (fun _ => (0, 0, 0))) (fun _ => 0) (fun _ => (0, 0, 0))).grid 1 0
      = -1 := by
  decide

/-- C2 (amended): after one `generate` (with its optional internal
braid) followed by any number of further `non_perfect` passes, for every
pair of grid-adjacent cells A and B with direction D from A to B, the
wall bit of D is clear in A iff the opposite bit is clear in B.  A
second `generate` call can break this (see the counterexample). -/
theorem wall_symmetry (w h : Nat) (mode : Bool) (rnd : Nat → Nat)
    (rndB : Nat → Nat × Nat × Nat) (rs : List (Nat → Nat × Nat × Nat)) :
    ∀ d ∈ directions, ∀ x y : Int,
      inBounds w h (x, y) = true →
      inBounds w h (x + d.2.1, y + d.2.2.1) = true →
      (Int.land (gridGet (nonPerfectSeq
          (generate (addPattern (mazeInit w h mode)) rnd rndB) rs).grid x y)
          d.2.2.2 = 0 ↔
        Int.land (gridGet (nonPerfectSeq
          (generate (addPattern (mazeInit w h mode)) rnd rndB) rs).grid
          (x + d.2.1) (y + d.2.2.1)) (opposite d.2.2.2) = 0) := by
  have hm := generate_master (addPattern (mazeInit w h mode)) rnd rndB rfl
  have hseq := nonPerfectSeq_inv rs
    (generate (addPattern (mazeInit w h mode)) rnd rndB)
    (by rw [generate_width, generate_height, generate_pattern]; exact hm)
  have hsym := hseq.1.sym
  rw [generate_width, generate_height] at hsym
  exact symGrid_dirs hsym

/-- C2 counterexample: after two `generate` calls on a 2×2 grid, the
south bit of `(0, 0)` is clear while the north bit of the adjacent cell
`(0, 1)` is still set: the edge is one-sided. -/
theorem wall_symmetry_counterexample :
    Int.land (gridGet (generate (generate (mazeInit 2 2 true) (fun _ => 0)
      (fun _ => (0, 0, 0))) (fun _ => 0) (fun _ => (0, 0, 0))).grid 0 0)
      4 = 0 ∧
    Int.land (gridGet (generate (generate (mazeInit 2 2 true) (fun _ => 0)
      (fun _ => (0, 0, 0))) (fun _ => 0) (fun _ => (0, 0, 0))).grid 0 1)
      1 ≠ 0 := by
  decide

theorem changedCells_self (w h : Nat) (g : Grid) :
    changedCells w h g g = ∅ := by
  unfold changedCells
  apply Finset.filter_false_of_mem
  intro p _ hp
  exact hp rfl

theorem changedCells_tri (w h : Nat) (g g' g'' : Grid) :
    changedCells w h g g'' ⊆ changedCells w h g g' ∪ changedCells w h g' g'' := by
  intro p hp
  rw [Finset.mem_union]
  unfold changedCells at hp ⊢
  rw [Finset.mem_filter] at hp
  by_cases h1 : gridGet g (p.1 : Int) (p.2 : Int) = gridGet g' (p.1 : Int) (p.2 : Int)
  · refine Or.inr (Finset.mem_filter.2 ⟨hp.1, ?_⟩)
    intro h2
    exact hp.2 (h1.trans h2)
  · exact Or.inl (Finset.mem_filter.2 ⟨hp.1, h1⟩)

theorem braidIter_shape {w h : Nat} {pattern : List Cell}
    {r : Nat × Nat × Nat} {g : Grid} (hg : GridShape w h g) :
    GridShape w h (braidIter w h pattern r g) := by
  unfold braidIter braidAt
  split_ifs <;>
    first
    | exact hg
    | exact gridShape_set (gridShape_set hg _ _ _) _ _ _

/-- One braid attempt changes the masks of at most two cells. -/
theorem braidIter_changed {w h : Nat} {pattern : List Cell}
    {r : Nat × Nat × Nat} {g : Grid} (hw : 2 ≤ w) (hh : 2 ≤ h)
    (hg : GridShape w h g) :
    (changedCells w h g (braidIter w h pattern r g)).card ≤ 2 := by
  rcases braidIter_spec w h pattern r g hw hh with heq |
    ⟨x, y, hb1, hb2, hp1, hp2, hland, heq⟩ |
    ⟨x, y, hb1, hb2, hp1, hp2, hland, heq⟩
  · rw [heq, changedCells_self]
    simp
  · rw [heq]
    have hnc : ((x + 1, y) : Cell) ≠ (x, y) := by
      intro hq
      rw [Prod.mk.injEq] at hq
      omega
    obtain ⟨hvc, hvn, hvo⟩ := @carve_get w h g hg x y (x + 1) y 2 hb1 hb2 hnc
    have hsub : changedCells w h g
        (gridSet (gridSet g x y (gridGet g x y - 2)) (x + 1) y
          (gridGet (gridSet g x y (gridGet g x y - 2)) (x + 1) y - opposite 2))
        ⊆ {(x.toNat, y.toNat), ((x + 1).toNat, y.toNat)} := by
      intro p hp
      unfold changedCells at hp
      rw [Finset.mem_filter] at hp
      obtain ⟨hpbox, hpne⟩ := hp
      rw [Finset.mem_product, Finset.mem_range, Finset.mem_range] at hpbox
      have hpb : inBounds w h ((p.1 : Int), (p.2 : Int)) = true := by
        rw [inBounds_xy]
        refine ⟨by positivity, ?_, by positivity, ?_⟩ <;> push_cast <;> omega
      rw [Finset.mem_insert, Finset.mem_singleton]
      by_cases h1 : (((p.1 : Int), (p.2 : Int)) : Cell) = (x, y)
      · rw [Prod.mk.injEq] at h1
        left
        rw [Prod.mk.injEq]
        omega
      · by_cases h2 : (((p.1 : Int), (p.2 : Int)) : Cell) = (x + 1, y)
        · rw [Prod.mk.injEq] at h2
          right
          rw [Prod.mk.injEq]
          omega
        · exact absurd (hvo _ _ h1 h2 hpb).symm hpne
    calc (changedCells w h g _).card
        ≤ ({(x.toNat, y.toNat), ((x + 1).toNat, y.toNat)} :
            Finset (Nat × Nat)).card := Finset.card_le_card hsub
      _ ≤ 2 := Finset.card_insert_le _ _ |>.trans (by simp)
  · rw [heq]
    have hnc : ((x, y + 1) : Cell) ≠ (x, y) := by
      intro hq
      rw [Prod.mk.injEq] at hq
      omega
    obtain ⟨hvc, hvn, hvo⟩ := @carve_get w h g hg x y x (y + 1) 4 hb1 hb2 hnc
    have hsub : changedCells w h g
        (gridSet (gridSet g x y (gridGet g x y - 4)) x (y + 1)
          (gridGet (gridSet g x y (gridGet g x y - 4)) x (y + 1) - opposite 4))
        ⊆ {(x.toNat, y.toNat), (x.toNat, (y + 1).toNat)} := by
      intro p hp
      unfold changedCells at hp
      rw [Finset.mem_filter] at hp
      obtain ⟨hpbox, hpne⟩ := hp
      rw [Finset.mem_product, Finset.mem_range, Finset.mem_range] at hpbox
      have hpb : inBounds w h ((p.1 : Int), (p.2 : Int)) = true := by
        rw [inBounds_xy]
        refine ⟨by positivity, ?_, by positivity, ?_⟩ <;> push_cast <;> omega
      rw [Finset.mem_insert, Finset.mem_singleton]
      by_cases h1 : (((p.1 : Int), (p.2 : Int)) : Cell) = (x, y)
      · rw [Prod.mk.injEq] at h1
        left
        rw [Prod.mk.injEq]
        omega
      · by_cases h2 : (((p.1 : Int), (p.2 : Int)) : Cell) = (x, y + 1)
        · rw [Prod.mk.injEq] at h2
          right
          rw [Prod.mk.injEq]
          omega
        · exact absurd (hvo _ _ h1 h2 hpb).symm hpne
    calc (changedCells w h g _).card
        ≤ ({(x.toNat, y.toNat), (x.toNat, (y + 1).toNat)} :
            Finset (Nat × Nat)).card := Finset.card_le_card hsub
      _ ≤ 2 := Finset.card_insert_le _ _ |>.trans (by simp)

/-- The braid loop changes at most two cells per iteration. -/
theorem braidLoop_changed {w h : Nat} {pattern : List Cell}
    (rnd : Nat → Nat × Nat × Nat) (hw : 2 ≤ w) (hh : 2 ≤ h) :
    ∀ (k i : Nat) (g : Grid), GridShape w h g →
      (changedCells w h g (braidLoop w h pattern rnd k i g)).card ≤ 2 * k := by
  intro k
  induction k with
  | zero =>
    intro i g hg
    rw [show braidLoop w h pattern rnd 0 i g = g from rfl, changedCells_self]
    simp
  | succ n ih =>
    intro i g hg
    have hstep : braidLoop w h pattern rnd (n + 1) i g
        = braidLoop w h pattern rnd n (i + 1) (braidIter w h pattern (rnd i) g) :=
      rfl
    rw [hstep]
    have h1 := @braidIter_changed w h pattern (rnd i) g hw hh hg
    have h2 := ih (i + 1) (braidIter w h pattern (rnd i) g) (braidIter_shape hg)
    calc (changedCells w h g (braidLoop w h pattern rnd n (i + 1)
            (braidIter w h pattern (rnd i) g))).card
        ≤ ((changedCells w h g (braidIter w h pattern (rnd i) g)) ∪
            (changedCells w h (braidIter w h pattern (rnd i) g)
              (braidLoop w h pattern rnd n (i + 1)
                (braidIter w h pattern (rnd i) g)))).card :=
          Finset.card_le_card (changedCells_tri w h _ _ _)
      _ ≤ _ + _ := Finset.card_union_le _ _
      _ ≤ 2 + 2 * n := Nat.add_le_add h1 h2
      _ ≤ 2 * (n + 1) := by omega

/-- C5 (amended): a `non_perfect` pass changes the wall masks of at most
`2 * ⌊w*h/20⌋` cells (each of the `⌊w*h/20⌋` attempts changes either no
cell or exactly the two cells of one wall); all other cells keep their
mask.  The bound `⌊w*h/20⌋` cells claimed by the spec is too small: one
opened wall already changes two cell masks. -/
theorem braid_changed_bound (st : MazeState) (rnd : Nat → Nat × Nat × Nat)
    (hg : GridShape st.width st.height st.grid) :
    (changedCells st.width st.height st.grid (nonPerfect st rnd).grid).card
      ≤ 2 * (st.width * st.height / 20) := by
  unfold nonPerfect
  split_ifs with hwh
  · exact braidLoop_changed rnd hwh.1 hwh.2 _ 0 st.grid hg
  · rw [changedCells_self]
    simp

/-- C5 counterexample: on a 5×4 perfect maze (20 cells, so one braid
attempt), a single opened wall changes the masks of two cells, while
`⌊5*4/20⌋ = 1`. -/
theorem braid_changed_counterexample :
    (changedCells 5 4
      (generate (mazeInit 5 4 true) (fun _ => 0) (fun _ => (0, 0, 0))).grid
      (nonPerfect (generate (mazeInit 5 4 true) (fun _ => 0)
        (fun _ => (0, 0, 0))) (fun _ => (1, 1, 0))).grid).card = 2 ∧
    5 * 4 / 20 = 1 := by
  decide

/-- For a mask in `[0, 15]`, Python's `format(m, 'X')` is the single
upper-case hexadecimal digit of the mask. -/
theorem pyFormatX_digit {m : Int} (h0 : 0 ≤ m) (h15 : m ≤ 15) :
    pyFormatX m = ⟨[hexChar m.toNat]⟩ := by
  unfold pyFormatX
  rw [if_neg (by omega)]
  unfold hexRep
  rw [if_pos (by omega)]

theorem rowString_data : ∀ (row : List Int), (∀ m ∈ row, 0 ≤ m ∧ m ≤ 15) →
    (String.join (row.map pyFormatX)).data
      = row.map fun m => hexChar m.toNat := by
  intro row
  induction row with
  | nil => intro _; rfl
  | cons a t ih =>
    intro hr
    have iht := ih (fun m hm => hr m (List.mem_cons_of_mem _ hm))
    rw [String.data_join] at iht ⊢
    simp only [List.map_cons, List.flatten_cons]
    rw [pyFormatX_digit (hr a (List.mem_cons_self _ _)).1
      (hr a (List.mem_cons_self _ _)).2, iht]
    rfl

theorem hexChar_mem_digits : ∀ n : Nat, n < 16 →
    hexChar n ∈ ("0123456789ABCDEF" : String).data := by
  decide

/-- C7: for a well-formed `w × h` grid of 4-bit masks, `save_to_file`
writes exactly the rows top-to-bottom as `h` newline-terminated lines of
`w` upper-case hexadecimal digits (one digit per cell, cells left to
right), then a blank line, the entry as `x,y`, the exit as `x,y`, and
the solution string, each newline-terminated. -/
theorem save_to_file_format (st : MazeState) (entry exitc : Cell)
    (solution : String)
    (hshape : GridShape st.width st.height st.grid)
    (hrange : ∀ row ∈ st.grid, ∀ m ∈ row, 0 ≤ m ∧ m ≤ 15) :
    saveToFile st entry exitc solution =
      String.join (st.grid.map fun row =>
        (⟨row.map fun m => hexChar m.toNat⟩ : String) ++ "\n") ++ "\n"
        ++ toString entry.1 ++ "," ++ toString entry.2 ++ "\n"
        ++ toString exitc.1 ++ "," ++ toString exitc.2 ++ "\n"
        ++ solution ++ "\n" ∧
    st.grid.length = st.height ∧
    (∀ row ∈ st.grid,
      (row.map fun m => hexChar m.toNat).length = st.width ∧
      ∀ ch ∈ row.map fun m => hexChar m.toNat,
        ch ∈ ("0123456789ABCDEF" : String).data) := by
  refine ⟨?_, hshape.1, ?_⟩
  · unfold saveToFile
    have hrows : st.grid.map (fun row => String.join (row.map pyFormatX) ++ "\n")
        = st.grid.map (fun row =>
          (⟨row.map fun m => hexChar m.toNat⟩ : String) ++ "\n") := by
      apply List.map_congr_left
      intro row hrow
      have := rowString_data row (hrange row hrow)
      have hs : String.join (row.map pyFormatX)
          = (⟨row.map fun m => hexChar m.toNat⟩ : String) := String.ext this
      rw [hs]
    rw [hrows]
  · intro row hrow
    constructor
    · rw [List.length_map]
      exact hshape.2 row hrow
    · intro ch hch
      rw [List.mem_map] at hch
      obtain ⟨m, hm, rfl⟩ := hch
      have := hrange row hrow m hm
      exact hexChar_mem_digits m.toNat (by omega)

/-- C9: `load_config` returns the parsed dictionary exactly when every
required key (`WIDTH`, `HEIGHT`, `ENTRY`, `EXIT`, `OUTPUT_FILE`,
`PERFECT`) is present; when one is absent it prints
`Missing: <key> in config.txt` and terminates with exit status 1
(modelled by the `.error` result) without generating any maze. -/
theorem load_config_spec (lines : List String) :
    ((∃ k ∈ requiredKeys, ((parseConfig lines).lookup k).isNone) →
      ∃ k ∈ requiredKeys, ((parseConfig lines).lookup k).isNone ∧
        loadConfig lines = .error ("Missing: " ++ k ++ " in config.txt")) ∧
    ((∀ k ∈ requiredKeys, ((parseConfig lines).lookup k).isSome) →
      loadConfig lines = .ok (parseConfig lines)) := by
  unfold loadConfig
  rcases hfind : requiredKeys.find?
      (fun k => ((parseConfig lines).lookup k).isNone) with _ | k
  · constructor
    · intro ⟨k, hk, hnone⟩
      have := List.find?_eq_none.1 hfind k hk
      rw [hnone] at this
      exact absurd rfl this
    · intro _
      rfl
  · constructor
    · intro _
      refine ⟨k, List.mem_of_find?_eq_some hfind, ?_, rfl⟩
      have := List.find?_some hfind
      simpa using this
    · intro hall
      have hmem := List.mem_of_find?_eq_some hfind
      have := List.find?_some hfind
      have hnone : ((parseConfig lines).lookup k).isNone := by simpa using this
      have hsome := hall k hmem
      rw [Option.isNone_iff_eq_none] at hnone
      rw [hnone] at hsome
      exact absurd hsome (by simp)

/-! ## The passage graph and the spanning-tree property (perfect mode) -/

theorem carvedEdgeCount_init (w h : Nat) :
    carvedEdgeCount w h (List.replicate h (List.replicate w (15 : Int))) = 0 := by
  unfold carvedEdgeCount
  rw [Finset.filter_false_of_mem, Finset.filter_false_of_mem]
  · simp
  · intro p hp
    rw [Finset.mem_product, Finset.mem_range, Finset.mem_range] at hp
    have hb : inBounds w h ((p.2 : Int), (p.1 : Int)) = true := by
      rw [inBounds_xy]
      refine ⟨by positivity, ?_, by positivity, ?_⟩ <;> push_cast <;> omega
    rw [gridGet_replicate w h hb]
    decide
  · intro p hp
    rw [Finset.mem_product, Finset.mem_range, Finset.mem_range] at hp
    have hb : inBounds w h ((p.2 : Int), (p.1 : Int)) = true := by
      rw [inBounds_xy]
      refine ⟨by positivity, ?_, by positivity, ?_⟩ <;> push_cast <;> omega
    rw [gridGet_replicate w h hb]
    decide

theorem mazeGraph_init_no_adj (w h : Nat) {a b : Cell} :
    ¬ (mazeGraph w h (List.replicate h (List.replicate w (15 : Int)))).Adj a b := by
  intro hab
  obtain ⟨ha, hb, hd⟩ := hab
  obtain ⟨a1, a2⟩ := a
  obtain ⟨b1, b2⟩ := b
  rw [gridGet_replicate w h ha, gridGet_replicate w h hb] at hd
  rcases hd with ⟨_, _, hz, _⟩ | ⟨_, _, hz, _⟩ | ⟨_, _, hz, _⟩ | ⟨_, _, hz, _⟩ <;>
    exact (by decide : Int.land 15 2 ≠ 0 ∧ Int.land 15 4 ≠ 0).elim
      (fun p q => by first | exact p hz | exact q hz)

/-- Carving an edge only opens passages: the passage graph grows. -/
theorem carve_mono {w h : Nat} {g : Grid} (hg : GridShape w h g)
    {c1 c2 n1 n2 bit : Int}
    (hcb : inBounds w h (c1, c2) = true) (hnb : inBounds w h (n1, n2) = true)
    (hnc : ((n1, n2) : Cell) ≠ (c1, c2))
    (hmc0 : 0 ≤ gridGet g c1 c2) (hmc15 : gridGet g c1 c2 ≤ 15)
    (hmn0 : 0 ≤ gridGet g n1 n2) (hmn15 : gridGet g n1 n2 ≤ 15)
    (hbit : ValidBit bit)
    (hset : Int.land (gridGet g c1 c2) bit ≠ 0)
    (hsetn : Int.land (gridGet g n1 n2) (opposite bit) ≠ 0) :
    mazeGraph w h g ≤ mazeGraph w h (carveGrid g c1 c2 n1 n2 bit) := by
  have hflip := carve_flip hg hcb hnb hnc hmc0 hmc15 hmn0 hmn15 hbit hset hsetn
  intro a b hab
  obtain ⟨ha, hb, hd⟩ := hab
  obtain ⟨a1, a2⟩ := a
  obtain ⟨b1, b2⟩ := b
  refine ⟨ha, hb, ?_⟩
  have f2a := fun hz => (hflip a1 a2 ha 2 validBit_two).2 (Or.inl hz)
  have f2b := fun hz => (hflip b1 b2 hb 2 validBit_two).2 (Or.inl hz)
  have f8a := fun hz => (hflip a1 a2 ha 8 validBit_eight).2 (Or.inl hz)
  have f8b := fun hz => (hflip b1 b2 hb 8 validBit_eight).2 (Or.inl hz)
  have f4a := fun hz => (hflip a1 a2 ha 4 validBit_four).2 (Or.inl hz)
  have f4b := fun hz => (hflip b1 b2 hb 4 validBit_four).2 (Or.inl hz)
  have f1a := fun hz => (hflip a1 a2 ha 1 validBit_one).2 (Or.inl hz)
  have f1b := fun hz => (hflip b1 b2 hb 1 validBit_one).2 (Or.inl hz)
  rcases hd with ⟨h1, h2, h3, h4⟩ | ⟨h1, h2, h3, h4⟩ | ⟨h1, h2, h3, h4⟩ |
    ⟨h1, h2, h3, h4⟩
  · exact Or.inl ⟨h1, h2, f2a h3, f8b h4⟩
  · exact Or.inr (Or.inl ⟨h1, h2, f2b h3, f8a h4⟩)
  · exact Or.inr (Or.inr (Or.inl ⟨h1, h2, f4a h3, f1b h4⟩))
  · exact Or.inr (Or.inr (Or.inr ⟨h1, h2, f4b h3, f1a h4⟩))

/-- Carving creates the carved passage. -/
theorem carve_new_adj {w h : Nat} {g : Grid} (hg : GridShape w h g)
    {c1 c2 dx dy bit : Int}
    (hd4 : (dx = 0 ∧ dy = -1 ∧ bit = 1) ∨ (dx = 1 ∧ dy = 0 ∧ bit = 2) ∨
      (dx = 0 ∧ dy = 1 ∧ bit = 4) ∨ (dx = -1 ∧ dy = 0 ∧ bit = 8))
    (hcb : inBounds w h (c1, c2) = true)
    (hnb : inBounds w h (c1 + dx, c2 + dy) = true)
    (hnc : ((c1 + dx, c2 + dy) : Cell) ≠ (c1, c2))
    (hmc0 : 0 ≤ gridGet g c1 c2) (hmc15 : gridGet g c1 c2 ≤ 15)
    (hmn0 : 0 ≤ gridGet g (c1 + dx) (c2 + dy))
    (hmn15 : gridGet g (c1 + dx) (c2 + dy) ≤ 15)
    (hbit : ValidBit bit)
    (hset : Int.land (gridGet g c1 c2) bit ≠ 0)
    (hsetn : Int.land (gridGet g (c1 + dx) (c2 + dy)) (opposite bit) ≠ 0) :
    (mazeGraph w h (carveGrid g c1 c2 (c1 + dx) (c2 + dy) bit)).Adj
      (c1, c2) (c1 + dx, c2 + dy) := by
  have hflip := carve_flip hg hcb hnb hnc hmc0 hmc15 hmn0 hmn15 hbit hset hsetn
  have hc0 : Int.land (gridGet (carveGrid g c1 c2 (c1 + dx) (c2 + dy) bit)
      c1 c2) bit = 0 :=
    (hflip c1 c2 hcb bit hbit).2 (Or.inr (Or.inl ⟨rfl, rfl⟩))
  have hn0 : Int.land (gridGet (carveGrid g c1 c2 (c1 + dx) (c2 + dy) bit)
      (c1 + dx) (c2 + dy)) (opposite bit) = 0 :=
    (hflip (c1 + dx) (c2 + dy) hnb (opposite bit) (validBit_opposite hbit)).2
      (Or.inr (Or.inr ⟨rfl, rfl⟩))
  refine ⟨hcb, hnb, ?_⟩
  rcases hd4 with ⟨hx, hy, hbq⟩ | ⟨hx, hy, hbq⟩ | ⟨hx, hy, hbq⟩ | ⟨hx, hy, hbq⟩ <;>
    subst hx <;> subst hy <;> subst hbq
  · exact Or.inr (Or.inr (Or.inr ⟨(show c1 = c1 + 0 by ring),
      (show c2 = c2 + -1 + 1 by ring), hn0, hc0⟩))
  · exact Or.inl ⟨(show c1 + 1 = c1 + 1 by ring), (show c2 + 0 = c2 by ring),
      hc0, hn0⟩
  · exact Or.inr (Or.inr (Or.inl ⟨(show c1 + 0 = c1 by ring),
      (show c2 + 1 = c2 + 1 by ring), hc0, hn0⟩))
  · exact Or.inr (Or.inl ⟨(show c1 = c1 + -1 + 1 by ring),
      (show c2 = c2 + 0 by ring), hn0, hc0⟩)

theorem land_fifteen_sub {b b' : Int} (hb : ValidBit b) (hb' : ValidBit b') :
    Int.land (15 - b) b' = 0 ↔ b' = b := by
  rcases hb with hq | hq | hq | hq <;> rcases hb' with hq' | hq' | hq' | hq' <;>
    subst hq <;> subst hq' <;> decide

/-- In the carved grid, the freshly visited cell `(c1+dx, c2+dy)` has a
single open passage, namely the carved one back to `(c1, c2)`. -/
theorem carve_fresh_unique {w h : Nat} {g : Grid} (hg : GridShape w h g)
    {c1 c2 dx dy bit : Int}
    (hd4 : (dx = 0 ∧ dy = -1 ∧ bit = 1) ∨ (dx = 1 ∧ dy = 0 ∧ bit = 2) ∨
      (dx = 0 ∧ dy = 1 ∧ bit = 4) ∨ (dx = -1 ∧ dy = 0 ∧ bit = 8))
    (hcb : inBounds w h (c1, c2) = true)
    (hnb : inBounds w h (c1 + dx, c2 + dy) = true)
    (hnc : ((c1 + dx, c2 + dy) : Cell) ≠ (c1, c2))
    (hmn : gridGet g (c1 + dx) (c2 + dy) = 15) :
    ∀ x : Cell,
      (mazeGraph w h (carveGrid g c1 c2 (c1 + dx) (c2 + dy) bit)).Adj
        (c1 + dx, c2 + dy) x → x = ((c1, c2) : Cell) := by
  obtain ⟨hvc, hvn, hvo⟩ :=
    @carve_get w h g hg c1 c2 (c1 + dx) (c2 + dy) bit hcb hnb hnc
  have hbit : ValidBit bit := by
    rcases hd4 with ⟨_, _, hq⟩ | ⟨_, _, hq⟩ | ⟨_, _, hq⟩ | ⟨_, _, hq⟩ <;>
      subst hq <;> unfold ValidBit <;> tauto
  have hopp : ValidBit (opposite bit) := validBit_opposite hbit
  have hmask : gridGet (carveGrid g c1 c2 (c1 + dx) (c2 + dy) bit)
      (c1 + dx) (c2 + dy) = 15 - opposite bit := by
    have hvn' : gridGet (carveGrid g c1 c2 (c1 + dx) (c2 + dy) bit)
        (c1 + dx) (c2 + dy)
        = gridGet g (c1 + dx) (c2 + dy) - opposite bit := hvn
    rw [hvn', hmn]
  intro x hx
  obtain ⟨_, hxb, hd⟩ := hx
  obtain ⟨x1, x2⟩ := x
  dsimp only at hd
  rw [Prod.mk.injEq]
  rcases hd with ⟨h1, h2, h3, h4⟩ | ⟨h1, h2, h3, h4⟩ | ⟨h1, h2, h3, h4⟩ |
    ⟨h1, h2, h3, h4⟩
  · rw [hmask] at h3
    have h2b := (land_fifteen_sub hopp validBit_two).1 h3
    rcases hd4 with ⟨hq1, hq2, hq3⟩ | ⟨hq1, hq2, hq3⟩ | ⟨hq1, hq2, hq3⟩ |
      ⟨hq1, hq2, hq3⟩ <;> subst hq1 <;> subst hq2 <;> subst hq3
    · exact absurd h2b (by decide)
    · exact absurd h2b (by decide)
    · exact absurd h2b (by decide)
    · constructor <;> omega
  · rw [hmask] at h4
    have h2b := (land_fifteen_sub hopp validBit_eight).1 h4
    rcases hd4 with ⟨hq1, hq2, hq3⟩ | ⟨hq1, hq2, hq3⟩ | ⟨hq1, hq2, hq3⟩ |
      ⟨hq1, hq2, hq3⟩ <;> subst hq1 <;> subst hq2 <;> subst hq3
    · exact absurd h2b (by decide)
    · constructor <;> omega
    · exact absurd h2b (by decide)
    · exact absurd h2b (by decide)
  · rw [hmask] at h3
    have h2b := (land_fifteen_sub hopp validBit_four).1 h3
    rcases hd4 with ⟨hq1, hq2, hq3⟩ | ⟨hq1, hq2, hq3⟩ | ⟨hq1, hq2, hq3⟩ |
      ⟨hq1, hq2, hq3⟩ <;> subst hq1 <;> subst hq2 <;> subst hq3
    · constructor <;> omega
    · exact absurd h2b (by decide)
    · exact absurd h2b (by decide)
    · exact absurd h2b (by decide)
  · rw [hmask] at h4
    have h2b := (land_fifteen_sub hopp validBit_one).1 h4
    rcases hd4 with ⟨hq1, hq2, hq3⟩ | ⟨hq1, hq2, hq3⟩ | ⟨hq1, hq2, hq3⟩ |
      ⟨hq1, hq2, hq3⟩ <;> subst hq1 <;> subst hq2 <;> subst hq3
    · exact absurd h2b (by decide)
    · exact absurd h2b (by decide)
    · constructor <;> omega
    · exact absurd h2b (by decide)

/-- A passage of the carved grid that does not touch the fresh cell was
already open before the carve. -/
theorem carve_old_adj {w h : Nat} {g : Grid} (hg : GridShape w h g)
    {c1 c2 dx dy bit : Int}
    (hd4 : (dx = 0 ∧ dy = -1 ∧ bit = 1) ∨ (dx = 1 ∧ dy = 0 ∧ bit = 2) ∨
      (dx = 0 ∧ dy = 1 ∧ bit = 4) ∨ (dx = -1 ∧ dy = 0 ∧ bit = 8))
    (hcb : inBounds w h (c1, c2) = true)
    (hnb : inBounds w h (c1 + dx, c2 + dy) = true)
    (hnc : ((c1 + dx, c2 + dy) : Cell) ≠ (c1, c2))
    (hmc0 : 0 ≤ gridGet g c1 c2) (hmc15 : gridGet g c1 c2 ≤ 15)
    (hmn0 : 0 ≤ gridGet g (c1 + dx) (c2 + dy))
    (hmn15 : gridGet g (c1 + dx) (c2 + dy) ≤ 15)
    (hset : Int.land (gridGet g c1 c2) bit ≠ 0)
    (hsetn : Int.land (gridGet g (c1 + dx) (c2 + dy)) (opposite bit) ≠ 0) :
    ∀ a b : Cell,
      (mazeGraph w h (carveGrid g c1 c2 (c1 + dx) (c2 + dy) bit)).Adj a b →
      a ≠ ((c1 + dx, c2 + dy) : Cell) → b ≠ ((c1 + dx, c2 + dy) : Cell) →
      (mazeGraph w h g).Adj a b := by
  have hbit : ValidBit bit := by
    rcases hd4 with ⟨_, _, hq⟩ | ⟨_, _, hq⟩ | ⟨_, _, hq⟩ | ⟨_, _, hq⟩ <;>
      subst hq <;> unfold ValidBit <;> tauto
  have hflip := carve_flip hg hcb hnb hnc hmc0 hmc15 hmn0 hmn15 hbit hset hsetn
  intro a b hab han hbn
  obtain ⟨ha, hb, hd⟩ := hab
  obtain ⟨a1, a2⟩ := a
  obtain ⟨b1, b2⟩ := b
  dsimp only at hd
  refine ⟨ha, hb, ?_⟩
  rcases hd with ⟨h1, h2, h3, h4⟩ | ⟨h1, h2, h3, h4⟩ | ⟨h1, h2, h3, h4⟩ |
    ⟨h1, h2, h3, h4⟩
  · refine Or.inl ⟨h1, h2, ?_, ?_⟩
    · rcases (hflip a1 a2 ha 2 validBit_two).1 h3 with hold | ⟨hac, hb2⟩ |
        ⟨han', _⟩
      · exact hold
      · exfalso
        rw [Prod.mk.injEq] at hac
        rcases hd4 with ⟨hq1, hq2, hq3⟩ | ⟨hq1, hq2, hq3⟩ | ⟨hq1, hq2, hq3⟩ |
          ⟨hq1, hq2, hq3⟩ <;> subst hq1 <;> subst hq2 <;> subst hq3 <;>
          first
          | exact absurd hb2 (by decide)
          | exact hbn (by rw [Prod.mk.injEq]; omega)
      · exact absurd han' han
    · rcases (hflip b1 b2 hb 8 validBit_eight).1 h4 with hold | ⟨hbc, hb2⟩ |
        ⟨hbn', _⟩
      · exact hold
      · exfalso
        rw [Prod.mk.injEq] at hbc
        rcases hd4 with ⟨hq1, hq2, hq3⟩ | ⟨hq1, hq2, hq3⟩ | ⟨hq1, hq2, hq3⟩ |
          ⟨hq1, hq2, hq3⟩ <;> subst hq1 <;> subst hq2 <;> subst hq3 <;>
          first
          | exact absurd hb2 (by decide)
          | exact han (by rw [Prod.mk.injEq]; omega)
      · exact absurd hbn' hbn
  · refine Or.inr (Or.inl ⟨h1, h2, ?_, ?_⟩)
    · rcases (hflip b1 b2 hb 2 validBit_two).1 h3 with hold | ⟨hbc, hb2⟩ |
        ⟨hbn', _⟩
      · exact hold
      · exfalso
        rw [Prod.mk.injEq] at hbc
        rcases hd4 with ⟨hq1, hq2, hq3⟩ | ⟨hq1, hq2, hq3⟩ | ⟨hq1, hq2, hq3⟩ |
          ⟨hq1, hq2, hq3⟩ <;> subst hq1 <;> subst hq2 <;> subst hq3 <;>
          first
          | exact absurd hb2 (by decide)
          | exact han (by rw [Prod.mk.injEq]; omega)
      · exact absurd hbn' hbn
    · rcases (hflip a1 a2 ha 8 validBit_eight).1 h4 with hold | ⟨hac, hb2⟩ |
        ⟨han', _⟩
      · exact hold
      · exfalso
        rw [Prod.mk.injEq] at hac
        rcases hd4 with ⟨hq1, hq2, hq3⟩ | ⟨hq1, hq2, hq3⟩ | ⟨hq1, hq2, hq3⟩ |
          ⟨hq1, hq2, hq3⟩ <;> subst hq1 <;> subst hq2 <;> subst hq3 <;>
          first
          | exact absurd hb2 (by decide)
          | exact hbn (by rw [Prod.mk.injEq]; omega)
      · exact absurd han' han
  · refine Or.inr (Or.inr (Or.inl ⟨h1, h2, ?_, ?_⟩))
    · rcases (hflip a1 a2 ha 4 validBit_four).1 h3 with hold | ⟨hac, hb2⟩ |
        ⟨han', _⟩
      · exact hold
      · exfalso
        rw [Prod.mk.injEq] at hac
        rcases hd4 with ⟨hq1, hq2, hq3⟩ | ⟨hq1, hq2, hq3⟩ | ⟨hq1, hq2, hq3⟩ |
          ⟨hq1, hq2, hq3⟩ <;> subst hq1 <;> subst hq2 <;> subst hq3 <;>
          first
          | exact absurd hb2 (by decide)
          | exact hbn (by rw [Prod.mk.injEq]; omega)
      · exact absurd han' han
    · rcases (hflip b1 b2 hb 1 validBit_one).1 h4 with hold | ⟨hbc, hb2⟩ |
        ⟨hbn', _⟩
      · exact hold
      · exfalso
        rw [Prod.mk.injEq] at hbc
        rcases hd4 with ⟨hq1, hq2, hq3⟩ | ⟨hq1, hq2, hq3⟩ | ⟨hq1, hq2, hq3⟩ |
          ⟨hq1, hq2, hq3⟩ <;> subst hq1 <;> subst hq2 <;> subst hq3 <;>
          first
          | exact absurd hb2 (by decide)
          | exact han (by rw [Prod.mk.injEq]; omega)
      · exact absurd hbn' hbn
  · refine Or.inr (Or.inr (Or.inr ⟨h1, h2, ?_, ?_⟩))
    · rcases (hflip b1 b2 hb 4 validBit_four).1 h3 with hold | ⟨hbc, hb2⟩ |
        ⟨hbn', _⟩
      · exact hold
      · exfalso
        rw [Prod.mk.injEq] at hbc
        rcases hd4 with ⟨hq1, hq2, hq3⟩ | ⟨hq1, hq2, hq3⟩ | ⟨hq1, hq2, hq3⟩ |
          ⟨hq1, hq2, hq3⟩ <;> subst hq1 <;> subst hq2 <;> subst hq3 <;>
          first
          | exact absurd hb2 (by decide)
          | exact han (by rw [Prod.mk.injEq]; omega)
      · exact absurd hbn' hbn
    · rcases (hflip a1 a2 ha 1 validBit_one).1 h4 with hold | ⟨hac, hb2⟩ |
        ⟨han', _⟩
      · exact hold
      · exfalso
        rw [Prod.mk.injEq] at hac
        rcases hd4 with ⟨hq1, hq2, hq3⟩ | ⟨hq1, hq2, hq3⟩ | ⟨hq1, hq2, hq3⟩ |
          ⟨hq1, hq2, hq3⟩ <;> subst hq1 <;> subst hq2 <;> subst hq3 <;>
          first
          | exact absurd hb2 (by decide)
          | exact hbn (by rw [Prod.mk.injEq]; omega)
      · exact absurd han' han

theorem filter_card_flip {α : Type} [DecidableEq α] {S : Finset α}
    {p q : α → Prop} [DecidablePred p] [DecidablePred q] {a : α}
    (ha : a ∈ S) (hpa : ¬ p a) (hqa : q a)
    (hother : ∀ x ∈ S, x ≠ a → (p x ↔ q x)) :
    (S.filter q).card = (S.filter p).card + 1 := by
  have hins : S.filter q = insert a (S.filter p) := by
    ext x
    rw [Finset.mem_insert, Finset.mem_filter, Finset.mem_filter]
    constructor
    · rintro ⟨hxS, hqx⟩
      by_cases hxa : x = a
      · exact Or.inl hxa
      · exact Or.inr ⟨hxS, (hother x hxS hxa).2 hqx⟩
    · rintro (rfl | ⟨hxS, hpx⟩)
      · exact ⟨ha, hqa⟩
      · by_cases hxa : x = a
        · subst hxa
          exact ⟨hxS, hqa⟩
        · exact ⟨hxS, (hother x hxS hxa).1 hpx⟩
  rw [hins, Finset.card_insert_of_not_mem]
  rw [Finset.mem_filter]
  exact fun hcon => hpa hcon.2

theorem eCount_flip {w h : Nat} {g g2 : Grid} {t1 t2 : Int}
    (h0 : 0 ≤ t1) (h1 : t1 + 1 < (w : Int)) (h2 : 0 ≤ t2) (h3 : t2 < (h : Int))
    (hold : Int.land (gridGet g t1 t2) 2 ≠ 0)
    (hnew : Int.land (gridGet g2 t1 t2) 2 = 0)
    (hoth : ∀ u1 u2 : Int, 0 ≤ u1 → u1 + 1 < (w : Int) → 0 ≤ u2 →
      u2 < (h : Int) → ((u1, u2) : Cell) ≠ (t1, t2) →
      (Int.land (gridGet g2 u1 u2) 2 = 0 ↔ Int.land (gridGet g u1 u2) 2 = 0)) :
    ((Finset.range h ×ˢ Finset.range (w - 1)).filter fun p =>
      Int.land (gridGet g2 (p.2 : Int) (p.1 : Int)) 2 = 0).card
    = ((Finset.range h ×ˢ Finset.range (w - 1)).filter fun p =>
      Int.land (gridGet g (p.2 : Int) (p.1 : Int)) 2 = 0).card + 1 := by
  have hc1 : ((t1.toNat : Int)) = t1 := Int.toNat_of_nonneg h0
  have hc2 : ((t2.toNat : Int)) = t2 := Int.toNat_of_nonneg h2
  apply filter_card_flip (a := ((t2.toNat, t1.toNat) : Nat × Nat))
  · rw [Finset.mem_product, Finset.mem_range, Finset.mem_range]
    constructor <;> omega
  · show ¬ Int.land (gridGet g (t1.toNat : Int) (t2.toNat : Int)) 2 = 0
    rw [hc1, hc2]
    exact hold
  · show Int.land (gridGet g2 (t1.toNat : Int) (t2.toNat : Int)) 2 = 0
    rw [hc1, hc2]
    exact hnew
  · intro x hx hxa
    rw [Finset.mem_product, Finset.mem_range, Finset.mem_range] at hx
    have hne : (((x.2 : Int), (x.1 : Int)) : Cell) ≠ (t1, t2) := by
      intro hcon
      rw [Prod.mk.injEq] at hcon
      apply hxa
      rw [Prod.ext_iff]
      constructor <;> omega
    exact (hoth (x.2 : Int) (x.1 : Int) (by positivity)
      (by push_cast; omega) (by positivity) (by push_cast; omega) hne).symm

theorem sCount_flip {w h : Nat} {g g2 : Grid} {t1 t2 : Int}
    (h0 : 0 ≤ t1) (h1 : t1 < (w : Int)) (h2 : 0 ≤ t2) (h3 : t2 + 1 < (h : Int))
    (hold : Int.land (gridGet g t1 t2) 4 ≠ 0)
    (hnew : Int.land (gridGet g2 t1 t2) 4 = 0)
    (hoth : ∀ u1 u2 : Int, 0 ≤ u1 → u1 < (w : Int) → 0 ≤ u2 →
      u2 + 1 < (h : Int) → ((u1, u2) : Cell) ≠ (t1, t2) →
      (Int.land (gridGet g2 u1 u2) 4 = 0 ↔ Int.land (gridGet g u1 u2) 4 = 0)) :
    ((Finset.range (h - 1) ×ˢ Finset.range w).filter fun p =>
      Int.land (gridGet g2 (p.2 : Int) (p.1 : Int)) 4 = 0).card
    = ((Finset.range (h - 1) ×ˢ Finset.range w).filter fun p =>
      Int.land (gridGet g (p.2 : Int) (p.1 : Int)) 4 = 0).card + 1 := by
  have hc1 : ((t1.toNat : Int)) = t1 := Int.toNat_of_nonneg h0
  have hc2 : ((t2.toNat : Int)) = t2 := Int.toNat_of_nonneg h2
  apply filter_card_flip (a := ((t2.toNat, t1.toNat) : Nat × Nat))
  · rw [Finset.mem_product, Finset.mem_range, Finset.mem_range]
    constructor <;> omega
  · show ¬ Int.land (gridGet g (t1.toNat : Int) (t2.toNat : Int)) 4 = 0
    rw [hc1, hc2]
    exact hold
  · show Int.land (gridGet g2 (t1.toNat : Int) (t2.toNat : Int)) 4 = 0
    rw [hc1, hc2]
    exact hnew
  · intro x hx hxa
    rw [Finset.mem_product, Finset.mem_range, Finset.mem_range] at hx
    have hne : (((x.2 : Int), (x.1 : Int)) : Cell) ≠ (t1, t2) := by
      intro hcon
      rw [Prod.mk.injEq] at hcon
      apply hxa
      rw [Prod.ext_iff]
      constructor <;> omega
    exact (hoth (x.2 : Int) (x.1 : Int) (by positivity)
      (by push_cast; omega) (by positivity) (by push_cast; omega) hne).symm

theorem eCount_congr {w h : Nat} {g g2 : Grid}
    (hoth : ∀ u1 u2 : Int, 0 ≤ u1 → u1 + 1 < (w : Int) → 0 ≤ u2 →
      u2 < (h : Int) →
      (Int.land (gridGet g2 u1 u2) 2 = 0 ↔ Int.land (gridGet g u1 u2) 2 = 0)) :
    ((Finset.range h ×ˢ Finset.range (w - 1)).filter fun p =>
      Int.land (gridGet g2 (p.2 : Int) (p.1 : Int)) 2 = 0).card
    = ((Finset.range h ×ˢ Finset.range (w - 1)).filter fun p =>
      Int.land (gridGet g (p.2 : Int) (p.1 : Int)) 2 = 0).card := by
  congr 1
  apply Finset.filter_congr
  intro x hx
  rw [Finset.mem_product, Finset.mem_range, Finset.mem_range] at hx
  exact hoth (x.2 : Int) (x.1 : Int) (by positivity) (by push_cast; omega)
    (by positivity) (by push_cast; omega)

theorem sCount_congr {w h : Nat} {g g2 : Grid}
    (hoth : ∀ u1 u2 : Int, 0 ≤ u1 → u1 < (w : Int) → 0 ≤ u2 →
      u2 + 1 < (h : Int) →
      (Int.land (gridGet g2 u1 u2) 4 = 0 ↔ Int.land (gridGet g u1 u2) 4 = 0)) :
    ((Finset.range (h - 1) ×ˢ Finset.range w).filter fun p =>
      Int.land (gridGet g2 (p.2 : Int) (p.1 : Int)) 4 = 0).card
    = ((Finset.range (h - 1) ×ˢ Finset.range w).filter fun p =>
      Int.land (gridGet g (p.2 : Int) (p.1 : Int)) 4 = 0).card := by
  congr 1
  apply Finset.filter_congr
  intro x hx
  rw [Finset.mem_product, Finset.mem_range, Finset.mem_range] at hx
  exact hoth (x.2 : Int) (x.1 : Int) (by positivity) (by push_cast; omega)
    (by positivity) (by push_cast; omega)

/-- Carving one edge of the four directions raises the open-edge count by
exactly one, provided the neighbour cell was fresh (mask 15). -/
theorem carve_count {w h : Nat} {g : Grid} (hg : GridShape w h g)
    {c1 c2 n1 n2 bit : Int}
    (hd4 : (n1 = c1 ∧ n2 = c2 - 1 ∧ bit = 1) ∨ (n1 = c1 + 1 ∧ n2 = c2 ∧ bit = 2) ∨
      (n1 = c1 ∧ n2 = c2 + 1 ∧ bit = 4) ∨ (n1 = c1 - 1 ∧ n2 = c2 ∧ bit = 8))
    (hcb : inBounds w h (c1, c2) = true) (hnb : inBounds w h (n1, n2) = true)
    (hmc0 : 0 ≤ gridGet g c1 c2) (hmc15 : gridGet g c1 c2 ≤ 15)
    (hmn : gridGet g n1 n2 = 15)
    (hset : Int.land (gridGet g c1 c2) bit ≠ 0) :
    carvedEdgeCount w h (carveGrid g c1 c2 n1 n2 bit) =
      carvedEdgeCount w h g + 1 := by
  have hcxy := inBounds_xy.mp hcb
  have hnxy := inBounds_xy.mp hnb
  have hnc : ((n1, n2) : Cell) ≠ (c1, c2) := by
    intro hcon
    rw [Prod.mk.injEq] at hcon
    rcases hd4 with ⟨e1, e2, e3⟩ | ⟨e1, e2, e3⟩ | ⟨e1, e2, e3⟩ | ⟨e1, e2, e3⟩ <;>
      omega
  have hbit : ValidBit bit := by
    rcases hd4 with ⟨e1, e2, e3⟩ | ⟨e1, e2, e3⟩ | ⟨e1, e2, e3⟩ | ⟨e1, e2, e3⟩ <;>
      rw [e3]
    · exact validBit_one
    · exact validBit_two
    · exact validBit_four
    · exact validBit_eight
  have hmn0 : 0 ≤ gridGet g n1 n2 := by rw [hmn]; decide
  have hmn15 : gridGet g n1 n2 ≤ 15 := le_of_eq hmn
  have hsetn : Int.land (gridGet g n1 n2) (opposite bit) ≠ 0 := by
    rw [hmn]
    exact land_fifteen (validBit_opposite hbit)
  have hflip2 : ∀ px py : Int, inBounds w h (px, py) = true →
      ∀ b' : Int, ValidBit b' →
      (Int.land (gridGet (carveGrid g c1 c2 n1 n2 bit) px py) b' = 0 ↔
        (Int.land (gridGet g px py) b' = 0 ∨
          (((px, py) : Cell) = (c1, c2) ∧ b' = bit) ∨
          (((px, py) : Cell) = (n1, n2) ∧ b' = opposite bit))) :=
    carve_flip hg hcb hnb hnc hmc0 hmc15 hmn0 hmn15 hbit hset hsetn
  rcases hd4 with ⟨e1, e2, e3⟩ | ⟨e1, e2, e3⟩ | ⟨e1, e2, e3⟩ | ⟨e1, e2, e3⟩ <;>
    subst e3
  · -- N: bit = 1, opposite = 4; the south flag of the neighbour flips.
    have hA : (0 : Int) ≤ n1 := by omega
    have hB : n1 < (w : Int) := by omega
    have hC : (0 : Int) ≤ n2 := by omega
    have hD : n2 + 1 < (h : Int) := by omega
    have hold : Int.land (gridGet g n1 n2) 4 ≠ 0 := by rw [hmn]; decide
    have hnew : Int.land (gridGet (carveGrid g c1 c2 n1 n2 1) n1 n2) 4 = 0 :=
      (hflip2 n1 n2 hnb 4 validBit_four).mpr (Or.inr (Or.inr ⟨rfl, by decide⟩))
    have hoth : ∀ u1 u2 : Int, 0 ≤ u1 → u1 < (w : Int) → 0 ≤ u2 →
        u2 + 1 < (h : Int) → ((u1, u2) : Cell) ≠ (n1, n2) →
        (Int.land (gridGet (carveGrid g c1 c2 n1 n2 1) u1 u2) 4 = 0 ↔
          Int.land (gridGet g u1 u2) 4 = 0) := by
      intro u1 u2 hu0 hu1 hu2 hu3 hne
      have hub : inBounds w h (u1, u2) = true :=
        inBounds_xy.mpr ⟨hu0, hu1, hu2, by omega⟩
      rw [hflip2 u1 u2 hub 4 validBit_four]
      constructor
      · rintro (hq | ⟨hq, hb⟩ | ⟨hq, hb⟩)
        · exact hq
        · exact absurd hb (by decide)
        · exact absurd hq hne
      · exact Or.inl
    have hoth2 : ∀ u1 u2 : Int, 0 ≤ u1 → u1 + 1 < (w : Int) → 0 ≤ u2 →
        u2 < (h : Int) →
        (Int.land (gridGet (carveGrid g c1 c2 n1 n2 1) u1 u2) 2 = 0 ↔
          Int.land (gridGet g u1 u2) 2 = 0) := by
      intro u1 u2 hu0 hu1 hu2 hu3
      have hub : inBounds w h (u1, u2) = true :=
        inBounds_xy.mpr ⟨hu0, by omega, hu2, hu3⟩
      rw [hflip2 u1 u2 hub 2 validBit_two]
      constructor
      · rintro (hq | ⟨hq, hb⟩ | ⟨hq, hb⟩)
        · exact hq
        · exact absurd hb (by decide)
        · exact absurd hb (by decide)
      · exact Or.inl
    unfold carvedEdgeCount
    rw [sCount_flip hA hB hC hD hold hnew hoth, eCount_congr hoth2]
    omega
  · -- E: bit = 2; the east flag of the current cell flips.
    have hA : (0 : Int) ≤ c1 := by omega
    have hB : c1 + 1 < (w : Int) := by omega
    have hC : (0 : Int) ≤ c2 := by omega
    have hD : c2 < (h : Int) := by omega
    have hnew : Int.land (gridGet (carveGrid g c1 c2 n1 n2 2) c1 c2) 2 = 0 :=
      (hflip2 c1 c2 hcb 2 validBit_two).mpr (Or.inr (Or.inl ⟨rfl, rfl⟩))
    have hoth : ∀ u1 u2 : Int, 0 ≤ u1 → u1 + 1 < (w : Int) → 0 ≤ u2 →
        u2 < (h : Int) → ((u1, u2) : Cell) ≠ (c1, c2) →
        (Int.land (gridGet (carveGrid g c1 c2 n1 n2 2) u1 u2) 2 = 0 ↔
          Int.land (gridGet g u1 u2) 2 = 0) := by
      intro u1 u2 hu0 hu1 hu2 hu3 hne
      have hub : inBounds w h (u1, u2) = true :=
        inBounds_xy.mpr ⟨hu0, by omega, hu2, hu3⟩
      rw [hflip2 u1 u2 hub 2 validBit_two]
      constructor
      · rintro (hq | ⟨hq, hb⟩ | ⟨hq, hb⟩)
        · exact hq
        · exact absurd hq hne
        · exact absurd hb (by decide)
      · exact Or.inl
    have hoth2 : ∀ u1 u2 : Int, 0 ≤ u1 → u1 < (w : Int) → 0 ≤ u2 →
        u2 + 1 < (h : Int) →
        (Int.land (gridGet (carveGrid g c1 c2 n1 n2 2) u1 u2) 4 = 0 ↔
          Int.land (gridGet g u1 u2) 4 = 0) := by
      intro u1 u2 hu0 hu1 hu2 hu3
      have hub : inBounds w h (u1, u2) = true :=
        inBounds_xy.mpr ⟨hu0, hu1, hu2, by omega⟩
      rw [hflip2 u1 u2 hub 4 validBit_four]
      constructor
      · rintro (hq | ⟨hq, hb⟩ | ⟨hq, hb⟩)
        · exact hq
        · exact absurd hb (by decide)
        · exact absurd hb (by decide)
      · exact Or.inl
    unfold carvedEdgeCount
    rw [eCount_flip hA hB hC hD hset hnew hoth, sCount_congr hoth2]
    omega
  · -- S: bit = 4; the south flag of the current cell flips.
    have hA : (0 : Int) ≤ c1 := by omega
    have hB : c1 < (w : Int) := by omega
    have hC : (0 : Int) ≤ c2 := by omega
    have hD : c2 + 1 < (h : Int) := by omega
    have hnew : Int.land (gridGet (carveGrid g c1 c2 n1 n2 4) c1 c2) 4 = 0 :=
      (hflip2 c1 c2 hcb 4 validBit_four).mpr (Or.inr (Or.inl ⟨rfl, rfl⟩))
    have hoth : ∀ u1 u2 : Int, 0 ≤ u1 → u1 < (w : Int) → 0 ≤ u2 →
        u2 + 1 < (h : Int) → ((u1, u2) : Cell) ≠ (c1, c2) →
        (Int.land (gridGet (carveGrid g c1 c2 n1 n2 4) u1 u2) 4 = 0 ↔
          Int.land (gridGet g u1 u2) 4 = 0) := by
      intro u1 u2 hu0 hu1 hu2 hu3 hne
      have hub : inBounds w h (u1, u2) = true :=
        inBounds_xy.mpr ⟨hu0, hu1, hu2, by omega⟩
      rw [hflip2 u1 u2 hub 4 validBit_four]
      constructor
      · rintro (hq | ⟨hq, hb⟩ | ⟨hq, hb⟩)
        · exact hq
        · exact absurd hq hne
        · exact absurd hb (by decide)
      · exact Or.inl
    have hoth2 : ∀ u1 u2 : Int, 0 ≤ u1 → u1 + 1 < (w : Int) → 0 ≤ u2 →
        u2 < (h : Int) →
        (Int.land (gridGet (carveGrid g c1 c2 n1 n2 4) u1 u2) 2 = 0 ↔
          Int.land (gridGet g u1 u2) 2 = 0) := by
      intro u1 u2 hu0 hu1 hu2 hu3
      have hub : inBounds w h (u1, u2) = true :=
        inBounds_xy.mpr ⟨hu0, by omega, hu2, hu3⟩
      rw [hflip2 u1 u2 hub 2 validBit_two]
      constructor
      · rintro (hq | ⟨hq, hb⟩ | ⟨hq, hb⟩)
        · exact hq
        · exact absurd hb (by decide)
        · exact absurd hb (by decide)
      · exact Or.inl
    unfold carvedEdgeCount
    rw [sCount_flip hA hB hC hD hset hnew hoth, eCount_congr hoth2]
    omega
  · -- W: bit = 8, opposite = 2; the east flag of the neighbour flips.
    have hA : (0 : Int) ≤ n1 := by omega
    have hB : n1 + 1 < (w : Int) := by omega
    have hC : (0 : Int) ≤ n2 := by omega
    have hD : n2 < (h : Int) := by omega
    have hold : Int.land (gridGet g n1 n2) 2 ≠ 0 := by rw [hmn]; decide
    have hnew : Int.land (gridGet (carveGrid g c1 c2 n1 n2 8) n1 n2) 2 = 0 :=
      (hflip2 n1 n2 hnb 2 validBit_two).mpr (Or.inr (Or.inr ⟨rfl, by decide⟩))
    have hoth : ∀ u1 u2 : Int, 0 ≤ u1 → u1 + 1 < (w : Int) → 0 ≤ u2 →
        u2 < (h : Int) → ((u1, u2) : Cell) ≠ (n1, n2) →
        (Int.land (gridGet (carveGrid g c1 c2 n1 n2 8) u1 u2) 2 = 0 ↔
          Int.land (gridGet g u1 u2) 2 = 0) := by
      intro u1 u2 hu0 hu1 hu2 hu3 hne
      have hub : inBounds w h (u1, u2) = true :=
        inBounds_xy.mpr ⟨hu0, by omega, hu2, hu3⟩
      rw [hflip2 u1 u2 hub 2 validBit_two]
      constructor
      · rintro (hq | ⟨hq, hb⟩ | ⟨hq, hb⟩)
        · exact hq
        · exact absurd hb (by decide)
        · exact absurd hq hne
      · exact Or.inl
    have hoth2 : ∀ u1 u2 : Int, 0 ≤ u1 → u1 < (w : Int) → 0 ≤ u2 →
        u2 + 1 < (h : Int) →
        (Int.land (gridGet (carveGrid g c1 c2 n1 n2 8) u1 u2) 4 = 0 ↔
          Int.land (gridGet g u1 u2) 4 = 0) := by
      intro u1 u2 hu0 hu1 hu2 hu3
      have hub : inBounds w h (u1, u2) = true :=
        inBounds_xy.mpr ⟨hu0, hu1, hu2, by omega⟩
      rw [hflip2 u1 u2 hub 4 validBit_four]
      constructor
      · rintro (hq | ⟨hq, hb⟩ | ⟨hq, hb⟩)
        · exact hq
        · exact absurd hb (by decide)
        · exact absurd hb (by decide)
      · exact Or.inl
    unfold carvedEdgeCount
    rw [eCount_flip hA hB hC hD hold hnew hoth, sCount_congr hoth2]
    omega

/-- An empty neighbour list stays empty when the visited list grows. -/
theorem genNeighbors_nil_mono {w h : Nat} {vis more : List Cell} {c : Cell}
    (hnil : genNeighbors w h vis c = []) :
    genNeighbors w h (vis ++ more) c = [] := by
  unfold genNeighbors at hnil ⊢
  rw [List.filterMap_eq_nil_iff] at hnil ⊢
  intro d hd
  have hd' := hnil d hd
  simp only at hd' ⊢
  by_cases hp : inBounds w h (c.1 + d.2.1, c.2 + d.2.2.1) ∧
      ((c.1 + d.2.1, c.2 + d.2.2.1) : Cell) ∉ vis ++ more
  · rw [if_pos ⟨hp.1, fun hv => hp.2 (List.mem_append_left _ hv)⟩] at hd'
    exact absurd hd' (by simp)
  · rw [if_neg hp]

/-- If the neighbour list at `c` is empty, every in-bounds grid neighbour
of `c` is visited. -/
theorem genNeighbors_closed {w h : Nat} {vis : List Cell} {c : Cell}
    (hnil : genNeighbors w h vis c = []) :
    ∀ dx dy : Int,
      ((dx = 0 ∧ dy = -1) ∨ (dx = 1 ∧ dy = 0) ∨ (dx = 0 ∧ dy = 1) ∨
        (dx = -1 ∧ dy = 0)) →
      inBounds w h (c.1 + dx, c.2 + dy) = true →
      ((c.1 + dx, c.2 + dy) : Cell) ∈ vis := by
  unfold genNeighbors at hnil
  rw [List.filterMap_eq_nil_iff] at hnil
  intro dx dy hd hb
  by_contra hnv
  rcases hd with ⟨hx, hy⟩ | ⟨hx, hy⟩ | ⟨hx, hy⟩ | ⟨hx, hy⟩ <;> subst hx <;> subst hy
  · have := hnil ('N', 0, -1, 1) (by simp [directions])
    rw [if_pos ⟨hb, hnv⟩] at this
    exact absurd this (by simp)
  · have := hnil ('E', 1, 0, 2) (by simp [directions])
    rw [if_pos ⟨hb, hnv⟩] at this
    exact absurd this (by simp)
  · have := hnil ('S', 0, 1, 4) (by simp [directions])
    rw [if_pos ⟨hb, hnv⟩] at this
    exact absurd this (by simp)
  · have := hnil ('W', -1, 0, 8) (by simp [directions])
    rw [if_pos ⟨hb, hnv⟩] at this
    exact absurd this (by simp)

theorem treeInv_init {w h : Nat} (hw : 1 ≤ w) (hh : 1 ≤ h) :
    TreeInv w h (List.replicate h (List.replicate w (15 : Int)))
      [((0 : Int), (0 : Int))] [((0 : Int), (0 : Int))] := by
  refine ⟨?_, by simp, ?_, by simp, ?_, ?_, ?_, ?_⟩
  · have := genInv_init w h []
    simpa using this
  · intro c hc
    simp only [List.mem_singleton] at hc
    subst hc
    rw [inBounds_xy]
    refine ⟨le_refl _, ?_, le_refl _, ?_⟩ <;> exact_mod_cast by omega
  · intro c hc
    simp only [List.mem_singleton] at hc
    subst hc
    exact SimpleGraph.Reachable.refl _
  · rw [carvedEdgeCount_init]
    rfl
  · intro c hc hcs
    simp only [List.mem_singleton] at hc
    subst hc
    exact absurd (List.mem_singleton_self _) hcs
  · intro v p hp
    cases p with
    | nil => exact hp.ne_nil rfl
    | cons hadj q => exact mazeGraph_init_no_adj w h hadj

/-- One `generate` iteration preserves the tree invariant (empty pattern).
A pop changes nothing; a carve adds one fresh leaf cell and one edge. -/
theorem treeInv_iter {w h : Nat} {g : Grid} {vis : List Cell} {c1 c2 : Int}
    {rest : List Cell} (r : Nat)
    (tinv : TreeInv w h g vis (((c1, c2) : Cell) :: rest)) :
    TreeInv w h (genIter w h r (c1, c2) rest g vis).grid
      (genIter w h r (c1, c2) rest g vis).visited
      (genIter w h r (c1, c2) rest g vis).stack := by
  have inv := tinv.base
  by_cases hns : genNeighbors w h vis (c1, c2) = []
  · unfold genIter
    rw [if_pos hns]
    refine ⟨?_, tinv.nodup, tinv.vis_inb, tinv.origin, tinv.reach, tinv.count,
      ?_, tinv.acyclic⟩
    · exact ⟨inv.shape, inv.range, inv.sym, inv.fresh,
        fun x hx => inv.stack_vis x (List.mem_cons_of_mem _ hx),
        fun x hx => inv.stack_ok x (List.mem_cons_of_mem _ hx),
        inv.pat_vis,
        fun x hx => inv.stack_pat x (List.mem_cons_of_mem _ hx),
        inv.pat_mask⟩
    · intro x hx hxs
      by_cases hxc : x = ((c1, c2) : Cell)
      · subst hxc
        exact hns
      · refine tinv.closed x hx ?_
        intro hmem
        rcases List.mem_cons.1 hmem with hq | hq
        · exact hxc hq
        · exact hxs hq
  · obtain ⟨dx, dy, bit, hd4, hbnd, hnvis, heq⟩ :=
      @genIter_spec w h r c1 c2 rest g vis hns
    have hbase := genInv_iter r inv
    rw [heq] at hbase
    dsimp only at hbase
    rw [heq]
    dsimp only
    show TreeInv w h (carveGrid g c1 c2 (c1 + dx) (c2 + dy) bit)
      (vis ++ [((c1 + dx, c2 + dy) : Cell)])
      (((c1 + dx, c2 + dy) : Cell) :: ((c1, c2) : Cell) :: rest)
    have hcvis : ((c1, c2) : Cell) ∈ vis :=
      inv.stack_vis (c1, c2) (List.mem_cons_self _ rest)
    have hbit : ValidBit bit := by
      rcases hd4 with ⟨_, _, hb⟩ | ⟨_, _, hb⟩ | ⟨_, _, hb⟩ | ⟨_, _, hb⟩ <;>
        subst hb <;> unfold ValidBit <;> tauto
    have hopp : ValidBit (opposite bit) := validBit_opposite hbit
    obtain ⟨hnx0, hnxw, hny0, hnyh⟩ := inBounds_xy.1 hbnd
    have hcb : inBounds w h ((c1, c2) : Cell) = true := by
      rcases inv.stack_ok (c1, c2) (List.mem_cons_self _ rest) with hc0 | hc0
      · rw [Prod.mk.injEq] at hc0
        rw [inBounds_xy]
        rcases hd4 with ⟨hx, hy, _⟩ | ⟨hx, hy, _⟩ | ⟨hx, hy, _⟩ | ⟨hx, hy, _⟩ <;>
          subst hx <;> subst hy <;> omega
      · exact hc0
    have hnc : ((c1 + dx, c2 + dy) : Cell) ≠ (c1, c2) := by
      intro hcc
      rw [Prod.mk.injEq] at hcc
      rcases hd4 with ⟨hx, hy, _⟩ | ⟨hx, hy, _⟩ | ⟨hx, hy, _⟩ | ⟨hx, hy, _⟩ <;>
        subst hx <;> subst hy <;> omega
    have hmc : 0 ≤ gridGet g c1 c2 ∧ gridGet g c1 c2 ≤ 15 :=
      inv.range c1 c2 hcb
    obtain ⟨hcx0, hcxw, hcy0, hcyh⟩ := inBounds_xy.1 hcb
    have hmn : gridGet g (c1 + dx) (c2 + dy) = 15 :=
      inv.fresh (c1 + dx, c2 + dy) hbnd hnvis
    have hset : Int.land (gridGet g c1 c2) bit ≠ 0 := by
      rcases hd4 with ⟨hx, hy, hb⟩ | ⟨hx, hy, hb⟩ | ⟨hx, hy, hb⟩ | ⟨hx, hy, hb⟩ <;>
        subst hx <;> subst hy <;> subst hb <;>
        rw [add_zero] at hmn <;> intro hz
      · have hs := inv.sym.2 c1 (c2 + -1) (by rwa [add_zero] at hbnd)
          (by rw [inBounds_xy]; omega)
        rw [show c2 + -1 + 1 = c2 from by ring, hmn] at hs
        exact (by decide : Int.land 15 4 ≠ 0) (hs.2 hz)
      · have hs := inv.sym.1 c1 c2 hcb (by rwa [add_zero] at hbnd)
        rw [hmn] at hs
        exact (by decide : Int.land 15 8 ≠ 0) (hs.1 hz)
      · have hs := inv.sym.2 c1 c2 hcb (by rwa [add_zero] at hbnd)
        rw [hmn] at hs
        exact (by decide : Int.land 15 1 ≠ 0) (hs.1 hz)
      · have hs := inv.sym.1 (c1 + -1) c2 (by rwa [add_zero] at hbnd)
          (by rw [inBounds_xy]; omega)
        rw [show c1 + -1 + 1 = c1 from by ring, hmn] at hs
        exact (by decide : Int.land 15 2 ≠ 0) (hs.2 hz)
    have hsetn : Int.land (gridGet g (c1 + dx) (c2 + dy)) (opposite bit) ≠ 0 := by
      rw [hmn]
      exact land_fifteen hopp
    have hmn0 : (0 : Int) ≤ gridGet g (c1 + dx) (c2 + dy) := by rw [hmn]; decide
    have hmn15 : gridGet g (c1 + dx) (c2 + dy) ≤ 15 := le_of_eq hmn
    have hmono := carve_mono inv.shape hcb hbnd hnc hmc.1 hmc.2 hmn0 hmn15
      hbit hset hsetn
    have hadj := carve_new_adj inv.shape hd4 hcb hbnd hnc hmc.1 hmc.2 hmn0
      hmn15 hbit hset hsetn
    have huniq := carve_fresh_unique inv.shape hd4 hcb hbnd hnc hmn
    have holdadj := carve_old_adj inv.shape hd4 hcb hbnd hnc hmc.1 hmc.2 hmn0
      hmn15 hset hsetn
    refine ⟨hbase, ?_, ?_, ?_, ?_, ?_, ?_, ?_⟩
    · rw [List.nodup_append]
      refine ⟨tinv.nodup, List.nodup_singleton _, ?_⟩
      intro a ha hb
      rw [List.mem_singleton] at hb
      subst hb
      exact hnvis ha
    · intro x hx
      rcases List.mem_append.1 hx with hq | hq
      · exact tinv.vis_inb x hq
      · rw [List.mem_singleton] at hq
        subst hq
        exact hbnd
    · exact List.mem_append_left _ tinv.origin
    · intro x hx
      rcases List.mem_append.1 hx with hq | hq
      · exact (tinv.reach x hq).mono hmono
      · rw [List.mem_singleton] at hq
        subst hq
        exact ((tinv.reach _ hcvis).mono hmono).trans
          ⟨SimpleGraph.Walk.cons hadj SimpleGraph.Walk.nil⟩
    · have hd4n : (c1 + dx = c1 ∧ c2 + dy = c2 - 1 ∧ bit = 1) ∨
          (c1 + dx = c1 + 1 ∧ c2 + dy = c2 ∧ bit = 2) ∨
          (c1 + dx = c1 ∧ c2 + dy = c2 + 1 ∧ bit = 4) ∨
          (c1 + dx = c1 - 1 ∧ c2 + dy = c2 ∧ bit = 8) := by
        rcases hd4 with ⟨hx, hy, hb⟩ | ⟨hx, hy, hb⟩ | ⟨hx, hy, hb⟩ | ⟨hx, hy, hb⟩
        · exact Or.inl ⟨by omega, by omega, hb⟩
        · exact Or.inr (Or.inl ⟨by omega, by omega, hb⟩)
        · exact Or.inr (Or.inr (Or.inl ⟨by omega, by omega, hb⟩))
        · exact Or.inr (Or.inr (Or.inr ⟨by omega, by omega, hb⟩))
      have hcc := carve_count inv.shape hd4n hcb hbnd hmc.1 hmc.2 hmn hset
      rw [hcc, List.length_append]
      have := tinv.count
      simp only [List.length_singleton]
      omega
    · intro x hx hxs
      rcases List.mem_append.1 hx with hxv | hxn
      · have hx2 : x ∉ ((c1, c2) : Cell) :: rest := by
          intro hmem
          exact hxs (List.mem_cons_of_mem _ hmem)
        exact genNeighbors_nil_mono (tinv.closed x hxv hx2)
      · rw [List.mem_singleton] at hxn
        subst hxn
        exact absurd (List.mem_cons_self _ _) hxs
    · intro v p hp
      by_cases hn : ((c1 + dx, c2 + dy) : Cell) ∈ p.support
      · have hq := hp.rotate hn
        cases hrot : p.rotate hn with
        | nil => exact SimpleGraph.Walk.IsCycle.not_of_nil (hrot ▸ hq)
        | cons hadj1 q' =>
          rw [hrot] at hq
          have hb1 := huniq _ hadj1
          subst hb1
          obtain ⟨y2, hadj2, rwalk, hqr⟩ :=
            SimpleGraph.Walk.exists_eq_cons_of_ne hnc q'.reverse
          have hy2 := huniq y2 hadj2
          subst hy2
          have hmem : s(((c1 + dx, c2 + dy) : Cell), ((c1, c2) : Cell))
              ∈ q'.edges := by
            have h1 : s(((c1 + dx, c2 + dy) : Cell), ((c1, c2) : Cell))
                ∈ q'.reverse.edges := by
              rw [hqr, SimpleGraph.Walk.edges_cons]
              exact List.mem_cons_self _ _
            rw [SimpleGraph.Walk.edges_reverse, List.mem_reverse] at h1
            exact h1
          have hnodup := hq.isCircuit.isTrail.edges_nodup
          rw [SimpleGraph.Walk.edges_cons, List.nodup_cons] at hnodup
          exact hnodup.1 hmem
      · have hsub : ∀ e ∈ p.edges, e ∈ (mazeGraph w h g).edgeSet := by
          intro e
          induction e using Sym2.ind with
          | _ a b =>
            intro he
            rw [SimpleGraph.mem_edgeSet]
            have hadj' := p.adj_of_mem_edges he
            have ha : a ≠ ((c1 + dx, c2 + dy) : Cell) := by
              intro hh
              subst hh
              exact hn (p.fst_mem_support_of_mem_edges he)
            have hb2 : b ≠ ((c1 + dx, c2 + dy) : Cell) := by
              intro hh
              subst hh
              exact hn (p.snd_mem_support_of_mem_edges he)
            exact holdadj a b hadj' ha hb2
        exact tinv.acyclic (p.transfer _ hsub) (hp.transfer hsub)

/-- A duplicate-free list of in-bounds cells has at most `w * h` entries. -/
theorem nodup_inb_length_le {w h : Nat} {vis : List Cell} (hnd : vis.Nodup)
    (hinb : ∀ c ∈ vis, inBounds w h c = true) : vis.length ≤ w * h := by
  have hinj : ∀ x ∈ vis, ∀ y ∈ vis,
      (fun c : Cell => (c.1.toNat, c.2.toNat)) x
        = (fun c : Cell => (c.1.toNat, c.2.toNat)) y → x = y := by
    intro x hx y hy hxy
    obtain ⟨x1, x2⟩ := x
    obtain ⟨y1, y2⟩ := y
    have hbx := inBounds_xy.1 (hinb _ hx)
    have hby := inBounds_xy.1 (hinb _ hy)
    simp only [Prod.mk.injEq] at hxy ⊢
    omega
  have hmapnd : (vis.map fun c : Cell => (c.1.toNat, c.2.toNat)).Nodup :=
    hnd.map_on hinj
  have hsub : ∀ p ∈ (vis.map fun c : Cell => (c.1.toNat, c.2.toNat)),
      p ∈ Finset.range w ×ˢ Finset.range h := by
    intro p hp
    rw [List.mem_map] at hp
    obtain ⟨c, hc, rfl⟩ := hp
    obtain ⟨cq1, cq2⟩ := c
    have hb := inBounds_xy.1 (hinb _ hc)
    rw [Finset.mem_product, Finset.mem_range, Finset.mem_range]
    constructor <;> omega
  calc vis.length
      = (vis.map fun c : Cell => (c.1.toNat, c.2.toNat)).length :=
        (List.length_map _ _).symm
    _ = (vis.map fun c : Cell => (c.1.toNat, c.2.toNat)).toFinset.card :=
        (List.toFinset_card_of_nodup hmapnd).symm
    _ ≤ (Finset.range w ×ˢ Finset.range h).card :=
        Finset.card_le_card (fun p hp => hsub p (List.mem_toFinset.1 hp))
    _ = w * h := by rw [Finset.card_product, Finset.card_range, Finset.card_range]

theorem treeInv_loop {w h : Nat} (rnd : Nat → Nat) :
    ∀ (fuel i : Nat) (s : GenState), TreeInv w h s.grid s.visited s.stack →
      TreeInv w h (genLoop w h rnd fuel i s).grid
        (genLoop w h rnd fuel i s).visited
        (genLoop w h rnd fuel i s).stack := by
  intro fuel
  induction fuel with
  | zero => intro i s hs; exact hs
  | succ n ih =>
    intro i s hs
    obtain ⟨g, vis, stk⟩ := s
    rcases stk with _ | ⟨⟨cx1, cx2⟩, rest⟩
    · exact hs
    · exact ih (i + 1) _ (treeInv_iter (rnd i) hs)

/-- With fuel exceeding the decreasing measure `2*(w*h - |visited|) +
|stack|`, the `generate` loop empties its stack. -/
theorem genLoop_stack_empty {w h : Nat} (rnd : Nat → Nat) :
    ∀ (fuel i : Nat) (s : GenState), TreeInv w h s.grid s.visited s.stack →
      2 * (w * h) + s.stack.length < fuel + 2 * s.visited.length →
      (genLoop w h rnd fuel i s).stack = [] := by
  intro fuel
  induction fuel with
  | zero =>
    intro i s hs hlt
    have hle := nodup_inb_length_le hs.nodup hs.vis_inb
    omega
  | succ n ih =>
    intro i s hs hlt
    obtain ⟨g, vis, stk⟩ := s
    rcases stk with _ | ⟨⟨cx1, cx2⟩, rest⟩
    · rfl
    · show (genLoop w h rnd n (i + 1)
        (genIter w h (rnd i) (cx1, cx2) rest g vis)).stack = []
      have hti := treeInv_iter (rnd i) hs
      by_cases hns : genNeighbors w h vis (cx1, cx2) = []
      · have hiter : genIter w h (rnd i) (cx1, cx2) rest g vis
            = ⟨g, vis, rest⟩ := by
          unfold genIter
          rw [if_pos hns]
        rw [hiter]
        rw [hiter] at hti
        apply ih (i + 1) _ hti
        simp only [List.length_cons] at hlt ⊢
        omega
      · obtain ⟨dx, dy, bit, hd4, hbnd, hnvis, heq⟩ :=
          @genIter_spec w h (rnd i) cx1 cx2 rest g vis hns
        rw [heq]
        rw [heq] at hti
        apply ih (i + 1) _ hti
        simp only [List.length_append, List.length_cons,
          List.length_singleton] at hlt ⊢
        omega

/-- If the visited set contains the origin and is closed under taking
in-bounds neighbours, it contains every in-bounds cell. -/
theorem closed_all {w h : Nat} {vis : List Cell}
    (horig : (((0 : Int), (0 : Int)) : Cell) ∈ vis)
    (hcl : ∀ c ∈ vis, genNeighbors w h vis c = []) :
    ∀ x y : Int, inBounds w h (x, y) = true → ((x, y) : Cell) ∈ vis := by
  have key : ∀ n : Nat, ∀ x y : Int, inBounds w h (x, y) = true →
      x.toNat + y.toNat ≤ n → ((x, y) : Cell) ∈ vis := by
    intro n
    induction n with
    | zero =>
      intro x y hb hle
      obtain ⟨hx0, hxw, hy0, hyh⟩ := inBounds_xy.1 hb
      have hx : x = 0 := by omega
      have hy : y = 0 := by omega
      subst hx
      subst hy
      exact horig
    | succ n ih =>
      intro x y hb hle
      obtain ⟨hx0, hxw, hy0, hyh⟩ := inBounds_xy.1 hb
      by_cases hx : x = 0
      · by_cases hy : y = 0
        · subst hx
          subst hy
          exact horig
        · have hb' : inBounds w h (x, y - 1) = true := by
            rw [inBounds_xy]
            omega
          have hmem := ih x (y - 1) hb' (by omega)
          have hstep := genNeighbors_closed (hcl _ hmem) 0 1
            (Or.inr (Or.inr (Or.inl ⟨rfl, rfl⟩)))
            (show inBounds w h (x + 0, y - 1 + 1) = true by
              rw [inBounds_xy]
              omega)
          have hxy : ((x + 0, y - 1 + 1) : Cell) = (x, y) := by
            rw [Prod.mk.injEq]
            constructor <;> ring
          exact hxy ▸ hstep
      · have hb' : inBounds w h (x - 1, y) = true := by
          rw [inBounds_xy]
          omega
        have hmem := ih (x - 1) y hb' (by omega)
        have hstep := genNeighbors_closed (hcl _ hmem) 1 0
          (Or.inr (Or.inl ⟨rfl, rfl⟩))
          (show inBounds w h (x - 1 + 1, y + 0) = true by
            rw [inBounds_xy]
            omega)
        have hxy : ((x - 1 + 1, y + 0) : Cell) = (x, y) := by
          rw [Prod.mk.injEq]
          constructor <;> ring
        exact hxy ▸ hstep
  intro x y hb
  exact key (x.toNat + y.toNat) x y hb (le_refl _)

/-- A tree invariant with an empty stack describes a spanning tree:
`w*h - 1` edges, full connectivity, acyclicity. -/
theorem treeInv_spanning {w h : Nat} {g : Grid} {vis : List Cell}
    (tinv : TreeInv w h g vis []) :
    carvedEdgeCount w h g = w * h - 1 ∧
    (∀ a b : Cell, inBounds w h a = true → inBounds w h b = true →
      (mazeGraph w h g).Reachable a b) ∧
    (mazeGraph w h g).IsAcyclic := by
  have hvis_all : ∀ x y : Int, inBounds w h (x, y) = true →
      ((x, y) : Cell) ∈ vis :=
    closed_all tinv.origin
      (fun c hc => tinv.closed c hc (List.not_mem_nil _))
  have hlen_le := nodup_inb_length_le tinv.nodup tinv.vis_inb
  have hlen_ge : w * h ≤ vis.length := by
    have hcard : (Finset.range h ×ˢ Finset.range w).card ≤ vis.toFinset.card := by
      apply Finset.card_le_card_of_injOn
        (fun p : Nat × Nat => (((p.2 : Int)), ((p.1 : Int))))
      · intro p hp
        rw [Finset.mem_product, Finset.mem_range, Finset.mem_range] at hp
        rw [List.mem_toFinset]
        apply hvis_all
        rw [inBounds_xy]
        refine ⟨by positivity, ?_, by positivity, ?_⟩ <;> push_cast <;> omega
      · intro p hp q hq hpq
        rw [Prod.mk.injEq] at hpq
        rw [Prod.ext_iff]
        omega
    have hfl := List.toFinset_card_le vis
    rw [Finset.card_product, Finset.card_range, Finset.card_range,
      Nat.mul_comm h w] at hcard
    omega
  have hlen : vis.length = w * h := le_antisymm hlen_le hlen_ge
  refine ⟨?_, ?_, tinv.acyclic⟩
  · have := tinv.count
    omega
  · intro a b ha hb
    obtain ⟨a1, a2⟩ := a
    obtain ⟨b1, b2⟩ := b
    exact ((tinv.reach _ (hvis_all a1 a2 ha)).symm).trans
      (tinv.reach _ (hvis_all b1 b2 hb))

/-- C3 (tree property): for every width and height at least 1 and every
RNG stream, `generate` in perfect mode with the empty pattern (no
`add_pattern` call) carves exactly `w*h - 1` edges, and the passage graph
is connected over all `w*h` cells and acyclic — a spanning tree. -/
theorem tree_property (w h : Nat) (rnd : Nat → Nat)
    (rndB : Nat → Nat × Nat × Nat) (hw : 1 ≤ w) (hh : 1 ≤ h) :
    carvedEdgeCount w h (generate (mazeInit w h true) rnd rndB).grid
        = w * h - 1 ∧
    (∀ a b : Cell, inBounds w h a = true → inBounds w h b = true →
      (mazeGraph w h
        (generate (mazeInit w h true) rnd rndB).grid).Reachable a b) ∧
    (mazeGraph w h (generate (mazeInit w h true) rnd rndB).grid).IsAcyclic := by
  have hgrid : (generate (mazeInit w h true) rnd rndB).grid
      = (genLoop w h rnd (2 * w * h + 2) 0
          ⟨List.replicate h (List.replicate w (15 : Int)),
            [((0 : Int), (0 : Int))], [((0 : Int), (0 : Int))]⟩).grid := rfl
  have ht0 : TreeInv w h
      (List.replicate h (List.replicate w (15 : Int)))
      [((0 : Int), (0 : Int))] [((0 : Int), (0 : Int))] := treeInv_init hw hh
  have htF := treeInv_loop rnd (2 * w * h + 2) 0
    ⟨List.replicate h (List.replicate w (15 : Int)),
      [((0 : Int), (0 : Int))], [((0 : Int), (0 : Int))]⟩ ht0
  have hstk := genLoop_stack_empty rnd (2 * w * h + 2) 0
    ⟨List.replicate h (List.replicate w (15 : Int)),
      [((0 : Int), (0 : Int))], [((0 : Int), (0 : Int))]⟩ ht0
    (by
      show 2 * (w * h) + ([((0 : Int), (0 : Int))] : List Cell).length
        < 2 * w * h + 2 + 2 * ([((0 : Int), (0 : Int))] : List Cell).length
      simp only [List.length_singleton]
      rw [Nat.mul_assoc 2 w h]
      omega)
  rw [hstk] at htF
  rw [hgrid]
  exact treeInv_spanning htF

/-- Concrete instantiation of C3 at `w = h = 2` with the constant RNG. -/
theorem tree_property_witness :
    1 ≤ 2 ∧
    (carvedEdgeCount 2 2
        (generate (mazeInit 2 2 true) (fun _ => 0) (fun _ => (0, 0, 0))).grid
      = 2 * 2 - 1 ∧
    (∀ a b : Cell, inBounds 2 2 a = true → inBounds 2 2 b = true →
      (mazeGraph 2 2 (generate (mazeInit 2 2 true) (fun _ => 0)
        (fun _ => (0, 0, 0))).grid).Reachable a b) ∧
    (mazeGraph 2 2 (generate (mazeInit 2 2 true) (fun _ => 0)
      (fun _ => (0, 0, 0))).grid).IsAcyclic) :=
  ⟨by decide,
    tree_property 2 2 (fun _ => 0) (fun _ => (0, 0, 0)) (by decide) (by decide)⟩

theorem walkOk_nil {w h : Nat} {g : Grid} {a b : Cell} :
    walkOk w h g a [] b = true ↔ a = b := by
  simp [walkOk]

theorem walkOk_cons {w h : Nat} {g : Grid} {a b : Cell} {ch : Char}
    {r : List Char} :
    walkOk w h g a (ch :: r) b = true ↔
      isDir ch = true ∧ inBounds w h (stepCell a ch) = true ∧
      Int.land (gridGet g a.1 a.2) (dirTriple ch).2.2 = 0 ∧
      walkOk w h g (stepCell a ch) r b = true := by
  show (isDir ch && inBounds w h (stepCell a ch) && _ && _) = true ↔ _
  rw [Bool.and_eq_true, Bool.and_eq_true, Bool.and_eq_true]
  rw [decide_eq_true_iff]
  tauto

theorem walkEnd_append (a : Cell) (u v : List Char) :
    walkEnd a (u ++ v) = walkEnd (walkEnd a u) v := by
  induction u generalizing a with
  | nil => rfl
  | cons ch r ih =>
    show walkEnd (stepCell a ch) (r ++ v) = _
    rw [ih]
    rfl

theorem walkOk_append {w h : Nat} {g : Grid} {a b : Cell} (u v : List Char) :
    walkOk w h g a (u ++ v) b = true ↔
      walkOk w h g a u (walkEnd a u) = true ∧
      walkOk w h g (walkEnd a u) v b = true := by
  induction u generalizing a with
  | nil =>
    show walkOk w h g a v b = true ↔ walkOk w h g a [] a = true ∧ _
    rw [walkOk_nil]
    tauto
  | cons ch r ih =>
    show walkOk w h g a (ch :: (r ++ v)) b = true ↔
      walkOk w h g a (ch :: r) (walkEnd a (ch :: r)) = true ∧ _
    rw [walkOk_cons, walkOk_cons]
    have hend : walkEnd a (ch :: r) = walkEnd (stepCell a ch) r := rfl
    rw [hend, ih]
    tauto

theorem walkOk_end {w h : Nat} {g : Grid} {a b : Cell} {r : List Char}
    (hr : walkOk w h g a r b = true) : walkEnd a r = b := by
  induction r generalizing a with
  | nil => exact walkOk_nil.1 hr
  | cons ch t ih =>
    rw [walkOk_cons] at hr
    exact ih hr.2.2.2

theorem lexLe_nil (p : List Char) : lexLe [] p = true := rfl

theorem lexLe_refl (p : List Char) : lexLe p p = true := by
  induction p with
  | nil => rfl
  | cons a as ih =>
    show (decide (dirRank a < dirRank a) || (decide (a = a) && lexLe as as))
      = true
    rw [ih]
    simp

theorem lexLe_cons_iff {a b : Char} {as bs : List Char} :
    lexLe (a :: as) (b :: bs) = true ↔
      dirRank a < dirRank b ∨ (a = b ∧ lexLe as bs = true) := by
  show (decide (dirRank a < dirRank b) || (decide (a = b) && lexLe as bs))
    = true ↔ _
  rw [Bool.or_eq_true, Bool.and_eq_true, decide_eq_true_iff, decide_eq_true_iff]

theorem lexLe_trans {a b c : List Char} (h1 : lexLe a b = true)
    (h2 : lexLe b c = true) : lexLe a c = true := by
  induction a generalizing b c with
  | nil => exact lexLe_nil c
  | cons x xs ih =>
    cases b with
    | nil => exact absurd h1 (by simp [lexLe])
    | cons y ys =>
      cases c with
      | nil => exact absurd h2 (by simp [lexLe])
      | cons z zs =>
        rw [lexLe_cons_iff] at h1 h2 ⊢
        rcases h1 with hlt1 | ⟨heq1, hle1⟩
        · rcases h2 with hlt2 | ⟨heq2, hle2⟩
          · exact Or.inl (hlt1.trans hlt2)
          · subst heq2
            exact Or.inl hlt1
        · subst heq1
          rcases h2 with hlt2 | ⟨heq2, hle2⟩
          · exact Or.inl hlt2
          · subst heq2
            exact Or.inr ⟨rfl, ih hle1 hle2⟩

theorem lexLe_append_same {u v : List Char} (p : List Char)
    (h : lexLe u v = true) : lexLe (p ++ u) (p ++ v) = true := by
  induction p with
  | nil => exact h
  | cons a as ih =>
    show lexLe (a :: (as ++ u)) (a :: (as ++ v)) = true
    rw [lexLe_cons_iff]
    exact Or.inr ⟨rfl, ih⟩

theorem lex_lt_append {a b : List Char} (hlen : a.length = b.length)
    (hle : lexLe a b = true) (hne : a ≠ b) (u v : List Char) :
    lexLe (a ++ u) (b ++ v) = true ∧ a ++ u ≠ b ++ v := by
  induction a generalizing b with
  | nil =>
    cases b with
    | nil => exact absurd rfl hne
    | cons y ys => exact absurd hlen (by simp)
  | cons x xs ih =>
    cases b with
    | nil => exact absurd hlen (by simp)
    | cons y ys =>
      rw [lexLe_cons_iff] at hle
      rcases hle with hlt | ⟨heq, hle'⟩
      · constructor
        · show lexLe (x :: (xs ++ u)) (y :: (ys ++ v)) = true
          rw [lexLe_cons_iff]
          exact Or.inl hlt
        · intro hcon
          rw [List.cons_append, List.cons_append, List.cons.injEq] at hcon
          rw [hcon.1] at hlt
          omega
      · subst heq
        have hne' : xs ≠ ys := by
          intro hcon
          exact hne (by rw [hcon])
        have hlen' : xs.length = ys.length := by
          simpa using hlen
        obtain ⟨h1, h2⟩ := ih hlen' hle' hne'
        constructor
        · show lexLe (x :: (xs ++ u)) (x :: (ys ++ v)) = true
          rw [lexLe_cons_iff]
          exact Or.inr ⟨rfl, h1⟩
        · intro hcon
          rw [List.cons_append, List.cons_append, List.cons.injEq] at hcon
          exact h2 hcon.2

theorem pyGet_in {α : Type} {l : List α} {i : Int} (h0 : 0 ≤ i)
    (hl : i < (l.length : Int)) : pyGet l i = l.get? i.toNat := by
  unfold pyGet
  have hni : ¬ i < 0 := by omega
  simp only [if_neg hni]
  rw [if_pos ⟨h0, hl⟩]

/-- On an in-bounds cell of a well-shaped grid, the Python double
subscript returns the mask. -/
theorem pyGet_getD {α : Type} {l : List α} {i : Int} (d : α) (h0 : 0 ≤ i)
    (hl : i < (l.length : Int)) : pyGet l i = some (l.getD i.toNat d) := by
  have hn : i.toNat < l.length := by omega
  rw [pyGet_in h0 hl, List.get?_eq_getElem?, List.getElem?_eq_getElem hn,
    List.getD_eq_getElem?_getD, List.getElem?_eq_getElem hn]
  rfl

theorem maskAccess_ok {w h : Nat} {g : Grid} (hg : GridShape w h g)
    {x y : Int} (hb : inBounds w h (x, y) = true) :
    maskAccess g x y = .ok (gridGet g x y) := by
  obtain ⟨hx0, hxw, hy0, hyh⟩ := inBounds_xy.1 hb
  obtain ⟨hlen, hrowlen⟩ := hg
  have hyl : y.toNat < g.length := by omega
  have hrow : pyGet g y = some (g.getD y.toNat []) :=
    pyGet_getD [] hy0 (by omega)
  have hwl : (g.getD y.toNat []).length = w := by
    rw [List.getD_eq_getElem?_getD, List.getElem?_eq_getElem hyl]
    exact hrowlen _ (List.getElem_mem hyl)
  have hcell : pyGet (g.getD y.toNat []) x
      = some ((g.getD y.toNat []).getD x.toNat 0) :=
    pyGet_getD 0 hx0 (by omega)
  unfold maskAccess
  rw [hrow]
  dsimp only
  rw [hcell]
  rfl

theorem directions_nbr_pairwise (c : Cell) :
    directions.Pairwise (fun d1 d2 =>
      ((c.1 + d1.2.1, c.2 + d1.2.2.1) : Cell)
        ≠ (c.1 + d2.2.1, c.2 + d2.2.2.1)) := by
  obtain ⟨c1, c2⟩ := c
  unfold directions
  refine List.Pairwise.cons ?_ (List.Pairwise.cons ?_
    (List.Pairwise.cons ?_ (List.Pairwise.cons ?_ List.Pairwise.nil))) <;>
    intro d hd <;>
    simp only [List.mem_cons, List.not_mem_nil, or_false] at hd
  · rcases hd with rfl | rfl | rfl <;>
      (intro hcon; simp only [Prod.mk.injEq] at hcon; omega)
  · rcases hd with rfl | rfl <;>
      (intro hcon; simp only [Prod.mk.injEq] at hcon; omega)
  · rcases hd with rfl <;>
      (intro hcon; simp only [Prod.mk.injEq] at hcon; omega)

/-- Characterisation of `solveScan` over a suffix of the direction list,
with the visited list split into cells added by this scan (`visA`) and
the rest (`visO`). -/
theorem solveScan_go {w h : Nat} {g : Grid} {c : Cell} {p : String}
    (hmask : maskAccess g c.1 c.2 = .ok (gridGet g c.1 c.2)) :
    ∀ (ds : List (Char × Int × Int × Int)) (q : List (Cell × String))
      (visA visO : List Cell),
      (∀ d ∈ ds, ((c.1 + d.2.1, c.2 + d.2.2.1) : Cell) ∉ visA) →
      ds.Pairwise (fun d1 d2 => ((c.1 + d1.2.1, c.2 + d1.2.2.1) : Cell)
        ≠ (c.1 + d2.2.1, c.2 + d2.2.2.1)) →
      solveScan w h g c p ds q (visA ++ visO) =
        .ok (q ++ (ds.filter (scanKeep w h g visO c)).map
            (fun d => (((c.1 + d.2.1, c.2 + d.2.2.1) : Cell), p.push d.1)),
          ((ds.filter (scanKeep w h g visO c)).map
            (fun d => ((c.1 + d.2.1, c.2 + d.2.2.1) : Cell))).reverse
            ++ visA ++ visO) := by
  intro ds
  induction ds with
  | nil =>
    intro q visA visO hA hP
    simp [solveScan]
  | cons d ds ih =>
    intro q visA visO hA hP
    rw [List.pairwise_cons] at hP
    have hA' : ∀ d' ∈ ds, ((c.1 + d'.2.1, c.2 + d'.2.2.1) : Cell) ∉ visA :=
      fun d' hd' => hA d' (List.mem_cons_of_mem _ hd')
    show solveScan w h g c p (d :: ds) q (visA ++ visO) = _
    rw [solveScan]
    by_cases hb : inBounds w h (c.1 + d.2.1, c.2 + d.2.2.1) = true
    · rw [if_pos hb]
      by_cases hv : ((c.1 + d.2.1, c.2 + d.2.2.1) : Cell) ∈ visA ++ visO
      · rw [if_pos hv]
        have hvo : ((c.1 + d.2.1, c.2 + d.2.2.1) : Cell) ∈ visO := by
          rcases List.mem_append.1 hv with hq | hq
          · exact absurd hq (hA d (List.mem_cons_self _ _))
          · exact hq
        have hkeep : scanKeep w h g visO c d = false := by
          unfold scanKeep
          simp [hvo]
        rw [List.filter_cons, hkeep, if_neg Bool.false_ne_true]
        exact ih q visA visO hA' hP.2
      · rw [if_neg hv]
        have hvo : ((c.1 + d.2.1, c.2 + d.2.2.1) : Cell) ∉ visO := by
          intro hq
          exact hv (List.mem_append_right _ hq)
        split
        next e heq =>
          rw [hmask] at heq
          exact absurd heq (by simp)
        next m heq =>
        rw [hmask] at heq
        injection heq with hm
        subst hm
        by_cases hw : Int.land (gridGet g c.1 c.2) d.2.2.2 = 0
        · rw [if_pos hw]
          have hkeep : scanKeep w h g visO c d = true := by
            unfold scanKeep
            simp [hb, hvo, hw]
          rw [List.filter_cons, hkeep, if_pos rfl]
          have hrec := ih (q ++ [((c.1 + d.2.1, c.2 + d.2.2.1), p.push d.1)])
            (((c.1 + d.2.1, c.2 + d.2.2.1) : Cell) :: visA) visO
            (fun d' hd' => by
              intro hcon
              rcases List.mem_cons.1 hcon with hq | hq
              · exact hP.1 d' hd' hq.symm
              · exact hA' d' hd' hq)
            hP.2
          rw [show (((c.1 + d.2.1, c.2 + d.2.2.1) : Cell) :: visA) ++ visO
            = ((c.1 + d.2.1, c.2 + d.2.2.1) : Cell) :: (visA ++ visO)
            from rfl] at hrec
          rw [hrec]
          congr 1
          rw [Prod.mk.injEq]
          constructor
          · rw [List.map_cons, List.append_assoc]
            rfl
          · rw [List.map_cons, List.reverse_cons]
            simp [List.append_assoc]
        · rw [if_neg hw]
          have hkeep : scanKeep w h g visO c d = false := by
            unfold scanKeep
            simp [hw]
          rw [List.filter_cons, hkeep, if_neg Bool.false_ne_true]
          exact ih q visA visO hA' hP.2
    · rw [if_neg hb]
      have hkeep : scanKeep w h g visO c d = false := by
        unfold scanKeep
        simp [hb]
      rw [List.filter_cons, hkeep]
      exact ih q visA visO hA' hP.2

/-- The full scan of one dequeued cell: appends the kept neighbours to
the queue in direction order and marks them visited. -/
theorem solveScan_spec {w h : Nat} {g : Grid} {c : Cell} {p : String}
    (rest : List (Cell × String)) (vis : List Cell)
    (hmask : maskAccess g c.1 c.2 = .ok (gridGet g c.1 c.2)) :
    solveScan w h g c p directions rest vis =
      .ok (rest ++ (directions.filter (scanKeep w h g vis c)).map
          (fun d => (((c.1 + d.2.1, c.2 + d.2.2.1) : Cell), p.push d.1)),
        ((directions.filter (scanKeep w h g vis c)).map
          (fun d => ((c.1 + d.2.1, c.2 + d.2.2.1) : Cell))).reverse
          ++ vis) := by
  have hgo := @solveScan_go w h g c p hmask directions rest [] vis
    (fun d _ => List.not_mem_nil _) (directions_nbr_pairwise c)
  rw [show ([] : List Cell) ++ vis = vis from rfl] at hgo
  rw [hgo]
  congr 2
  rw [List.append_nil]

theorem directions_step (d : Char × Int × Int × Int) (hd : d ∈ directions)
    (c : Cell) :
    ((c.1 + d.2.1, c.2 + d.2.2.1) : Cell) = stepCell c d.1 ∧
    (dirTriple d.1).2.2 = d.2.2.2 ∧ isDir d.1 = true := by
  simp only [directions, List.mem_cons, List.not_mem_nil, or_false] at hd
  rcases hd with rfl | rfl | rfl | rfl <;>
    refine ⟨?_, ?_, ?_⟩ <;> simp [stepCell, dirTriple, isDir]

/-- Extending a valid walk by one kept scan direction. -/
theorem walkOk_snoc {w h : Nat} {g : Grid} {start c : Cell} {p : List Char}
    {ch : Char} (hp : walkOk w h g start p c = true) (hdir : isDir ch = true)
    (hb : inBounds w h (stepCell c ch) = true)
    (hw : Int.land (gridGet g c.1 c.2) (dirTriple ch).2.2 = 0) :
    walkOk w h g start (p ++ [ch]) (stepCell c ch) = true := by
  rw [walkOk_append]
  have hend : walkEnd start p = c := walkOk_end hp
  rw [hend]
  refine ⟨hp, ?_⟩
  rw [walkOk_cons]
  exact ⟨hdir, hb, hw, walkOk_nil.2 rfl⟩

/-- Decomposing a nonempty valid walk at its last step. -/
theorem walkOk_snoc_inv {w h : Nat} {g : Grid} {start z : Cell}
    {r : List Char} (hr : walkOk w h g start r z = true) (hne : r ≠ []) :
    ∃ (r' : List Char) (ch : Char),
      r = r' ++ [ch] ∧
      walkOk w h g start r' (walkEnd start r') = true ∧
      isDir ch = true ∧
      inBounds w h (stepCell (walkEnd start r') ch) = true ∧
      Int.land (gridGet g (walkEnd start r').1 (walkEnd start r').2)
        (dirTriple ch).2.2 = 0 ∧
      z = stepCell (walkEnd start r') ch := by
  obtain ⟨r', ch, rfl⟩ := (List.eq_nil_or_concat r).resolve_left hne
  rw [List.concat_eq_append] at hr ⊢
  rw [walkOk_append] at hr
  obtain ⟨h1, h2⟩ := hr
  rw [walkOk_cons] at h2
  obtain ⟨hdir, hb, hw, hnil⟩ := h2
  exact ⟨r', ch, rfl, h1, hdir, hb, hw, (walkOk_nil.1 hnil).symm⟩

theorem bfsInv_init {w h : Nat} {g : Grid} {start endc : Cell}
    (hs : inBounds w h start = true) :
    BfsInv w h g start endc [(start, "")] [start] := by
  refine ⟨List.mem_singleton_self _, ?_, List.nodup_singleton _, ?_, ?_, ?_,
    ?_, ?_, ?_, ?_, ?_, ?_, ?_⟩
  · intro c hc
    rw [List.mem_singleton] at hc
    subst hc
    exact hs
  · intro e he
    rw [List.mem_singleton] at he
    subst he
    exact List.mem_singleton_self _
  · exact List.nodup_singleton _
  · intro e he
    rw [List.mem_singleton] at he
    subst he
    constructor
    · exact walkOk_nil.2 rfl
    · intro r hr
      cases r with
      | nil => exact Or.inr ⟨rfl, rfl⟩
      | cons ch t => exact Or.inl (by simp)
  · exact List.pairwise_singleton _ _
  · intro e0 he0 e he
    rw [List.mem_singleton] at he
    subst he
    simp
  · intro e0 he0 e he hlen
    rw [List.head?_cons, Option.some.injEq] at he0
    subst he0
    rw [List.mem_singleton] at he
    subst he
    exact absurd hlen (by simp)
  · intro e0 he0 z r hr hz
    rw [List.head?_cons, Option.some.injEq] at he0
    subst he0
    cases r with
    | nil =>
      rw [walkOk_nil] at hr
      subst hr
      exact absurd (List.mem_singleton_self _) hz
    | cons ch t => simp
  · intro y hy z r hr hz
    rw [List.mem_singleton] at hy
    subst hy
    exact ⟨0, Nat.zero_le _, by simp [walkEnd]⟩
  · intro y hy hyq
    rw [List.mem_singleton] at hy
    subst hy
    exact absurd (by simp) hyq
  · intro hev
    rw [List.mem_singleton] at hev
    subst hev
    simp

theorem lexLe_antisymm {a b : List Char} (h1 : lexLe a b = true)
    (h2 : lexLe b a = true) : a = b := by
  induction a generalizing b with
  | nil =>
    cases b with
    | nil => rfl
    | cons y ys => exact absurd h2 (by simp [lexLe])
  | cons x xs ih =>
    cases b with
    | nil => exact absurd h1 (by simp [lexLe])
    | cons y ys =>
      rw [lexLe_cons_iff] at h1 h2
      rcases h1 with hlt1 | ⟨heq1, hle1⟩
      · rcases h2 with hlt2 | ⟨heq2, hle2⟩
        · omega
        · subst heq2
          omega
      · subst heq1
        rcases h2 with hlt2 | ⟨heq2, hle2⟩
        · omega
        · rw [ih hle1 hle2]

theorem lexLe_ne_trans {a b c : List Char} (h1 : lexLe a b = true)
    (hne1 : a ≠ b) (h2 : lexLe b c = true) (hne2 : b ≠ c) :
    lexLe a c = true ∧ a ≠ c := by
  refine ⟨lexLe_trans h1 h2, ?_⟩
  intro hac
  subst hac
  exact hne1 (lexLe_antisymm h1 h2)

theorem isDir_cases {ch : Char} (hch : isDir ch = true) :
    ch = 'N' ∨ ch = 'E' ∨ ch = 'S' ∨ ch = 'W' := by
  unfold isDir at hch
  rw [Bool.or_eq_true, Bool.or_eq_true, Bool.or_eq_true,
    decide_eq_true_iff, decide_eq_true_iff, decide_eq_true_iff,
    decide_eq_true_iff] at hch
  tauto

theorem isDir_mem_directions {ch : Char} (hch : isDir ch = true) :
    ∃ d ∈ directions, d.1 = ch := by
  have hc := isDir_cases hch
  rcases hc with rfl | rfl | rfl | rfl
  · exact ⟨('N', 0, -1, 1), by simp [directions], rfl⟩
  · exact ⟨('E', 1, 0, 2), by simp [directions], rfl⟩
  · exact ⟨('S', 0, 1, 4), by simp [directions], rfl⟩
  · exact ⟨('W', -1, 0, 8), by simp [directions], rfl⟩

theorem stepCell_inj {c : Cell} {a b : Char} (ha : isDir a = true)
    (hb : isDir b = true) (hstep : stepCell c a = stepCell c b) : a = b := by
  have hca := isDir_cases ha
  have hcb := isDir_cases hb
  obtain ⟨c1, c2⟩ := c
  rcases hca with rfl | rfl | rfl | rfl <;> rcases hcb with rfl | rfl | rfl | rfl <;>
    first
    | rfl
    | (exfalso
       unfold stepCell at hstep
       rw [Prod.mk.injEq] at hstep
       have h1 := add_left_cancel hstep.1
       have h2 := add_left_cancel hstep.2
       exact absurd (And.intro h1 h2) (by decide))

theorem directions_rank_pairwise :
    directions.Pairwise (fun d1 d2 => dirRank d1.1 < dirRank d2.1) := by
  unfold directions
  decide

/-- Unpacking membership in the kept-direction list of a scan. -/
theorem kept_spec {w h : Nat} {g : Grid} {vis : List Cell} {c : Cell}
    {d : Char × Int × Int × Int}
    (hd : d ∈ directions.filter (scanKeep w h g vis c)) :
    d ∈ directions ∧ isDir d.1 = true ∧
    ((c.1 + d.2.1, c.2 + d.2.2.1) : Cell) = stepCell c d.1 ∧
    inBounds w h (stepCell c d.1) = true ∧
    stepCell c d.1 ∉ vis ∧
    Int.land (gridGet g c.1 c.2) (dirTriple d.1).2.2 = 0 := by
  rw [List.mem_filter] at hd
  obtain ⟨hdir, hkeep⟩ := hd
  obtain ⟨hstep, hbit, hisdir⟩ := directions_step d hdir c
  unfold scanKeep at hkeep
  rw [Bool.and_eq_true, Bool.and_eq_true, decide_eq_true_iff,
    decide_eq_true_iff] at hkeep
  rw [hstep] at hkeep
  rw [hbit]
  exact ⟨hdir, hisdir, hstep, hkeep.1.1, hkeep.1.2, hkeep.2⟩

/-- A direction passing the three scan tests is kept. -/
theorem kept_of_conds {w h : Nat} {g : Grid} {vis : List Cell} {c : Cell}
    {ch : Char} (hdir : isDir ch = true)
    (hb : inBounds w h (stepCell c ch) = true)
    (hnv : stepCell c ch ∉ vis)
    (hw : Int.land (gridGet g c.1 c.2) (dirTriple ch).2.2 = 0) :
    ∃ d ∈ directions.filter (scanKeep w h g vis c),
      d.1 = ch := by
  obtain ⟨d, hdmem, hd1⟩ := isDir_mem_directions hdir
  subst hd1
  obtain ⟨hstep, hbit, _⟩ := directions_step d hdmem c
  refine ⟨d, ?_, rfl⟩
  rw [List.mem_filter]
  refine ⟨hdmem, ?_⟩
  unfold scanKeep
  rw [Bool.and_eq_true, Bool.and_eq_true, decide_eq_true_iff,
    decide_eq_true_iff]
  rw [hstep]
  rw [hbit] at hw
  exact ⟨⟨hb, hnv⟩, hw⟩

/-- A neighbour enqueued during the scan of the queue head receives the
best (shortest, then lexicographically least) walk to it. -/
theorem bfs_new_best {w h : Nat} {g : Grid} {start endc : Cell}
    {c : Cell} {p : String} {rest : List (Cell × String)} {vis : List Cell}
    (inv : BfsInv w h g start endc ((c, p) :: rest) vis)
    {ch : Char} (hdir : isDir ch = true)
    (hb : inBounds w h (stepCell c ch) = true)
    (hnv : stepCell c ch ∉ vis)
    (hw : Int.land (gridGet g c.1 c.2) (dirTriple ch).2.2 = 0) :
    Best w h g start (stepCell c ch) (p.data ++ [ch]) := by
  have hbest := inv.q_best (c, p) (List.mem_cons_self _ _)
  dsimp only at hbest
  constructor
  · exact walkOk_snoc hbest.1 hdir hb hw
  · intro r hr
    have hlen1 : p.data.length + 1 ≤ r.length := by
      have := inv.min_len (c, p) rfl _ r hr hnv
      dsimp only at this
      exact this
    by_cases hcase : r.length = p.data.length + 1
    · refine Or.inr ⟨?_, ?_⟩
      · rw [List.length_append, List.length_singleton]
        omega
      · have hne : r ≠ [] := by
          intro hq
          rw [hq] at hcase
          exact absurd hcase (by simp)
        obtain ⟨r', ch2, rfl, hvalid', hdir2, hb2, hw2, hend⟩ :=
          walkOk_snoc_inv hr hne
        have hlenr' : r'.length = p.data.length := by
          rw [List.length_append, List.length_singleton] at hcase
          omega
        have hyvis : walkEnd start r' ∈ vis := by
          by_contra hyv
          have := inv.min_len (c, p) rfl _ r' hvalid' hyv
          dsimp only at this
          omega
        by_cases hyq : walkEnd start r' ∈ ((c, p) :: rest).map Prod.fst
        · rw [List.map_cons, List.mem_cons] at hyq
          rcases hyq with hyc | hyrest
          · have hyc' : walkEnd start r' = c := hyc
            rw [hyc'] at hvalid' hend
            have hch2 : ch = ch2 := stepCell_inj hdir hdir2 hend
            have hpl := hbest.2 r' hvalid'
            rcases hpl with hlt | ⟨hleq, hle⟩
            · exfalso
              omega
            · by_cases hpr : p.data = r'
              · rw [← hpr, ← hch2]
                exact lexLe_refl _
              · exact (lex_lt_append hleq hle hpr [ch] [ch2]).1
          · obtain ⟨e, he, hey⟩ := List.mem_map.1 hyrest
            have hbe := inv.q_best e (List.mem_cons_of_mem _ he)
            have hord : p.data.length < e.2.data.length ∨
                (p.data.length = e.2.data.length ∧
                  lexLe p.data e.2.data = true ∧ p.data ≠ e.2.data) :=
              (List.pairwise_cons.1 inv.q_sorted).1 e he
            have hvey : walkOk w h g start r' e.1 = true := by
              rw [hey]
              exact hvalid'
            have hbl := hbe.2 r' hvey
            rcases hord with hlt | ⟨hleq, hle, hne2⟩
            · exfalso
              rcases hbl with h2 | ⟨h2, _⟩ <;> omega
            · rcases hbl with hlt2 | ⟨hleq2, hle2⟩
              · exfalso
                omega
              · have hfin : lexLe p.data r' = true ∧ p.data ≠ r' := by
                  by_cases hbr : e.2.data = r'
                  · rw [hbr] at hle hne2
                    exact ⟨hle, hne2⟩
                  · exact lexLe_ne_trans hle hne2 hle2 hbr
                exact (lex_lt_append (by omega) hfin.1 hfin.2 [ch] [ch2]).1
        · have hstep := inv.closed _ hyvis hyq ch2 hdir2 hb2 hw2
          rw [← hend] at hstep
          exact absurd hstep hnv
    · refine Or.inl ?_
      rw [List.length_append, List.length_singleton]
      omega

theorem headq_mem {α : Type} {l : List α} {a : α} (hh : l.head? = some a) :
    a ∈ l := by
  cases l with
  | nil => cases hh
  | cons x t =>
    rw [List.head?_cons, Option.some.injEq] at hh
    rw [← hh]
    exact List.mem_cons_self _ _

theorem sorted_head_le {q : List (Cell × String)} {e0 : Cell × String}
    (hs : q.Pairwise (fun e1 e2 => pOrd e1.2.data e2.2.data))
    (hh : q.head? = some e0) :
    ∀ e ∈ q, e0.2.data.length ≤ e.2.data.length := by
  cases q with
  | nil => cases hh
  | cons a t =>
    rw [List.head?_cons, Option.some.injEq] at hh
    intro e he
    rw [← hh]
    rcases List.mem_cons.1 he with rfl | he'
    · exact le_refl _
    · have hp : a.2.data.length < e.2.data.length ∨
          (a.2.data.length = e.2.data.length ∧
            lexLe a.2.data e.2.data = true ∧ a.2.data ≠ e.2.data) :=
        (List.pairwise_cons.1 hs).1 e he'
      rcases hp with hq | ⟨hq, _⟩ <;> omega

/-- One dequeue-and-scan step of the BFS preserves the loop invariant
(the dequeued cell is not the target). -/
theorem bfsInv_step {w h : Nat} {g : Grid} {start endc : Cell}
    {c : Cell} {p : String} {rest : List (Cell × String)} {vis : List Cell}
    (inv : BfsInv w h g start endc ((c, p) :: rest) vis) (hce : c ≠ endc) :
    BfsInv w h g start endc
      (rest ++ (directions.filter (scanKeep w h g vis c)).map
        (fun d => (((c.1 + d.2.1, c.2 + d.2.2.1) : Cell), p.push d.1)))
      (((directions.filter (scanKeep w h g vis c)).map
        (fun d => ((c.1 + d.2.1, c.2 + d.2.2.1) : Cell))).reverse ++ vis) := by
  have hpush : ∀ ch : Char, (p.push ch).data = p.data ++ [ch] := by
    intro ch
    simp [String.push]
  have hcvis : c ∈ vis := inv.q_vis (c, p) (List.mem_cons_self _ _)
  -- Abbreviations (kept as plain terms; this proof names the parts).
  set kept := directions.filter (scanKeep w h g vis c) with hkept
  set newE := kept.map
    (fun d => (((c.1 + d.2.1, c.2 + d.2.2.1) : Cell), p.push d.1)) with hnewE
  set newC := kept.map
    (fun d => ((c.1 + d.2.1, c.2 + d.2.2.1) : Cell)) with hnewC
  have hnewE_mem : ∀ e ∈ newE, ∃ d ∈ kept,
      (((c.1 + d.2.1, c.2 + d.2.2.1) : Cell), p.push d.1) = e := by
    intro e he
    rw [hnewE] at he
    exact List.mem_map.1 he
  have hnewC_mem : ∀ y ∈ newC, ∃ d ∈ kept,
      ((c.1 + d.2.1, c.2 + d.2.2.1) : Cell) = y := by
    intro y hy
    rw [hnewC] at hy
    exact List.mem_map.1 hy
  have hnewC_nvis : ∀ y ∈ newC, y ∉ vis := by
    intro y hy
    obtain ⟨d, hd, hdy⟩ := hnewC_mem y hy
    rw [hkept] at hd
    obtain ⟨_, _, hstep, _, hnv, _⟩ := kept_spec hd
    rw [← hdy, hstep]
    exact hnv
  have hnewC_inb : ∀ y ∈ newC, inBounds w h y = true := by
    intro y hy
    obtain ⟨d, hd, hdy⟩ := hnewC_mem y hy
    rw [hkept] at hd
    obtain ⟨_, _, hstep, hbq, _, _⟩ := kept_spec hd
    rw [← hdy, hstep]
    exact hbq
  have hq'cells : (rest ++ newE).map Prod.fst = rest.map Prod.fst ++ newC := by
    rw [List.map_append, hnewE, hnewC, List.map_map]
    rfl
  have hrestcells_vis : ∀ y ∈ rest.map Prod.fst, y ∈ vis := by
    intro y hy
    obtain ⟨e, he, hey⟩ := List.mem_map.1 hy
    rw [← hey]
    exact inv.q_vis e (List.mem_cons_of_mem _ he)
  have hnewC_nodup : newC.Nodup := by
    rw [hnewC, hkept]
    exact ((directions_nbr_pairwise c).filter _).map _ (fun a b hab => hab)
  -- Every open in-bounds neighbour of `c` is visited after the scan.
  have hnbr_vis : ∀ ch2 : Char, isDir ch2 = true →
      inBounds w h (stepCell c ch2) = true →
      Int.land (gridGet g c.1 c.2) (dirTriple ch2).2.2 = 0 →
      stepCell c ch2 ∈ newC.reverse ++ vis := by
    intro ch2 h1 h2 h3
    by_cases hv : stepCell c ch2 ∈ vis
    · exact List.mem_append_right _ hv
    · obtain ⟨d, hd, hd1⟩ := kept_of_conds h1 h2 hv h3
      apply List.mem_append_left
      rw [List.mem_reverse, hnewC]
      refine List.mem_map.2 ⟨d, ?_, ?_⟩
      · rw [hkept]
        exact hd
      · obtain ⟨_, _, hstep, _, _, _⟩ := kept_spec hd
        rw [hstep, hd1]
  -- Best paths for all queue entries.
  have hbest' : ∀ e ∈ rest ++ newE, Best w h g start e.1 e.2.data := by
    intro e he
    rcases List.mem_append.1 he with hq | hq
    · exact inv.q_best e (List.mem_cons_of_mem _ hq)
    · obtain ⟨d, hd, hde⟩ := hnewE_mem e hq
      rw [hkept] at hd
      obtain ⟨_, hisdir, hstep, hbq, hnv, hwq⟩ := kept_spec hd
      rw [← hde]
      show Best w h g start ((c.1 + d.2.1, c.2 + d.2.2.1) : Cell)
        (p.push d.1).data
      rw [hstep, hpush]
      exact bfs_new_best inv hisdir hbq hnv hwq
  -- Sortedness.
  have hsorted' : (rest ++ newE).Pairwise
      (fun e1 e2 => pOrd e1.2.data e2.2.data) := by
    rw [List.pairwise_append]
    refine ⟨inv.q_sorted.of_cons, ?_, ?_⟩
    · rw [hnewE, hkept]
      refine ((directions_rank_pairwise.filter _).map _ ?_)
      intro d1 d2 hr
      show pOrd (p.push d1.1).data (p.push d2.1).data
      rw [hpush, hpush]
      refine Or.inr ⟨by simp, ?_, ?_⟩
      · exact lexLe_append_same p.data (lexLe_cons_iff.2 (Or.inl hr))
      · intro hcon
        have h1 := List.append_cancel_left hcon
        rw [List.cons.injEq] at h1
        rw [h1.1] at hr
        omega
    · intro e1 he1 e2 he2
      obtain ⟨d, hd, hde⟩ := hnewE_mem e2 he2
      have he2len : e2.2.data.length = p.data.length + 1 := by
        rw [← hde]
        show (p.push d.1).data.length = _
        rw [hpush]
        simp
      have he2eq : e2.2.data = p.data ++ [d.1] := by
        rw [← hde]
        show (p.push d.1).data = _
        rw [hpush]
      have hlay : e1.2.data.length ≤ p.data.length + 1 :=
        inv.q_layer (c, p) rfl e1 (List.mem_cons_of_mem _ he1)
      by_cases hl1 : e1.2.data.length = p.data.length + 1
      · have hpref : lexLe (e1.2.data.take p.data.length) p.data = true ∧
            e1.2.data.take p.data.length ≠ p.data :=
          inv.q_pref (c, p) rfl e1 (List.mem_cons_of_mem _ he1) hl1
        have hlt := lex_lt_append (by rw [List.length_take]; omega)
          hpref.1 hpref.2 (e1.2.data.drop p.data.length) [d.1]
        rw [List.take_append_drop] at hlt
        rw [he2eq]
        exact Or.inr ⟨by rw [List.length_append, List.length_singleton]; omega,
          hlt.1, hlt.2⟩
      · exact Or.inl (by omega)
  -- Closedness of finished cells.
  have hclosed' : ∀ y ∈ newC.reverse ++ vis,
      y ∉ (rest ++ newE).map Prod.fst → ∀ ch2, isDir ch2 = true →
      inBounds w h (stepCell y ch2) = true →
      Int.land (gridGet g y.1 y.2) (dirTriple ch2).2.2 = 0 →
      stepCell y ch2 ∈ newC.reverse ++ vis := by
    intro y hy hyq ch2 h1 h2 h3
    rcases List.mem_append.1 hy with hyn | hyv
    · exfalso
      apply hyq
      rw [hq'cells]
      exact List.mem_append_right _ (List.mem_reverse.1 hyn)
    · by_cases hyc : y = c
      · subst hyc
        exact hnbr_vis ch2 h1 h2 h3
      · have hyoldq : y ∉ ((c, p) :: rest).map Prod.fst := by
          intro hq
          rw [List.map_cons, List.mem_cons] at hq
          rcases hq with hq | hq
          · exact hyc hq
          · exact hyq (by rw [hq'cells]; exact List.mem_append_left _ hq)
        exact List.mem_append_right _
          (inv.closed y hyv hyoldq ch2 h1 h2 h3)
  -- Queue length bounds for entries.
  have hlen_lb : ∀ e ∈ rest ++ newE, p.data.length ≤ e.2.data.length := by
    intro e he
    rcases List.mem_append.1 he with hq | hq
    · have hp : p.data.length < e.2.data.length ∨
          (p.data.length = e.2.data.length ∧
            lexLe p.data e.2.data = true ∧ p.data ≠ e.2.data) :=
        (List.pairwise_cons.1 inv.q_sorted).1 e hq
      rcases hp with h2 | ⟨h2, _⟩ <;> omega
    · obtain ⟨d, hd, hde⟩ := hnewE_mem e hq
      have : e.2.data.length = p.data.length + 1 := by
        rw [← hde]
        show (p.push d.1).data.length = _
        rw [hpush]
        simp
      omega
  have hlen_ub : ∀ e ∈ rest ++ newE,
      e.2.data.length ≤ p.data.length + 1 := by
    intro e he
    rcases List.mem_append.1 he with hq | hq
    · exact inv.q_layer (c, p) rfl e (List.mem_cons_of_mem _ hq)
    · obtain ⟨d, hd, hde⟩ := hnewE_mem e hq
      have : e.2.data.length = p.data.length + 1 := by
        rw [← hde]
        show (p.push d.1).data.length = _
        rw [hpush]
        simp
      omega
  -- Minimum-length lower bound for walks escaping the visited set.
  have hmin' : ∀ e0, (rest ++ newE).head? = some e0 →
      ∀ z (r : List Char), walkOk w h g start r z = true →
      z ∉ newC.reverse ++ vis → e0.2.data.length + 1 ≤ r.length := by
    intro e0 he0 z r hr hz
    have hz' : z ∉ vis := fun hq => hz (List.mem_append_right _ hq)
    have hold : p.data.length + 1 ≤ r.length :=
      inv.min_len (c, p) rfl z r hr hz'
    have he0m : e0 ∈ rest ++ newE := headq_mem he0
    have hub : e0.2.data.length ≤ p.data.length + 1 := hlen_ub e0 he0m
    by_cases hcase : e0.2.data.length = p.data.length + 1
    · by_contra hcon
      have hrlen : r.length = p.data.length + 1 := by omega
      have hne : r ≠ [] := by
        intro hq
        rw [hq] at hrlen
        exact absurd hrlen (by simp)
      obtain ⟨r', ch2, rfl, hvalid', hdir2, hb2, hw2, hend⟩ :=
        walkOk_snoc_inv hr hne
      have hlenr' : r'.length = p.data.length := by
        rw [List.length_append, List.length_singleton] at hrlen
        omega
      have hyvis : walkEnd start r' ∈ vis := by
        by_contra hyv
        have : p.data.length + 1 ≤ r'.length :=
          inv.min_len (c, p) rfl _ r' hvalid' hyv
        omega
      have hynq : walkEnd start r' ∉ (rest ++ newE).map Prod.fst := by
        intro hq
        obtain ⟨e, he, hey⟩ := List.mem_map.1 hq
        have hbe := hbest' e he
        have hvey : walkOk w h g start r' e.1 = true := by
          rw [hey]
          exact hvalid'
        have hble := hbe.2 r' hvey
        have hse := sorted_head_le hsorted' he0 e he
        rcases hble with h2 | ⟨h2, _⟩ <;> omega
      have hstep := hclosed' _ (List.mem_append_right _ hyvis) hynq
        ch2 hdir2 hb2 hw2
      rw [← hend] at hstep
      exact absurd hstep hz
    · omega
  -- Frontier property by strong induction over the walk length.
  have hfront' : ∀ y ∈ newC.reverse ++ vis, ∀ z (r : List Char),
      walkOk w h g y r z = true → z ∉ newC.reverse ++ vis →
      ∃ j ≤ r.length, walkEnd y (r.take j) ∈ (rest ++ newE).map Prod.fst := by
    have key : ∀ m, ∀ y ∈ newC.reverse ++ vis, ∀ z (r : List Char),
        r.length ≤ m → walkOk w h g y r z = true →
        z ∉ newC.reverse ++ vis →
        ∃ j ≤ r.length,
          walkEnd y (r.take j) ∈ (rest ++ newE).map Prod.fst := by
      intro m
      induction m with
      | zero =>
        intro y hy z r hrm hr hz
        have : r = [] := List.length_eq_zero.1 (by omega)
        subst this
        rw [walkOk_nil] at hr
        subst hr
        exact absurd hy hz
      | succ m ih =>
        intro y hy z r hrm hr hz
        rcases List.mem_append.1 hy with hyn | hyv
        · refine ⟨0, Nat.zero_le _, ?_⟩
          rw [List.take_zero]
          show y ∈ _
          rw [hq'cells]
          exact List.mem_append_right _ (List.mem_reverse.1 hyn)
        · have hzv : z ∉ vis := fun hq => hz (List.mem_append_right _ hq)
          obtain ⟨j, hj, hmem⟩ := inv.frontier y hyv z r hr hzv
          rw [List.map_cons, List.mem_cons] at hmem
          rcases hmem with hmc | hmr
          · -- the prefix ends at the dequeued cell c
            have hjlt : j < r.length := by
              by_contra hcon
              have hjr : j = r.length := by omega
              rw [hjr, List.take_length] at hmc
              have : walkEnd y r = z := walkOk_end hr
              rw [this] at hmc
              exact hzv (by rw [hmc]; exact hcvis)
            -- split r after position j
            have hsplit : r = r.take j ++ r.drop j :=
              (List.take_append_drop j r).symm
            have hdropne : r.drop j ≠ [] := by
              intro hq
              have := List.length_drop j r
              rw [hq] at this
              simp at this
              omega
            cases hdrop : r.drop j with
            | nil => exact absurd hdrop hdropne
            | cons ch2 rr =>
              have hr2 : walkOk w h g (walkEnd y (r.take j))
                  (r.drop j) z = true := by
                have := (walkOk_append (r.take j) (r.drop j)).1
                  (by rw [List.take_append_drop]; exact hr)
                exact this.2
              rw [hdrop, walkOk_cons, hmc] at hr2
              obtain ⟨hd2, hb2, hw2, hrest2⟩ := hr2
              have hn'vis : stepCell c ch2 ∈ newC.reverse ++ vis :=
                hnbr_vis ch2 hd2 hb2 hw2
              have hrrlen : rr.length ≤ m := by
                have := List.length_drop j r
                rw [hdrop] at this
                simp at this
                omega
              obtain ⟨j2, hj2, hend2⟩ := ih (stepCell c ch2) hn'vis z rr
                hrrlen hrest2 hz
              refine ⟨j + 1 + j2, ?_, ?_⟩
              · have := List.length_drop j r
                rw [hdrop] at this
                simp at this
                omega
              · have htake : r.take (j + 1 + j2)
                    = r.take j ++ ch2 :: rr.take j2 := by
                  conv_lhs => rw [hsplit, hdrop]
                  rw [List.take_append_eq_append_take]
                  have h1 : (r.take j).take (j + 1 + j2) = r.take j := by
                    rw [List.take_take]
                    congr 1
                    omega
                  have h2 : (r.take j).length = j := by
                    rw [List.length_take]
                    omega
                  rw [h1, h2]
                  have h3 : j + 1 + j2 - j = j2 + 1 := by omega
                  rw [h3]
                  rfl
                rw [htake, walkEnd_append, hmc]
                show walkEnd (stepCell c ch2) (rr.take j2) ∈ _
                exact hend2
          · refine ⟨j, hj, ?_⟩
            rw [hq'cells]
            exact List.mem_append_left _ hmr
    intro y hy z r hr hz
    exact key r.length y hy z r (le_refl _) hr hz
  -- Assemble all fields.
  refine ⟨List.mem_append_right _ inv.start_vis, ?_, ?_, ?_, ?_, hbest',
    hsorted', ?_, ?_, hmin', hfront', hclosed', ?_⟩
  · intro x hx
    rcases List.mem_append.1 hx with hq | hq
    · exact hnewC_inb x (List.mem_reverse.1 hq)
    · exact inv.vis_inb x hq
  · rw [List.nodup_append]
    refine ⟨List.nodup_reverse.2 hnewC_nodup, inv.vis_nodup, ?_⟩
    intro a ha hav
    exact hnewC_nvis a (List.mem_reverse.1 ha) hav
  · intro e he
    rcases List.mem_append.1 he with hq | hq
    · exact List.mem_append_right _ (inv.q_vis e (List.mem_cons_of_mem _ hq))
    · obtain ⟨d, hd, hde⟩ := hnewE_mem e hq
      apply List.mem_append_left
      rw [List.mem_reverse, hnewC]
      refine List.mem_map.2 ⟨d, hd, ?_⟩
      rw [← hde]
  · rw [hq'cells, List.nodup_append]
    refine ⟨?_, hnewC_nodup, ?_⟩
    · have := inv.q_nodup
      rw [List.map_cons] at this
      exact this.of_cons
    · intro a ha han
      exact hnewC_nvis a han (hrestcells_vis a ha)
  · -- layer bound
    intro e0 he0 e he
    have he0m : e0 ∈ rest ++ newE := headq_mem he0
    have h1 := hlen_lb e0 he0m
    have h2 := hlen_ub e he
    omega
  · -- prefix property
    intro e0 he0 e he hlen
    have he0m : e0 ∈ rest ++ newE := headq_mem he0
    have hlb0 := hlen_lb e0 he0m
    have hub0 := hlen_ub e0 he0m
    have hube := hlen_ub e he
    have he0L : e0.2.data.length = p.data.length := by omega
    rw [he0L]
    rcases List.mem_append.1 he with hq | hq
    · have hpe : lexLe (e.2.data.take p.data.length) p.data = true ∧
          e.2.data.take p.data.length ≠ p.data :=
        inv.q_pref (c, p) rfl e (List.mem_cons_of_mem _ hq)
          (show e.2.data.length = p.data.length + 1 by omega)
      rcases List.mem_append.1 he0m with hq0 | hq0
      · have hord : p.data.length < e0.2.data.length ∨
            (p.data.length = e0.2.data.length ∧
              lexLe p.data e0.2.data = true ∧ p.data ≠ e0.2.data) :=
          (List.pairwise_cons.1 inv.q_sorted).1 e0 hq0
        rcases hord with h2 | ⟨_, hle0, hne0⟩
        · omega
        · exact lexLe_ne_trans hpe.1 hpe.2 hle0 hne0
      · obtain ⟨d, hd, hde⟩ := hnewE_mem e0 hq0
        exfalso
        have : e0.2.data.length = p.data.length + 1 := by
          rw [← hde]
          show (p.push d.1).data.length = _
          rw [hpush]
          simp
        omega
    · obtain ⟨d, hd, hde⟩ := hnewE_mem e hq
      have heq : e.2.data = p.data ++ [d.1] := by
        rw [← hde]
        show (p.push d.1).data = _
        rw [hpush]
      rw [heq, List.take_left]
      rcases List.mem_append.1 he0m with hq0 | hq0
      · have hord : p.data.length < e0.2.data.length ∨
            (p.data.length = e0.2.data.length ∧
              lexLe p.data e0.2.data = true ∧ p.data ≠ e0.2.data) :=
          (List.pairwise_cons.1 inv.q_sorted).1 e0 hq0
        rcases hord with h2 | ⟨_, hle0, hne0⟩
        · omega
        · exact ⟨hle0, hne0⟩
      · obtain ⟨d0, hd0, hde0⟩ := hnewE_mem e0 hq0
        exfalso
        have : e0.2.data.length = p.data.length + 1 := by
          rw [← hde0]
          show (p.push d0.1).data.length = _
          rw [hpush]
          simp
        omega
  · -- target stays in the queue
    intro hev
    rcases List.mem_append.1 hev with hq | hq
    · rw [hq'cells]
      exact List.mem_append_right _ (List.mem_reverse.1 hq)
    · have := inv.end_q hq
      rw [List.map_cons, List.mem_cons] at this
      rcases this with h2 | h2
      · exact absurd h2.symm hce
      · rw [hq'cells]
        exact List.mem_append_left _ h2

/-- The BFS loop, with sufficient fuel, returns a best path to a
reachable target. -/
theorem solveLoop_correct {w h : Nat} {g : Grid} {start endc : Cell}
    (hg : GridShape w h g) :
    ∀ (fuel : Nat) (q : List (Cell × String)) (vis : List Cell),
      BfsInv w h g start endc q vis →
      (∃ r : List Char, walkOk w h g start r endc = true) →
      q.length + (w * h - vis.length) < fuel →
      ∃ p : String, solveLoop w h g endc fuel q vis = .ok p ∧
        Best w h g start endc p.data := by
  intro fuel
  induction fuel with
  | zero =>
    intro q vis hinv hreach hm
    exact absurd hm (by omega)
  | succ n ih =>
    intro q vis hinv hreach hm
    cases q with
    | nil =>
      exfalso
      obtain ⟨r, hr⟩ := hreach
      by_cases hev : endc ∈ vis
      · have := hinv.end_q hev
        simp at this
      · obtain ⟨j, hj, hmem⟩ := hinv.frontier start hinv.start_vis endc r hr hev
        simp at hmem
    | cons e rest =>
      obtain ⟨c, p⟩ := e
      rw [solveLoop]
      by_cases hc : c = endc
      · rw [if_pos hc]
        subst hc
        refine ⟨p, rfl, ?_⟩
        exact hinv.q_best (c, p) (List.mem_cons_self _ _)
      · rw [if_neg hc]
        have hcvis : c ∈ vis := hinv.q_vis (c, p) (List.mem_cons_self _ _)
        have hcb : inBounds w h c = true := hinv.vis_inb c hcvis
        have hmask : maskAccess g c.1 c.2 = .ok (gridGet g c.1 c.2) :=
          maskAccess_ok hg hcb
        split
        next e2 heq =>
          rw [solveScan_spec rest vis hmask] at heq
          exact absurd heq (by simp)
        next q2 vis2 heq =>
          rw [solveScan_spec rest vis hmask] at heq
          rw [Except.ok.injEq, Prod.mk.injEq] at heq
          obtain ⟨hq2, hvis2⟩ := heq
          subst hq2
          subst hvis2
          have hinv' := bfsInv_step hinv hc
          have hvle : vis.length +
              ((directions.filter (scanKeep w h g vis c)).map
                (fun d => ((c.1 + d.2.1, c.2 + d.2.2.1) : Cell))).length
              ≤ w * h := by
            have := nodup_inb_length_le hinv'.vis_nodup hinv'.vis_inb
            rw [List.length_append, List.length_reverse] at this
            omega
          apply ih _ _ hinv' hreach
          rw [List.length_append, List.length_append, List.length_reverse,
            List.length_map, List.length_map]
          rw [List.length_cons] at hm
          rw [List.length_map] at hvle
          omega

theorem solve_correct_aux (st : MazeState) (start endc : Cell)
    (hshape : GridShape st.width st.height st.grid)
    (hs : inBounds st.width st.height start = true)
    (hreach : ∃ r : List Char,
      walkOk st.width st.height st.grid start r endc = true) :
    ∃ p : String,
      solve st start endc = .ok p ∧
      walkOk st.width st.height st.grid start p.data endc = true ∧
      (∀ r : List Char,
        walkOk st.width st.height st.grid start r endc = true →
        p.data.length ≤ r.length) ∧
      (∀ r : List Char,
        walkOk st.width st.height st.grid start r endc = true →
        r.length = p.data.length → lexLe p.data r = true) := by
  have hinit := @bfsInv_init st.width st.height st.grid start endc hs
  have hwh : 1 ≤ st.width * st.height := by
    obtain ⟨h1, h2, h3, h4⟩ := inBounds_xy.1 (show
      inBounds st.width st.height (start.1, start.2) = true from hs)
    have hw1 : 1 ≤ st.width := by omega
    have hh1 : 1 ≤ st.height := by omega
    exact Nat.one_le_iff_ne_zero.2 (by positivity)
  obtain ⟨p, hsol, hbest⟩ := solveLoop_correct hshape
    (st.width * st.height + 2) [(start, "")] [start] hinit hreach
    (by simp only [List.length_singleton]; omega)
  refine ⟨p, hsol, hbest.1, ?_, ?_⟩
  · intro r hr
    rcases hbest.2 r hr with hlt | ⟨hleq, _⟩ <;> omega
  · intro r hr hlen
    rcases hbest.2 r hr with hlt | ⟨_, hle⟩
    · omega
    · exact hle

/-- C4 (solver correctness): on a well-shaped grid, for every in-bounds
start with the end reachable through open passages, `solve` returns a
direction string that is a valid walk from start to end, of minimum
length among all such walks, and lexicographically least in the fixed
N, E, S, W order among the minimum-length walks. -/
theorem solve_correct (st : MazeState) (start endc : Cell)
    (hshape : GridShape st.width st.height st.grid)
    (hs : inBounds st.width st.height start = true)
    (hreach : ∃ r : List Char,
      walkOk st.width st.height st.grid start r endc = true) :
    ∃ p : String,
      solve st start endc = .ok p ∧
      walkOk st.width st.height st.grid start p.data endc = true ∧
      (∀ r : List Char,
        walkOk st.width st.height st.grid start r endc = true →
        p.data.length ≤ r.length) ∧
      (∀ r : List Char,
        walkOk st.width st.height st.grid start r endc = true →
        r.length = p.data.length → lexLe p.data r = true) :=
  solve_correct_aux st start endc hshape hs hreach

/-- Concrete instantiation of C4 on the fresh 1-by-1 grid. -/
theorem solve_correct_witness :
    (GridShape 1 1 [[(15 : Int)]] ∧
      inBounds 1 1 ((0 : Int), (0 : Int)) = true ∧
      walkOk 1 1 [[(15 : Int)]] (0, 0) [] ((0 : Int), (0 : Int)) = true) ∧
    (∃ p : String,
      solve (mazeInit 1 1 true) (0, 0) (0, 0) = .ok p ∧
      walkOk (mazeInit 1 1 true).width (mazeInit 1 1 true).height
        (mazeInit 1 1 true).grid (0, 0) p.data (0, 0) = true ∧
      (∀ r : List Char,
        walkOk (mazeInit 1 1 true).width (mazeInit 1 1 true).height
          (mazeInit 1 1 true).grid (0, 0) r (0, 0) = true →
        p.data.length ≤ r.length) ∧
      (∀ r : List Char,
        walkOk (mazeInit 1 1 true).width (mazeInit 1 1 true).height
          (mazeInit 1 1 true).grid (0, 0) r (0, 0) = true →
        r.length = p.data.length → lexLe p.data r = true)) :=
  ⟨⟨⟨rfl, fun row hrow => by
      rw [List.mem_singleton] at hrow
      subst hrow
      rfl⟩, by decide, by decide⟩,
    solve_correct (mazeInit 1 1 true) (0, 0) (0, 0)
      ⟨rfl, fun row hrow => by
        rw [List.eq_of_mem_replicate hrow]
        rfl⟩ (by decide) ⟨[], by decide⟩⟩

/-- With an unreachable target the BFS loop always returns the empty
string (by queue exhaustion or fuel exhaustion). -/
theorem solveLoop_unreachable {w h : Nat} {g : Grid} {start endc : Cell}
    (hg : GridShape w h g)
    (hur : ¬ ∃ r : List Char, walkOk w h g start r endc = true) :
    ∀ (fuel : Nat) (q : List (Cell × String)) (vis : List Cell),
      BfsInv w h g start endc q vis →
      solveLoop w h g endc fuel q vis = .ok "" := by
  intro fuel
  induction fuel with
  | zero => intro q vis _; rfl
  | succ n ih =>
    intro q vis hinv
    cases q with
    | nil => rfl
    | cons e rest =>
      obtain ⟨c, p⟩ := e
      rw [solveLoop]
      by_cases hc : c = endc
      · exfalso
        subst hc
        exact hur ⟨p.data, (hinv.q_best (c, p) (List.mem_cons_self _ _)).1⟩
      · rw [if_neg hc]
        have hcvis : c ∈ vis := hinv.q_vis (c, p) (List.mem_cons_self _ _)
        have hcb : inBounds w h c = true := hinv.vis_inb c hcvis
        have hmask : maskAccess g c.1 c.2 = .ok (gridGet g c.1 c.2) :=
          maskAccess_ok hg hcb
        split
        next e2 heq =>
          rw [solveScan_spec rest vis hmask] at heq
          exact absurd heq (by simp)
        next q2 vis2 heq =>
          rw [solveScan_spec rest vis hmask] at heq
          rw [Except.ok.injEq, Prod.mk.injEq] at heq
          obtain ⟨hq2, hvis2⟩ := heq
          subst hq2
          subst hvis2
          exact ih _ _ (bfsInv_step hinv hc)

/-- C6 (empty-solution semantics): `solve` returns the empty string when
start equals end and when end is unreachable, making the two cases
indistinguishable from the return value; when start differs from end and
end is reachable, the returned string is non-empty. -/
theorem empty_solution_semantics (st : MazeState) (start endc : Cell)
    (hshape : GridShape st.width st.height st.grid)
    (hs : inBounds st.width st.height start = true) :
    (start = endc → solve st start endc = .ok "") ∧
    ((¬ ∃ r : List Char,
        walkOk st.width st.height st.grid start r endc = true) →
      solve st start endc = .ok "") ∧
    (start ≠ endc →
      (∃ r : List Char,
        walkOk st.width st.height st.grid start r endc = true) →
      ∃ p : String, solve st start endc = .ok p ∧ p ≠ "") := by
  refine ⟨?_, ?_, ?_⟩
  · intro heq
    subst heq
    show solveLoop st.width st.height st.grid start
      (st.width * st.height + 1 + 1) [(start, "")] [start] = Except.ok ""
    rw [solveLoop]
    simp
  · intro hur
    exact solveLoop_unreachable hshape hur (st.width * st.height + 2)
      [(start, "")] [start] (@bfsInv_init st.width st.height st.grid
        start endc hs)
  · intro hne hreach
    obtain ⟨p, hsol, hvalid, _, _⟩ := solve_correct_aux st start endc hshape hs
      hreach
    refine ⟨p, hsol, ?_⟩
    intro hp
    subst hp
    rw [show ("" : String).data = [] from rfl, walkOk_nil] at hvalid
    exact hne hvalid

/-- Concrete instantiation of C6 on the fresh 2-by-1 grid. -/
theorem empty_solution_semantics_witness :
    (GridShape 2 1 [[(15 : Int), 15]] ∧
      inBounds 2 1 ((0 : Int), (0 : Int)) = true) ∧
    (((0 : Int), (0 : Int)) = (((1 : Int), (0 : Int)) : Cell) →
      solve (mazeInit 2 1 true) (0, 0) (1, 0) = .ok "") ∧
    ((¬ ∃ r : List Char,
        walkOk (mazeInit 2 1 true).width (mazeInit 2 1 true).height
          (mazeInit 2 1 true).grid (0, 0) r (1, 0) = true) →
      solve (mazeInit 2 1 true) (0, 0) (1, 0) = .ok "") ∧
    ((((0 : Int), (0 : Int)) : Cell) ≠ (1, 0) →
      (∃ r : List Char,
        walkOk (mazeInit 2 1 true).width (mazeInit 2 1 true).height
          (mazeInit 2 1 true).grid (0, 0) r (1, 0) = true) →
      ∃ p : String, solve (mazeInit 2 1 true) (0, 0) (1, 0) = .ok p ∧
        p ≠ "") := by
  refine ⟨⟨⟨rfl, ?_⟩, by decide⟩, ?_⟩
  · intro row hrow
    rw [List.mem_singleton] at hrow
    subst hrow
    rfl
  · exact empty_solution_semantics (mazeInit 2 1 true) (0, 0) (1, 0)
      ⟨rfl, fun row hrow => by
        rw [List.eq_of_mem_replicate hrow]
        rfl⟩ (by decide)

/-- C8 counterexample: calling `solve` with the out-of-bounds start
`(-1, 0)` (distinct from the end) is silently tolerated: the scan reads
`grid[0][-1]` through Python's negative-index wrap-around and the call
returns the domain result `""` instead of raising `IndexError`. -/
theorem out_of_range_counterexample :
    solve (mazeInit 2 1 true) ((-1 : Int), 0) (0, 0) = .ok "" := by rfl

/-- C8 (amended): an access whose coordinate is at or beyond the list
length raises `IndexError`; only negative coordinates within `[-len, -1]`
are silently wrapped. `solve` started at `(width, 0)` reads
`grid[0][width]` during its first scan and fails. -/
theorem out_of_range_failure (st : MazeState) (hw : 1 ≤ st.width)
    (hh : 1 ≤ st.height) (hg : GridShape st.width st.height st.grid)
    (endc : Cell) (hne : (((st.width : Int), 0) : Cell) ≠ endc) :
    solve st ((st.width : Int), 0) endc = .error .indexError := by
  obtain ⟨hglen, hgrow⟩ := hg
  have h0len : (0 : Nat) < st.grid.length := by omega
  have hrl : (st.grid.getD 0 []).length = st.width := by
    rw [List.getD_eq_getElem?_getD, List.getElem?_eq_getElem h0len]
    exact hgrow _ (List.getElem_mem h0len)
  have hma : maskAccess st.grid (st.width : Int) 0 = .error .indexError := by
    have hrow : pyGet st.grid 0 = some (st.grid.getD 0 []) := by
      have := pyGet_getD (l := st.grid) [] (le_refl (0 : Int)) (by omega)
      simpa using this
    have hcell : pyGet (st.grid.getD 0 []) (st.width : Int) = none := by
      unfold pyGet
      have hnn : ¬ ((st.width : Int) < 0) := by omega
      simp only [if_neg hnn]
      rw [if_neg]
      rw [hrl]
      omega
    unfold maskAccess
    rw [hrow]
    dsimp only
    rw [hcell]
  have hbN : ¬ (inBounds st.width st.height
      ((st.width : Int) + 0, (0 : Int) + -1) = true) := by
    rw [inBounds_xy]
    omega
  have hbE : ¬ (inBounds st.width st.height
      ((st.width : Int) + 1, (0 : Int) + 0) = true) := by
    rw [inBounds_xy]
    omega
  have hbS : ¬ (inBounds st.width st.height
      ((st.width : Int) + 0, (0 : Int) + 1) = true) := by
    rw [inBounds_xy]
    omega
  have hbW : inBounds st.width st.height
      ((st.width : Int) + -1, (0 : Int) + 0) = true := by
    rw [inBounds_xy]
    omega
  have hmemW : (((st.width : Int) + -1, (0 : Int) + 0) : Cell)
      ∉ [(((st.width : Int), 0) : Cell)] := by
    intro hmem
    rw [List.mem_singleton, Prod.mk.injEq] at hmem
    omega
  have hscan : solveScan st.width st.height st.grid ((st.width : Int), 0) ""
      directions [] [(((st.width : Int), 0) : Cell)]
      = .error .indexError := by
    unfold directions
    rw [solveScan, if_neg hbN]
    rw [solveScan, if_neg hbE]
    rw [solveScan, if_neg hbS]
    rw [solveScan, if_pos hbW, if_neg hmemW]
    rw [hma]
  show solveLoop st.width st.height st.grid endc
    (st.width * st.height + 1 + 1) [(((st.width : Int), 0), "")]
    [(((st.width : Int), 0) : Cell)] = .error .indexError
  rw [solveLoop, if_neg hne]
  rw [hscan]

/-- Concrete instantiation of the amended C8 on a 2-by-1 grid. -/
theorem out_of_range_failure_witness :
    (1 ≤ 2 ∧ GridShape 2 1 [[(15 : Int), 15]] ∧
      (((2 : Int), (0 : Int)) : Cell) ≠ ((0 : Int), 0)) ∧
    solve (mazeInit 2 1 true) ((2 : Int), 0) ((0 : Int), 0)
      = .error .indexError := by
  refine ⟨⟨by decide, ⟨rfl, ?_⟩, by decide⟩, ?_⟩
  · intro row hrow
    rw [List.mem_singleton] at hrow
    subst hrow
    rfl
  · have := out_of_range_failure (mazeInit 2 1 true) (by decide) (by decide)
      ⟨rfl, fun row hrow => by
        rw [List.eq_of_mem_replicate hrow]
        rfl⟩ ((0 : Int), 0) (by decide)
    simpa using this

/-- Concrete instantiation of the amended C2 on a 2-by-2 maze, east
direction at the origin. -/
theorem wall_symmetry_witness :
    (('E', (1 : Int), (0 : Int), (2 : Int)) ∈ directions ∧
      inBounds 2 2 ((0 : Int), (0 : Int)) = true ∧
      inBounds 2 2 ((0 : Int) + 1, (0 : Int) + 0) = true) ∧
    (Int.land (gridGet (nonPerfectSeq
        (generate (addPattern (mazeInit 2 2 true)) (fun _ => 0)
          (fun _ => (0, 0, 0))) []).grid 0 0) 2 = 0 ↔
      Int.land (gridGet (nonPerfectSeq
        (generate (addPattern (mazeInit 2 2 true)) (fun _ => 0)
          (fun _ => (0, 0, 0))) []).grid ((0 : Int) + 1) ((0 : Int) + 0))
        (opposite 2) = 0) :=
  ⟨⟨by decide, by decide, by decide⟩,
    wall_symmetry 2 2 true (fun _ => 0) (fun _ => (0, 0, 0)) []
      ('E', (1 : Int), (0 : Int), (2 : Int)) (by decide) 0 0
      (by decide) (by decide)⟩

/-- Concrete instantiation of the amended C5 on a fresh 2-by-2 grid. -/
theorem braid_changed_bound_witness :
    GridShape 2 2 (mazeInit 2 2 true).grid ∧
    (changedCells 2 2 (mazeInit 2 2 true).grid
      (nonPerfect (mazeInit 2 2 true) (fun _ => (0, 0, 0))).grid).card
      ≤ 2 * (2 * 2 / 20) := by
  have hshape : GridShape 2 2 (mazeInit 2 2 true).grid :=
    ⟨rfl, fun row hrow => by
      rw [List.eq_of_mem_replicate hrow]
      rfl⟩
  refine ⟨hshape, ?_⟩
  exact braid_changed_bound (mazeInit 2 2 true) (fun _ => (0, 0, 0)) hshape

/-- Concrete instantiation of C7 on a fresh 1-by-1 grid. -/
theorem save_to_file_format_witness :
    (GridShape 1 1 (mazeInit 1 1 true).grid ∧
      (∀ row ∈ (mazeInit 1 1 true).grid, ∀ m ∈ row, 0 ≤ m ∧ m ≤ 15)) ∧
    (saveToFile (mazeInit 1 1 true) (0, 0) (0, 0) "" =
      String.join ((mazeInit 1 1 true).grid.map fun row =>
        (⟨row.map fun m => hexChar m.toNat⟩ : String) ++ "\n") ++ "\n"
        ++ toString ((0 : Int), (0 : Int)).1 ++ ","
        ++ toString ((0 : Int), (0 : Int)).2 ++ "\n"
        ++ toString ((0 : Int), (0 : Int)).1 ++ ","
        ++ toString ((0 : Int), (0 : Int)).2 ++ "\n"
        ++ "" ++ "\n" ∧
    (mazeInit 1 1 true).grid.length = (mazeInit 1 1 true).height ∧
    (∀ row ∈ (mazeInit 1 1 true).grid,
      (row.map fun m => hexChar m.toNat).length = (mazeInit 1 1 true).width ∧
      ∀ ch ∈ row.map fun m => hexChar m.toNat,
        ch ∈ ("0123456789ABCDEF" : String).data)) := by
  have hshape : GridShape 1 1 (mazeInit 1 1 true).grid :=
    ⟨rfl, fun row hrow => by
      rw [List.eq_of_mem_replicate hrow]
      rfl⟩
  have hrange : ∀ row ∈ (mazeInit 1 1 true).grid, ∀ m ∈ row,
      0 ≤ m ∧ m ≤ 15 := by decide
  exact ⟨⟨hshape, hrange⟩,
    save_to_file_format (mazeInit 1 1 true) (0, 0) (0, 0) "" hshape hrange⟩

end AMazeIng
